import Mathlib

/-!
# video-hunter: a shallow embedding of the download orchestration core

The definitions below follow `internal/downloader/types.go`,
`internal/downloader/ytdlp_downloader.go` and `internal/service/service.go`.

Conventions of the embedding:

* Go strings are Lean strings; the helpers work on the list of characters.
* `time.Time` is an integer number of nanoseconds counted from the zero `Time`
  (so `IsZero` is `t = 0`), `time.Duration` an integer number of nanoseconds.
* A finite `float64` is the rational number it denotes. `strconv.ParseFloat`
  and the `float64` subtraction round their exact result to the nearest
  `float64`, ties to the even significand (`float64.round`). A percentage is
  never infinite or NaN: `parseProgress` keeps a parsed value only when
  `ParseFloat` reports no error.
* What the operating system decides (directory listings, `os.Stat`, the exit
  status of an external process, the clock) is an explicit argument.
-/

namespace VideoHunter

/-! ## Go string helpers (package `strings`) -/

namespace Chars

/-- Does `s` start with `p`? -/
def startsWith : List Char → List Char → Bool
  | _, [] => true
  | [], _ :: _ => false
  | c :: s, d :: p => c == d && startsWith s p

/-- Does `sub` occur in `s`? -/
def contains : List Char → List Char → Bool
  | [], sub => startsWith [] sub
  | c :: s, sub => startsWith (c :: s) sub || contains s sub

/-- Split `s` around the first occurrence of `sep` (as `strings.Cut`). -/
def cut : List Char → List Char → Option (List Char × List Char)
  | [], sep => if startsWith [] sep then some ([], []) else none
  | c :: s, sep =>
    if startsWith (c :: s) sep then some ([], (c :: s).drop sep.length)
    else match cut s sep with
      | some (a, b) => some (c :: a, b)
      | none => none

/-- White space as `unicode.IsSpace` classifies it. -/
def isSpace (c : Char) : Bool :=
  c == '\t' || c == '\n' || c.toNat == 11 || c.toNat == 12 || c == '\r' || c == ' ' ||
  c.toNat == 0x85 || c.toNat == 0xA0 || c.toNat == 0x1680 ||
  (0x2000 ≤ c.toNat && c.toNat ≤ 0x200A) || c.toNat == 0x2028 || c.toNat == 0x2029 ||
  c.toNat == 0x202F || c.toNat == 0x205F || c.toNat == 0x3000

/-- Remove leading and trailing white space. -/
def trimSpace (s : List Char) : List Char :=
  ((s.dropWhile isSpace).reverse.dropWhile isSpace).reverse

end Chars

namespace strings

/-- Go `strings.HasPrefix`. -/
def HasPrefix (s p : String) : Bool := Chars.startsWith s.data p.data

/-- Go `strings.HasSuffix`. -/
def HasSuffix (s p : String) : Bool := Chars.startsWith s.data.reverse p.data.reverse

/-- Go `strings.Contains`. -/
def Contains (s sub : String) : Bool := Chars.contains s.data sub.data

/-- Go `strings.SplitN(s, sep, 2)` for a non-empty separator: one part when the
separator does not occur, else the text before and after its first occurrence. -/
def SplitN2 (s sep : String) : List String :=
  match Chars.cut s.data sep.data with
  | some (a, b) => [String.mk a, String.mk b]
  | none => [s]

/-- Go `strings.Replace(s, old, new, 1)` for a non-empty `old`. -/
def Replace1 (s old new : String) : String :=
  match Chars.cut s.data old.data with
  | some (a, b) => String.mk (a ++ new.data ++ b)
  | none => s

/-- Go `strings.TrimSpace`. -/
def TrimSpace (s : String) : String := String.mk (Chars.trimSpace s.data)

/-- Go `strings.TrimSuffix`. -/
def TrimSuffix (s suffix : String) : String :=
  if HasSuffix s suffix then String.mk (s.data.take (s.data.length - suffix.data.length)) else s

end strings

/-! ## Regular expressions of `parseProgress`

Every pattern used by `parseProgress` is a sequence of character classes, each
taken once, optionally, or repeated greedily, with capture groups around some
of them. `matchHere` is the backtracking matcher (longest repetition first,
which is the leftmost-first choice of Go's `regexp`), and `find` tries the
start positions from left to right. -/

namespace regexp

/-- Quantifier of one character class. -/
inductive Quant
  | one
  | opt
  | star
  | plus

/-- One element of a pattern: a quantified character class, or the boundary of
a capture group (whose position is recorded). -/
inductive Item
  | cls (p : Char → Bool) (q : Quant)
  | mark

/-- Greedy repetition of the class `p`, then the continuation `k`: the longest
run is tried first. -/
def starThen (p : Char → Bool) (k : List Char → Nat → Option (List Nat)) :
    List Char → Nat → Option (List Nat)
  | [], pos => k [] pos
  | c :: s, pos =>
    if p c then
      match starThen p k s (pos + 1) with
      | some r => some r
      | none => k (c :: s) pos
    else k (c :: s) pos

/-- Match the items at the head of the input, which starts at offset `pos`;
the result lists the offsets of the group boundaries and then the end of the
match. -/
def matchHere : List Item → List Char → Nat → Option (List Nat)
  | [], _, pos => some [pos]
  | Item.mark :: rest, s, pos => (matchHere rest s pos).map (fun r => pos :: r)
  | Item.cls p Quant.one :: rest, s, pos =>
    match s with
    | c :: s1 => if p c then matchHere rest s1 (pos + 1) else none
    | [] => none
  | Item.cls p Quant.opt :: rest, s, pos =>
    match s with
    | c :: s1 =>
      if p c then
        match matchHere rest s1 (pos + 1) with
        | some r => some r
        | none => matchHere rest s pos
      else matchHere rest s pos
    | [] => matchHere rest s pos
  | Item.cls p Quant.star :: rest, s, pos =>
    starThen p (fun s1 pos1 => matchHere rest s1 pos1) s pos
  | Item.cls p Quant.plus :: rest, s, pos =>
    match s with
    | c :: s1 =>
      if p c then starThen p (fun s2 pos2 => matchHere rest s2 pos2) s1 (pos + 1) else none
    | [] => none

/-- Leftmost match: the first start offset at which the items match. -/
def find (items : List Item) : List Char → Nat → Option (List Nat)
  | [], pos => matchHere items [] pos
  | c :: s, pos =>
    match matchHere items (c :: s) pos with
    | some r => some r
    | none => find items s (pos + 1)

/-- The text between two offsets. -/
def slice (s : List Char) (a b : Nat) : String := String.mk ((s.drop a).take (b - a))

/-- The class `\d`. -/
def digit (c : Char) : Bool := '0'.toNat ≤ c.toNat && c.toNat ≤ '9'.toNat

/-- The class `\s`. -/
def space (c : Char) : Bool :=
  c == '\t' || c == '\n' || c.toNat == 12 || c == '\r' || c == ' '

/-- A literal character. -/
def lit (d : Char) : Item := Item.cls (fun c => c == d) Quant.one

/-- The items of `\d+\.?\d*`. -/
def number : List Item :=
  [Item.cls digit Quant.plus, Item.cls (fun c => c == '.') Quant.opt, Item.cls digit Quant.star]

/-- The items of `\d+\.?\d*\s*[KMG]?i?B`. -/
def size : List Item :=
  number ++ [Item.cls space Quant.star,
    Item.cls (fun c => c == 'K' || c == 'M' || c == 'G') Quant.opt,
    Item.cls (fun c => c == 'i') Quant.opt, lit 'B']

end regexp

/-! ## `float64` arithmetic

A finite `float64` is held as the rational number it denotes. `round` is the
rounding every `float64` operation ends with: to the nearest value with a
53-bit significand, ties to the even significand, with the spacing
`2 ^ (-1074)` of the subnormal range below `2 ^ (-1022)`. -/

namespace float64

/-- The power `2 ^ e` for an integer exponent. -/
def pow2 (e : Int) : Rat :=
  if 0 ≤ e then ((2 ^ e.toNat : Nat) : Rat) else 1 / ((2 ^ (-e).toNat : Nat) : Rat)

/-- Halving `n` until it is below 2, counting the steps (at most `fuel`). -/
def log2Aux : Nat → Nat → Nat
  | 0, _ => 0
  | fuel + 1, n => if n < 2 then 0 else log2Aux fuel (n / 2) + 1

/-- The position of the leading bit of `n`. -/
def log2 (n : Nat) : Nat := log2Aux n n

/-- The binary exponent of a positive value `x`: the `e` with
`2 ^ e ≤ x < 2 ^ (e + 1)`. -/
def exponent (x : Rat) : Int :=
  let e : Int := (log2 x.num.natAbs : Int) - (log2 x.den : Int)
  if x < pow2 e then e - 1 else e

/-- The integer nearest to `m`, the even one of the two when `m` lies half way. -/
def roundEven (m : Rat) : Int :=
  let f := Rat.floor m
  if m - f < 1 / 2 then f
  else if 1 / 2 < m - f then f + 1
  else if f % 2 = 0 then f else f + 1

/-- Rounding of a positive value: the significand is rounded at the spacing
of the binade of `a`, or at the subnormal spacing. -/
def roundAbs (a : Rat) : Rat :=
  let q := pow2 (max (exponent a) (-1022) - 52)
  roundEven (a / q) * q

/-- Rounding to `float64`. The result stands for an infinity when it is
`2 ^ 1024` or more in size, which no operation of this development reaches
on its inputs. -/
def round (x : Rat) : Rat :=
  if x = 0 then 0 else if x < 0 then - roundAbs (-x) else roundAbs x

/-- The `float64` difference `a - b`. -/
def sub (a b : Rat) : Rat := round (a - b)

/-- The finite `float64` values: a significand below `2 ^ 53` in size times a
power of two between `2 ^ (-1074)` and `2 ^ 971`. -/
def IsFloat64 (v : Rat) : Prop :=
  ∃ k e : Int, |k| < 2 ^ 53 ∧ -1074 ≤ e ∧ e ≤ 971 ∧ v = k * pow2 e

/-- The value `v` is the `float64` that IEEE 754 round-to-nearest-even gives
for `x`: no `float64` is nearer to `x`, and when another one is as near, `v`
is the one with the even significand (an even multiple of their distance). -/
def Rounds (x v : Rat) : Prop :=
  IsFloat64 v ∧ (∀ w, IsFloat64 w → |x - v| ≤ |x - w|) ∧
    ∀ w, IsFloat64 w → w ≠ v → |x - w| = |x - v| → ∃ k : Int, v = 2 * k * (w - v)

end float64

/-! ## `strconv.ParseFloat` on the numerals the percentage pattern captures -/

/-- Value of a digit string in base ten. -/
def natOfDigits (ds : List Char) : Nat :=
  ds.foldl (fun n c => 10 * n + (c.toNat - '0'.toNat)) 0

/-- Go `strconv.ParseFloat(s, 64)` for `s` of the form `<digits>[.[<digits>]]`:
the `float64` nearest to the decimal value (package `strconv` documents IEEE
754 unbiased rounding), or `none` for the range error Go reports when the
value rounds beyond the largest `float64`. -/
def ParseFloat (s : String) : Option Rat :=
  let ip := s.data.takeWhile regexp.digit
  let fp := match s.data.dropWhile regexp.digit with
    | '.' :: r => r.takeWhile regexp.digit
    | _ => []
  let v : Rat := mkRat (natOfDigits (ip ++ fp)) (10 ^ fp.length)
  if (2 : Rat) ^ 1024 - (2 : Rat) ^ 970 ≤ v then none else some (float64.round v)

/-! ## `fmt.Errorf` with a format string and no operands

`Download` and `DownloadBilibili` build their error as `fmt.Errorf(errMsg)`:
the message is the format string and there are no operands. The functions
below follow `doPrintf` of package `fmt` for that case: text up to the next
`%` is copied; after a `%` come flags, an optional argument index `[n]`,
width, precision, a second optional index and the verb, and the formatter
writes `%` for the verb `%`, `%!v(BADINDEX)` after a bad index, `%!v(MISSING)`
for any other verb `v`, and `%!(NOVERB)` when the text ends first. -/

namespace fmt

/-- The function `parsenum` on the text between `start` and `end`: the value of
the leading digits, whether there was a digit, and the text after them; a
number beyond a million gives `(0, false)` and skips to `end`. -/
def parsenumAux : Nat → Bool → List Char → Nat × Bool × List Char
  | num, isnum, [] => (num, isnum, [])
  | num, isnum, c :: s =>
    if regexp.digit c then
      if 1000000 < num then (0, false, [])
      else parsenumAux (num * 10 + (c.toNat - '0'.toNat)) true s
    else (num, isnum, c :: s)

/-- The function `parsenum` from the start of a text. -/
def parsenum (s : List Char) : Nat × Bool × List Char := parsenumAux 0 false s

/-- The method `argNumber` without operands, on the format from the current
position: the format after the index, whether an index `[n]` was read, and
whether the argument number is still good. No index is in range when there
are no operands, so reading `[` always makes the argument number bad. -/
def argNumber (s : List Char) (good : Bool) : List Char × Bool × Bool :=
  match s with
  | '[' :: rest =>
    if s.length < 3 then (rest, false, false)
    else if rest.contains ']' then
      let inside := rest.takeWhile (fun c => c != ']')
      let after := (rest.dropWhile (fun c => c != ']')).drop 1
      match parsenum inside with
      | (_, true, []) => (after, true, false)
      | _ => (after, false, false)
    else (rest, false, false)
  | _ => (s, false, good)

/-- One verb of the format, from the character after its `%`: what is written
and the format that remains (`none`: the format ended before the verb). -/
def verb (s : List Char) : List Char × Option (List Char) :=
  let s := s.dropWhile (fun c => c == '#' || c == '0' || c == '+' || c == '-' || c == ' ')
  let (s, afterIndex, good) := argNumber s true
  -- width
  let (out, s, afterIndex, good) :=
    match s with
    | '*' :: rest => ("%!(BADWIDTH)".data, rest, false, good)
    | _ =>
      let (_, widPresent, rest) := parsenum s
      ([], rest, afterIndex, if afterIndex && widPresent then false else good)
  -- precision
  let (out, s, afterIndex, good) :=
    match s with
    | '.' :: rest =>
      let good := if afterIndex then false else good
      let (rest, afterIndex, good) := argNumber rest good
      match rest with
      | '*' :: rest => (out ++ "%!(BADPREC)".data, rest, false, good)
      | _ => (out, (parsenum rest).2.2, afterIndex, good)
    | _ => (out, s, afterIndex, good)
  let (s, good) :=
    if afterIndex then (s, good)
    else let r := argNumber s good; (r.1, r.2.2)
  match s with
  | [] => (out ++ "%!(NOVERB)".data, none)
  | v :: rest =>
    if v = '%' then (out ++ ['%'], some rest)
    else if !good then (out ++ '%' :: '!' :: v :: "(BADINDEX)".data, some rest)
    else (out ++ '%' :: '!' :: v :: "(MISSING)".data, some rest)

/-- The loop of `doPrintf` without operands; every round consumes at least the
`%` it stops at, so a fuel of one more than the length of the format is
never used up. -/
def doPrintf : Nat → List Char → List Char
  | 0, _ => []
  | fuel + 1, s =>
    let text := s.takeWhile (fun c => c != '%')
    match s.dropWhile (fun c => c != '%') with
    | [] => text
    | _ :: afterPercent =>
      match verb afterPercent with
      | (out, some rest) => text ++ out ++ doPrintf fuel rest
      | (out, none) => text ++ out

/-- The message of the error `fmt.Errorf(format)`. -/
def Errorf (format : String) : String :=
  String.mk (doPrintf (format.data.length + 1) format.data)

/-- The text `fmt.Sprintf` writes for the part `format` of a format string
that is reached with no operand left. -/
def Sprintf (format : String) : String :=
  String.mk (doPrintf (format.data.length + 1) format.data)

end fmt

/-! ## Data model (`types.go`) -/

/-- Go `time.Time`: nanoseconds since the zero `Time`. -/
abbrev Time := Int

/-- Go `time.Duration`: nanoseconds. -/
abbrev Duration := Int

/-- Go `time.Second`. -/
def Second : Duration := 1000000000

/-- Go `time.Minute`. -/
def Minute : Duration := 60 * Second

/-- Go `Time.IsZero`. -/
def Time.IsZero (t : Time) : Bool := t == 0

/-- Go `Time.Sub`: the difference, saturated to the range of `int64`. -/
def Time.Sub (t u : Time) : Duration :=
  if t - u > 9223372036854775807 then 9223372036854775807
  else if t - u < -9223372036854775808 then -9223372036854775808
  else t - u

/-- Go `Time.After`. -/
def Time.After (t u : Time) : Bool := decide (u < t)

/-- Go `Time.Before`. -/
def Time.Before (t u : Time) : Bool := decide (t < u)

/-- Type `DownloadStatus` (a Go string type). -/
abbrev DownloadStatus := String

def StatusPending : DownloadStatus := "pending"
def StatusDownloading : DownloadStatus := "downloading"
def StatusCompleted : DownloadStatus := "completed"
def StatusFailed : DownloadStatus := "failed"
def StatusCancelled : DownloadStatus := "cancelled"

/-- Type `DownloadRequest`. -/
structure DownloadRequest where
  URL : String := ""
  Output : String := ""
  Format : String := ""
  Threads : Int := 0
  Timeout : Int := 0
  Metadata : List (String × String) := []
  SaveToLocal : Bool := false
  Headers : List (String × String) := []
  Cookies : String := ""
  Referer : String := ""
  Options : List (String × String) := []
  TaskID : String := ""
  deriving DecidableEq

/-- Type `DownloadResponse`; the zero value is the default. -/
structure DownloadResponse where
  ID : String := ""
  Status : DownloadStatus := ""
  Progress : Rat := 0
  Speed : String := ""
  ETA : String := ""
  File : String := ""
  Size : Int := 0
  Error : String := ""
  Metadata : List (String × String) := []
  Created : Time := 0
  Updated : Time := 0
  Title : String := ""
  deriving DecidableEq

/-! ## `parseProgress` (`types.go`) -/

/-- The function `parseProgress`: percentage, speed, ETA and the size pair of
one output line. -/
def parseProgress (line : String) : DownloadResponse :=
  let s := line.data
  let resp : DownloadResponse := {}
  -- progressRegex: (\d+\.?\d*)%
  let resp :=
    match regexp.find ([regexp.Item.mark] ++ regexp.number ++ [regexp.Item.mark, regexp.lit '%']) s 0 with
    | some (a :: b :: _) =>
      match ParseFloat (regexp.slice s a b) with
      | some pct => { resp with Progress := pct }
      | none => resp
    | _ => resp
  -- speedRegex: (\d+\.?\d*\s*[KMG]?i?B/s)
  let resp :=
    match regexp.find ([regexp.Item.mark] ++ regexp.size ++
        [regexp.lit '/', regexp.lit 's', regexp.Item.mark]) s 0 with
    | some (a :: b :: _) => { resp with Speed := regexp.slice s a b }
    | _ => resp
  -- etaRegex: ETA\s+(\d+:\d+)
  let resp :=
    match regexp.find ([regexp.lit 'E', regexp.lit 'T', regexp.lit 'A',
        regexp.Item.cls regexp.space regexp.Quant.plus, regexp.Item.mark,
        regexp.Item.cls regexp.digit regexp.Quant.plus, regexp.lit ':',
        regexp.Item.cls regexp.digit regexp.Quant.plus, regexp.Item.mark]) s 0 with
    | some (a :: b :: _) => { resp with ETA := regexp.slice s a b }
    | _ => resp
  -- sizeRegex: (\d+\.?\d*\s*[KMG]?i?B)\s+of\s+(\d+\.?\d*\s*[KMG]?i?B)
  match regexp.find ([regexp.Item.mark] ++ regexp.size ++
      [regexp.Item.mark, regexp.Item.cls regexp.space regexp.Quant.plus, regexp.lit 'o',
       regexp.lit 'f', regexp.Item.cls regexp.space regexp.Quant.plus, regexp.Item.mark] ++
      regexp.size ++ [regexp.Item.mark]) s 0 with
  | some (a :: b :: c :: d :: _) =>
    { resp with Metadata := [("downloaded", regexp.slice s a b), ("total_size", regexp.slice s c d)] }
  | _ => resp


/-! ## Progress forwarding (`service.go`, the callback of `processYtdlpDownload`) -/

/-- The message `broadcastProgress` builds from a task record. -/
structure ProgressMessage where
  type : String
  id : String
  progress : Rat
  speed : String
  eta : String
  status : DownloadStatus
  file : String
  error : String
  updated : Time
  deriving DecidableEq

/-- The message of `broadcastProgress(id, download)`. -/
def progressMessage (id : String) (download : DownloadResponse) : ProgressMessage :=
  { type := "progress", id := id, progress := download.Progress, speed := download.Speed,
    eta := download.ETA, status := download.Status, file := download.File,
    error := download.Error, updated := download.Updated }

/-- What the progress callback reads and writes: its two captured variables
`lastProgressTime` and `lastProgress`, the task record `download`, and the
messages it has handed to `broadcastProgress` (oldest first). -/
structure CallbackState where
  lastProgressTime : Time := 0
  lastProgress : Rat := 0
  download : DownloadResponse
  broadcasts : List ProgressMessage := []
  deriving DecidableEq

/-- The closure `progressCallback` of `processYtdlpDownload`, run at clock
reading `now` on the sample `progress`. The percentages are `float64` values
and `progress.Progress-lastProgress` is their `float64` difference. -/
def progressCallback (id : String) (st : CallbackState) (now : Time)
    (progress : DownloadResponse) : CallbackState :=
  if st.lastProgressTime.IsZero ||
      decide (Second ≤ now.Sub st.lastProgressTime) ||
      decide (1 ≤ float64.sub progress.Progress st.lastProgress) ||
      decide (100 ≤ progress.Progress) then
    let download := { st.download with
      Progress := progress.Progress, Speed := progress.Speed, ETA := progress.ETA,
      Updated := now }
    { lastProgressTime := now, lastProgress := progress.Progress, download := download,
      broadcasts := st.broadcasts ++ [progressMessage id download] }
  else st

/-- The callback applied to a sequence of samples, each with the clock reading
at which it is delivered. -/
def runCallback (id : String) (st : CallbackState) :
    List (Time × DownloadResponse) → CallbackState
  | [] => st
  | (now, progress) :: rest => runCallback id (progressCallback id st now progress) rest

/-- The callback state right after `processYtdlpDownload` created the closure. -/
def newCallback (download : DownloadResponse) : CallbackState :=
  { download := download }

/-- The samples a reader of `Download` delivers: one per line containing `%`. -/
def samplesOfLines (lines : List (Time × String)) : List (Time × DownloadResponse) :=
  (lines.filter (fun l => strings.Contains l.2 "%")).map (fun l => (l.1, parseProgress l.2))

/-- The samples of the rate-limiting scenario: 0, 0.2, 0.5, 1.2, 1.3 and 50
per cent, all delivered within the first second. -/
def burstSamples : List (Time × DownloadResponse) :=
  [(100000000, { Progress := 0 }), (200000000, { Progress := float64.round (1 / 5) }),
   (300000000, { Progress := 1 / 2 }), (400000000, { Progress := float64.round (6 / 5) }),
   (500000000, { Progress := float64.round (13 / 10) }), (600000000, { Progress := 50 })]

/-- Two output lines of a transfer that fetches two streams one after the
other: the second stream starts over at a low percentage, two seconds later. -/
def twoStreamLines : List (Time × String) :=
  [(1000000000, "[download]  50.0% of 10.00MiB at 1.20MiB/s ETA 00:05"),
   (3000000000, "[download]  10.0% of 3.00MiB at 1.20MiB/s ETA 00:02")]

/-- Two consecutive broadcasts of the callback: the later one reports a lower
percentage only if it came a second or more after the earlier one, or reports
at least 100. -/
def DropAllowed (m1 m2 : ProgressMessage) : Prop :=
  m2.progress < m1.progress → Second ≤ m2.updated.Sub m1.updated ∨ 100 ≤ m2.progress

/-! ## Paths (package `path/filepath`, Unix) -/

namespace filepath

/-- The components of a path: the text between the slashes. -/
def splitSlash : List Char → List (List Char)
  | [] => [[]]
  | c :: s =>
    if c = '/' then [] :: splitSlash s
    else match splitSlash s with
      | h :: t => (c :: h) :: t
      | [] => [[c]]

/-- Components joined by single slashes. -/
def joinSlash : List (List Char) → List Char
  | [] => []
  | [c] => c
  | c :: d :: rest => c ++ '/' :: joinSlash (d :: rest)

/-- The component stack of `Clean` (innermost component first): empty and `.`
components are dropped, `..` removes the component before it when there is
one to remove, and is kept only in a relative path. -/
def cleanComps (rooted : Bool) : List (List Char) → List (List Char) → List (List Char)
  | stack, [] => stack
  | stack, c :: cs =>
    if c = [] ∨ c = ['.'] then cleanComps rooted stack cs
    else if c = ['.', '.'] then
      match stack with
      | top :: below =>
        if top = ['.', '.'] then cleanComps rooted (c :: stack) cs
        else cleanComps rooted below cs
      | [] => if rooted then cleanComps rooted [] cs else cleanComps rooted [c] cs
    else cleanComps rooted (c :: stack) cs

/-- The path a component stack denotes. -/
def render (rooted : Bool) (stack : List (List Char)) : List Char :=
  if rooted then '/' :: joinSlash stack.reverse
  else if stack = [] then ['.']
  else joinSlash stack.reverse

/-- Go `filepath.Clean` on characters. -/
def cleanChars (p : List Char) : List Char :=
  if p = [] then ['.']
  else render (p.head? = some '/') (cleanComps (p.head? = some '/') [] (splitSlash p))

/-- Go `filepath.Clean`. -/
def Clean (p : String) : String := String.mk (cleanChars p.data)

/-- Go `filepath.Join` of two elements. -/
def Join (a b : String) : String :=
  if a ≠ "" then Clean (String.mk (a.data ++ '/' :: b.data))
  else if b ≠ "" then Clean b
  else ""

/-- Go `filepath.Base` on characters. -/
def baseChars (p : List Char) : List Char :=
  if p = [] then ['.']
  else
    let q := (p.reverse.dropWhile (fun c => c == '/')).reverse
    if q = [] then ['/']
    else (q.reverse.takeWhile (fun c => c != '/')).reverse

/-- Go `filepath.Base`. -/
def Base (p : String) : String := String.mk (baseChars p.data)

/-- Go `filepath.Dir`: the cleaned text up to the last slash. -/
def Dir (p : String) : String :=
  String.mk (cleanChars (p.data.reverse.dropWhile (fun c => c != '/')).reverse)

/-- Go `filepath.Ext`: the suffix of the last component from its last dot. -/
def Ext (p : String) : String :=
  let last := (p.data.reverse.takeWhile (fun c => c != '/')).reverse
  if last.contains '.' then
    String.mk ('.' :: (last.reverse.takeWhile (fun c => c != '.')).reverse)
  else ""

end filepath

/-! ## File resolution (`ytdlp_downloader.go`: `findActualFile`, `findLatestFile`) -/

/-- One entry of `os.ReadDir`: its name, whether it is a directory, and the
modification time its `Info()` reports (`none` when `Info()` fails). -/
structure DirEntry where
  Name : String
  IsDir : Bool := false
  ModTime : Option Time := none
  deriving DecidableEq

/-- What the operating system answers while a file is resolved: the listing
of the output directory (or the error of `os.ReadDir`), whether
`exec.LookPath("ffmpeg")` finds the tool, whether a command run with the
given arguments exits with status zero, the clock, and the RFC 3339 text of a
time. -/
structure System where
  ReadDir : Except String (List DirEntry)
  LookPathFfmpeg : Bool
  Run : List String → Bool
  Now : Time
  FormatRFC3339 : Time → String
  /-- The error of `os.Stat` on a path (`none`: the file is there). -/
  Stat : String → Option String := fun _ => none
  /-- The error of `os.Stat` on a path once the remux command has run. -/
  StatAfterRun : String → Option String := fun _ => none
  /-- The error text and the captured standard error of a failed command. -/
  RunError : List String → String := fun _ => "exit status 1"
  RunStderr : List String → String := fun _ => ""
  /-- Does `os.Rename` of the first path to the second succeed? -/
  Rename : String → String → Bool := fun _ _ => true
  /-- The matches of `filepath.Glob` for a pattern. -/
  Glob : String → List String := fun _ => []

/-- The result of a resolution: the returned path or the error, and the
external commands that were run (argument vectors, oldest first). -/
structure Resolution where
  result : Except String String
  commands : List (List String) := []

/-- The map `systemFiles`. -/
def systemFiles (name : String) : Bool :=
  name == ".DS_Store" || name == "Thumbs.db" || name == ".gitignore"

/-- The loop state of `findLatestFile`: `latestFile` (its name and modification
time) and `latestTime`. -/
structure Latest where
  latestFile : Option (String × Time) := none
  latestTime : Time := 0

/-- One iteration of the loop of `findLatestFile`. -/
def latestStep (st : Latest) (file : DirEntry) : Latest :=
  if !file.IsDir then
    if systemFiles file.Name then st
    else if strings.HasPrefix file.Name "." then st
    else match file.ModTime with
      | none => st
      | some modTime =>
        if Time.After modTime st.latestTime then
          { latestFile := some (file.Name, modTime), latestTime := modTime }
        else st
  else st

/-- The method `findLatestFile`. -/
def findLatestFile (OutputDir : String) (sys : System) : Except String String :=
  match sys.ReadDir with
  | Except.error err => Except.error ("读取输出目录失败: " ++ err)
  | Except.ok files =>
    match (files.foldl latestStep {}).latestFile with
    | none => Except.error "未找到下载的文件"
    | some (name, modTime) =>
      let fiveMinutesAgo := sys.Now + (-5 * Minute)
      if Time.Before modTime fiveMinutesAgo then
        Except.error ("未找到最近5分钟内创建的文件，最新文件创建于 " ++ sys.FormatRFC3339 modTime)
      else Except.ok (filepath.Join OutputDir name)

/-- The loop state of `findActualFile`. -/
structure Scan where
  matchedFiles : List String := []
  videoFile : String := ""
  audioFile : String := ""
  mergedFile : String := ""
  deriving DecidableEq

/-- One iteration of the loop of `findActualFile`. -/
def scanStep (OutputDir taskID : String) (st : Scan) (file : DirEntry) : Scan :=
  if !file.IsDir then
    if systemFiles file.Name then st
    else if strings.HasPrefix file.Name "." then st
    else if strings.HasPrefix file.Name (taskID ++ "_") then
      let filePath := filepath.Join OutputDir file.Name
      let st := { st with matchedFiles := st.matchedFiles ++ [filePath] }
      let st :=
        if strings.HasSuffix file.Name ".mp4" then
          if !strings.Contains file.Name ".f" then { st with mergedFile := filePath }
          else { st with videoFile := filePath }
        else st
      if strings.HasSuffix file.Name ".m4a" || strings.HasSuffix file.Name ".aac" ||
          strings.HasSuffix file.Name ".mp3" then
        { st with audioFile := filePath }
      else st
    else st
  else st

/-- The task ID `findActualFile` reads off the template: the text of the base
name before its first `_`, empty when the base name has no `_`. -/
def templateTaskID (outputTemplate : String) : String :=
  match strings.SplitN2 (filepath.Base outputTemplate) "_" with
  | taskID :: _ :: _ => taskID
  | _ => ""

/-- The loop of `findActualFile` over the listing, from the empty state. -/
def scanFiles (OutputDir taskID : String) (files : List DirEntry) : Scan :=
  files.foldl (scanStep OutputDir taskID) {}

/-- The arguments of the remux command of `findActualFile`. -/
def remuxArgs (videoFile audioFile mergedPath : String) : List String :=
  ["ffmpeg", "-i", videoFile, "-i", audioFile, "-c:v", "copy", "-c:a", "aac",
   "-strict", "experimental", "-y", mergedPath]

/-- The method `findActualFile`. -/
def findActualFile (OutputDir : String) (sys : System) (outputTemplate : String) :
    Resolution :=
  let taskID := templateTaskID outputTemplate
  if taskID = "" then { result := findLatestFile OutputDir sys }
  else
    match sys.ReadDir with
    | Except.error err => { result := Except.error ("读取输出目录失败: " ++ err) }
    | Except.ok files =>
      let st := scanFiles OutputDir taskID files
      if st.mergedFile ≠ "" then { result := Except.ok st.mergedFile }
      else if st.videoFile ≠ "" ∧ st.audioFile ≠ "" then
        if !sys.LookPathFfmpeg then { result := Except.ok st.videoFile }
        else
          let mergedFilename := taskID ++ "_merged.mp4"
          let mergedPath := filepath.Join OutputDir mergedFilename
          let args := remuxArgs st.videoFile st.audioFile mergedPath
          if sys.Run args then { result := Except.ok mergedPath, commands := [args] }
          else { result := Except.ok st.videoFile, commands := [args] }
      else if st.videoFile ≠ "" then { result := Except.ok st.videoFile }
      else if st.audioFile ≠ "" then { result := Except.ok st.audioFile }
      else
        match st.matchedFiles with
        | first :: _ => { result := Except.ok first }
        | [] => { result := findLatestFile OutputDir sys }

/-- A system in which the output directory holds `files`, `ffmpeg` is
installed and every command succeeds (`ok = true`) or fails. -/
def systemWith (files : List DirEntry) (now : Time) (ffmpeg ok : Bool) : System :=
  { ReadDir := Except.ok files, LookPathFfmpeg := ffmpeg, Run := fun _ => ok, Now := now,
    FormatRFC3339 := fun _ => "" }

/-- A name `os.ReadDir` can report: not empty, without a slash, and neither
`.` nor `..`. -/
def ValidName (name : String) : Prop :=
  name.data ≠ [] ∧ '/' ∉ name.data ∧ name.data ≠ ['.'] ∧ name.data ≠ ['.', '.']

/-- An entry `findActualFile` attributes to the task: a file, not hidden,
whose name starts with `<taskID>_`. -/
def TaskFile (taskID : String) (e : DirEntry) : Prop :=
  e.IsDir = false ∧ strings.HasPrefix e.Name "." = false ∧
    strings.HasPrefix e.Name (taskID ++ "_") = true

/-- A merged (final) candidate: a task file ending in `.mp4` without the
format-id marker `.f`. -/
def MergedCandidate (taskID : String) (e : DirEntry) : Prop :=
  TaskFile taskID e ∧ strings.HasSuffix e.Name ".mp4" = true ∧
    strings.Contains e.Name ".f" = false

/-- A separate-video candidate: a task file ending in `.mp4` with the marker
`.f`. -/
def VideoCandidate (taskID : String) (e : DirEntry) : Prop :=
  TaskFile taskID e ∧ strings.HasSuffix e.Name ".mp4" = true ∧
    strings.Contains e.Name ".f" = true

/-- An audio candidate: a task file ending in `.m4a`, `.aac` or `.mp3`. -/
def AudioCandidate (taskID : String) (e : DirEntry) : Prop :=
  TaskFile taskID e ∧
    (strings.HasSuffix e.Name ".m4a" = true ∨ strings.HasSuffix e.Name ".aac" = true ∨
      strings.HasSuffix e.Name ".mp3" = true)

/-- A file `findLatestFile` considers: not a directory, not one of the
operating-system noise names, not hidden. -/
def PlainFile (e : DirEntry) : Prop :=
  e.IsDir = false ∧ systemFiles e.Name = false ∧ strings.HasPrefix e.Name "." = false

instance (taskID : String) (e : DirEntry) : Decidable (TaskFile taskID e) := by
  unfold TaskFile; infer_instance

instance (taskID : String) (e : DirEntry) : Decidable (MergedCandidate taskID e) := by
  unfold MergedCandidate; infer_instance

instance (taskID : String) (e : DirEntry) : Decidable (VideoCandidate taskID e) := by
  unfold VideoCandidate; infer_instance

instance (taskID : String) (e : DirEntry) : Decidable (AudioCandidate taskID e) := by
  unfold AudioCandidate; infer_instance

instance (e : DirEntry) : Decidable (PlainFile e) := by
  unfold PlainFile; infer_instance

/-- The listing of the file-resolution scenario: the task's video next to an
unrelated file. -/
def resolutionListing : List DirEntry :=
  [{ Name := "T1_video.mp4", ModTime := some 1000 }, { Name := "other.mp4", ModTime := some 2000 }]

/-- The listing of the merge scenario: a separate video stream and a separate
audio stream of task `T1`. -/
def splitListing : List DirEntry :=
  [{ Name := "T1_video.f100.mp4", ModTime := some 1000 },
   { Name := "T1_audio.m4a", ModTime := some 2000 }]

/-- An output template of task `T1`. -/
def t1Template : String := "downloads/T1_%(title)s.%(ext)s"

/-- The merge scenario after the merged file has appeared next to the two
streams. -/
def mergedListing : List DirEntry :=
  splitListing ++ [{ Name := "T1_video.mp4", ModTime := some 3000 }]

/-- What the loop of `findLatestFile` maintains after the entries `seen`:
`latestFile` is a plain file among them with modification time `latestTime`
(or nothing was kept and `latestTime` is still the zero `Time`), and no plain
file among them is newer than `latestTime`. -/
def LatestInv (seen : List DirEntry) (st : Latest) : Prop :=
  (match st.latestFile with
    | none => st.latestTime = 0
    | some (name, t) =>
      t = st.latestTime ∧ ∃ e ∈ seen, PlainFile e ∧ e.ModTime = some t ∧ e.Name = name) ∧
  ∀ e ∈ seen, PlainFile e → ∀ t, e.ModTime = some t → t ≤ st.latestTime

/-- The stale-fallback scenario: the only file was modified six minutes before
the clock reading `1000 + 6 * Minute`. -/
def staleListing : List DirEntry := [{ Name := "old.mp4", ModTime := some 1000 }]

/-! ## The transfer driver for one host (`ytdlp_downloader.go`: `DownloadBilibili`) -/

/-- The settings the driver reads: `config.YtDlp.Path` and
`config.Downloader.OutputDir`. -/
structure Config where
  YtDlpPath : String
  OutputDir : String
  /-- The setting `config.YtDlp.UserAgent`, which only `GetVideoInfo` reads. -/
  UserAgent : String := ""

/-- The output stream a line was read from. -/
inductive Stream
  | stdout
  | stderr
  deriving DecidableEq

/-- One run of the external transfer process as the driver sees it: the errors
of creating the pipes and of starting the process (`none`: success), the lines
the two readers handle, in the order in which they handle them, and the error
of `cmd.Wait()` (`none`: exit status zero). -/
structure ProcessRun where
  StdoutPipe : Option String := none
  StderrPipe : Option String := none
  Start : Option String := none
  lines : List (Stream × String) := []
  Wait : Option String := none

/-- The variables the two readers of `DownloadBilibili` write. -/
structure Observed where
  stdoutOutput : String := ""
  stderrOutput : String := ""
  actualFilePath : String := ""
  videoFile : String := ""
  audioFile : String := ""
  deriving DecidableEq

/-- A destination announcement: the path is recorded, and kept as the video
file when it ends in `.mp4`, as the audio file when it ends in `.m4a`, `.aac`
or `.mp3`. -/
def announce (obs : Observed) (line marker : String) : Observed :=
  if strings.Contains line marker then
    match strings.SplitN2 line marker with
    | _ :: after :: _ =>
      let filePath := strings.TrimSpace after
      let obs := { obs with actualFilePath := filePath }
      if strings.HasSuffix filePath ".mp4" then { obs with videoFile := filePath }
      else if strings.HasSuffix filePath ".m4a" || strings.HasSuffix filePath ".aac" ||
          strings.HasSuffix filePath ".mp3" then { obs with audioFile := filePath }
      else obs
    | _ => obs
  else obs

/-- One line handled by a reader of `DownloadBilibili`. -/
def observeLine (obs : Observed) (l : Stream × String) : Observed :=
  match l.1 with
  | Stream.stdout =>
    announce { obs with stdoutOutput := obs.stdoutOutput ++ l.2 ++ "\n" } l.2 "Destination:"
  | Stream.stderr =>
    announce { obs with stderrOutput := obs.stderrOutput ++ l.2 ++ "\n" } l.2
      "[download] Destination:"

/-- The destination a line announces to the reader of its stream, if any: the
trimmed text after `Destination:` on standard output, after
`[download] Destination:` on standard error. -/
def destinationOf (l : Stream × String) : Option String :=
  let marker := match l.1 with
    | Stream.stdout => "Destination:"
    | Stream.stderr => "[download] Destination:"
  if strings.Contains l.2 marker then
    match strings.SplitN2 l.2 marker with
    | _ :: after :: _ => some (strings.TrimSpace after)
    | _ => none
  else none

/-- The arguments of the remux command of `mergeVideoAndAudio`. -/
def mergeArgs (videoFile audioFile outputFile : String) : List String :=
  ["ffmpeg", "-i", videoFile, "-i", audioFile, "-c:v", "copy", "-c:a", "aac",
   "-strict", "experimental", outputFile]

/-- The method `mergeVideoAndAudio`. -/
def mergeVideoAndAudio (sys : System) (videoFile audioFile outputFile : String) : Resolution :=
  match sys.Stat videoFile with
  | some err => { result := Except.error ("视频文件不存在: " ++ err) }
  | none =>
    match sys.Stat audioFile with
    | some err => { result := Except.error ("音频文件不存在: " ++ err) }
    | none =>
      if !sys.LookPathFfmpeg then { result := Except.ok videoFile }
      else
        let args := mergeArgs videoFile audioFile outputFile
        if sys.Run args then
          match sys.StatAfterRun outputFile with
          | some err =>
            { result := Except.error ("合并后的文件不存在: " ++ err), commands := [args] }
          | none => { result := Except.ok outputFile, commands := [args] }
        else
          { result := Except.error ("ffmpeg合并失败: " ++ sys.RunError args ++ "\n错误输出: " ++
              sys.RunStderr args),
            commands := [args] }

/-- The map `bilibiliHeaders` of `DownloadBilibili` (a Go map is ranged over in
no fixed order; the model takes the order of the source text). -/
def bilibiliHeaders : List (String × String) :=
  [("Connection", "keep-alive"), ("Upgrade-Insecure-Requests", "1"),
   ("Sec-Fetch-Mode", "navigate"), ("Sec-Fetch-Site", "none"),
   ("Accept", "text/html,application/xhtml+xml,application/xml;q=0.9,image/webp,image/apng,*/*;q=0.8,application/signed-exchange;v=b3;q=0.9"),
   ("Accept-Language", "zh-CN,zh;q=0.9,en;q=0.8"), ("Accept-Encoding", "gzip, deflate, br"),
   ("DNT", "1"), ("Sec-Fetch-Dest", "document")]

/-- The `--add-header` arguments of a header map. -/
def headerArgs (headers : List (String × String)) : List String :=
  headers.foldl (fun args kv => args ++ ["--add-header", kv.1 ++ ": " ++ kv.2]) []

/-- The output template of `Download` and `DownloadBilibili`. For a request
without output path the source formats `"%s_%(title)s.%(ext)s"` with the task
ID as only operand: the verb `%s` writes the task ID, and the rest of the
format is formatted with no operand left. -/
def outputTemplate (cfg : Config) (req : DownloadRequest) : String :=
  if req.Output ≠ "" then
    filepath.Join (filepath.Dir req.Output) (req.TaskID ++ "_" ++ filepath.Base req.Output)
  else
    filepath.Join cfg.OutputDir (req.TaskID ++ fmt.Sprintf "_%(title)s.%(ext)s")

/-- The argument list `DownloadBilibili` builds. -/
def bilibiliArgs (cfg : Config) (sys : System) (req : DownloadRequest) : List String :=
  ["--no-playlist", "--user-agent",
   "Mozilla/5.0 (Macintosh; Intel Mac OS X 10_15_7) AppleWebKit/537.36 (KHTML, like Gecko) Chrome/120.0.0.0 Safari/537.36",
   "--no-warnings", "-v", "--newline"] ++
  headerArgs bilibiliHeaders ++
  (if req.Cookies ≠ "" then ["--cookies", req.Cookies] else []) ++
  headerArgs req.Headers ++
  (if req.Format = "best" ∨ req.Format = "" then ["-f", "bestvideo+bestaudio/best"]
   else ["-f", req.Format ++ "/bestvideo+bestaudio/best"]) ++
  ["--merge-output-format", "mp4"] ++
  (if sys.LookPathFfmpeg then ["--ffmpeg-location", "ffmpeg"] else []) ++
  ["--no-check-certificate"] ++
  ["-o", outputTemplate cfg req] ++
  [req.URL]

/-- The text of a string slice under `%v`. -/
def formatArgs (args : List String) : String :=
  "[" ++ " ".intercalate args ++ "]"

/-- The text `errMsg` that `Download` and `DownloadBilibili` build after a
non-zero exit and hand to `fmt.Errorf` as its format string. -/
def errMsg (cfg : Config) (args : List String) (err : String) (obs : Observed) : String :=
  "下载失败: " ++ err ++ "\n命令: " ++ cfg.YtDlpPath ++ " " ++ formatArgs args ++
    "\n标准输出:\n" ++ obs.stdoutOutput ++ "\n错误输出:\n" ++ obs.stderrOutput

/-- The manual remux step of `DownloadBilibili`: the merged path when
`mergeVideoAndAudio` returns no error, else the video file; never an error. -/
def manualMerge (cfg : Config) (sys : System) (req : DownloadRequest) (obs : Observed) :
    Resolution :=
  let mergedFile := filepath.Join cfg.OutputDir (req.TaskID ++ "_merged.mp4")
  let merged := mergeVideoAndAudio sys obs.videoFile obs.audioFile mergedFile
  match merged.result with
  | Except.ok mergedPath => { result := Except.ok mergedPath, commands := merged.commands }
  | Except.error _ => { result := Except.ok obs.videoFile, commands := merged.commands }

/-- The method `DownloadBilibili`: the returned path or error, and the remux
commands run on the way (the transfer process itself is `run`). -/
def DownloadBilibili (cfg : Config) (sys : System) (run : ProcessRun) (req : DownloadRequest) :
    Resolution :=
  if cfg.YtDlpPath = "" then
    { result := Except.error "yt-dlp 路径未配置，请检查 config.yaml 的 ytdlp.path" }
  else if (sys.Stat cfg.YtDlpPath).isSome then
    { result := Except.error ("yt-dlp 路径无效或不可访问: " ++ cfg.YtDlpPath) }
  else
    let args := bilibiliArgs cfg sys req
    match run.StdoutPipe with
    | some err => { result := Except.error ("创建输出管道失败: " ++ err) }
    | none =>
    match run.StderrPipe with
    | some err => { result := Except.error ("创建错误输出管道失败: " ++ err) }
    | none =>
    match run.Start with
    | some err => { result := Except.error ("启动下载失败: " ++ err) }
    | none =>
    let obs := run.lines.foldl observeLine {}
    match run.Wait with
    | some err =>
      if obs.videoFile ≠ "" ∧ obs.audioFile ≠ "" then manualMerge cfg sys req obs
      else if strings.Contains obs.stderrOutput "cookies" ||
          strings.Contains obs.stderrOutput "Fresh cookies" then
        { result := Except.error
            ("下载抖音视频需要登录信息。请尝试通过浏览器下载或使用移动端分享的链接。错误信息: " ++ err) }
      else
        { result := Except.error (fmt.Errorf (errMsg cfg args err obs)) }
    | none =>
      let found : Resolution :=
        if obs.actualFilePath = "" then
          let found := findActualFile cfg.OutputDir sys (outputTemplate cfg req)
          match found.result with
          | Except.error err =>
            { result := Except.error ("下载可能失败，无法找到下载的文件: " ++ err),
              commands := found.commands }
          | Except.ok foundPath =>
            if !strings.Contains (filepath.Base foundPath) req.TaskID then
              { result := Except.error "下载失败，找到的文件与当前任务不匹配",
                commands := found.commands }
            else found
        else { result := Except.ok obs.actualFilePath }
      match found.result with
      | Except.error err => { result := Except.error err, commands := found.commands }
      | Except.ok actualFilePath =>
        if obs.videoFile ≠ "" ∧ obs.audioFile ≠ "" ∧
            ¬ strings.Contains actualFilePath "_merged" = true then
          let merged := manualMerge cfg sys req obs
          { result := merged.result, commands := found.commands ++ merged.commands }
        else { result := Except.ok actualFilePath, commands := found.commands }

/-- The remux of `mergeVideoAndAudio` succeeds: both inputs are on disk,
`ffmpeg` is on the path, the command exits with status zero and its output
file is on disk afterwards. -/
def RemuxSucceeds (sys : System) (videoFile audioFile outputFile : String) : Prop :=
  sys.Stat videoFile = none ∧ sys.Stat audioFile = none ∧ sys.LookPathFfmpeg = true ∧
    sys.Run (mergeArgs videoFile audioFile outputFile) = true ∧
    sys.StatAfterRun outputFile = none

instance (sys : System) (v a o : String) : Decidable (RemuxSucceeds sys v a o) := by
  unfold RemuxSucceeds; infer_instance

/-- A failed two-stream transfer: both destinations are announced on standard
output, then the process exits with status 1. -/
def failedTwoStreamRun : ProcessRun :=
  { lines := [(Stream.stdout, "[download] Destination: downloads/T1_clip.f100.mp4"),
              (Stream.stdout, "[download] 100% of 10.00MiB"),
              (Stream.stdout, "[download] Destination: downloads/T1_clip.f200.m4a"),
              (Stream.stderr, "ERROR: Postprocessing: ffmpeg not found")],
    Wait := some "exit status 1" }

/-! ## The generic transfer driver (`ytdlp_downloader.go`: `Download`) -/

/-- The map `spankbangHeaders` of `Download`, in the order of the source text. -/
def spankbangHeaders : List (String × String) :=
  [("Accept", "text/html,application/xhtml+xml,application/xml;q=0.9,image/webp,*/*;q=0.8"),
   ("Accept-Language", "en-US,en;q=0.5"), ("Accept-Encoding", "gzip, deflate"), ("DNT", "1"),
   ("Connection", "keep-alive"), ("Upgrade-Insecure-Requests", "1"),
   ("Sec-Fetch-Dest", "document"), ("Sec-Fetch-Mode", "navigate"), ("Sec-Fetch-Site", "none"),
   ("Sec-Fetch-User", "?1"), ("Cache-Control", "max-age=0")]

/-- The map `bilibiliHeaders` of `Download`, in the order of the source text. -/
def downloadBilibiliHeaders : List (String × String) :=
  [("Accept", "text/html,application/xhtml+xml,application/xml;q=0.9,image/webp,image/apng,*/*;q=0.8,application/signed-exchange;v=b3;q=0.9"),
   ("Accept-Language", "zh-CN,zh;q=0.9,en;q=0.8"), ("Accept-Encoding", "gzip, deflate, br"),
   ("DNT", "1"), ("Connection", "keep-alive"), ("Upgrade-Insecure-Requests", "1"),
   ("Sec-Fetch-Dest", "document"), ("Sec-Fetch-Mode", "navigate"), ("Sec-Fetch-Site", "none")]

/-- The arguments `Download` adds for the map `req.Options`. -/
def optionArgs (options : List (String × String)) : List String :=
  options.foldl (fun args kv =>
    if kv.2 ≠ "" then args ++ ["--" ++ kv.1, kv.2] else args ++ ["--" ++ kv.1]) []

/-- The argument list `Download` builds. -/
def downloadArgs (cfg : Config) (sys : System) (req : DownloadRequest) : List String :=
  ["--no-playlist", "--user-agent",
   "Mozilla/5.0 (Macintosh; Intel Mac OS X 10_15_7) AppleWebKit/537.36 (KHTML, like Gecko) Chrome/120.0.0.0 Safari/537.36",
   "--no-warnings", "-v", "--newline"] ++
  (if strings.Contains req.URL "spankbang.com" then
     headerArgs spankbangHeaders ++
     (if req.Referer = "" then ["--referer", "https://spankbang.com/"] else [])
   else if strings.Contains req.URL "bilibili.com" then
     headerArgs downloadBilibiliHeaders ++
     (if req.Cookies ≠ "" then ["--cookies", req.Cookies] else [])
   else []) ++
  headerArgs req.Headers ++
  (if req.Cookies ≠ "" then ["--cookies", req.Cookies] else []) ++
  (if req.Referer ≠ "" then ["--referer", req.Referer] else []) ++
  (if req.Format ≠ "" then
     if strings.Contains req.URL "bilibili.com" then
       (if req.Format = "best" then ["-f", "bestvideo+bestaudio/best"]
        else ["-f", req.Format ++ "/bestvideo+bestaudio/best"]) ++
       ["--merge-output-format", "mp4"] ++
       (if sys.LookPathFfmpeg then ["--ffmpeg-location", "ffmpeg"] else []) ++
       ["--no-check-certificate"]
     else ["-f", req.Format]
   else []) ++
  optionArgs req.Options ++
  ["-o", outputTemplate cfg req] ++
  [req.URL]

/-- A destination announcement as the readers of `Download` handle it: only
the path is recorded. -/
def noteDestination (obs : Observed) (line marker : String) : Observed :=
  if strings.Contains line marker then
    match strings.SplitN2 line marker with
    | _ :: after :: _ => { obs with actualFilePath := strings.TrimSpace after }
    | _ => obs
  else obs

/-- One line handled by a reader of `Download`. -/
def noteLine (obs : Observed) (l : Stream × String) : Observed :=
  match l.1 with
  | Stream.stdout =>
    noteDestination { obs with stdoutOutput := obs.stdoutOutput ++ l.2 ++ "\n" } l.2
      "Destination:"
  | Stream.stderr =>
    noteDestination { obs with stderrOutput := obs.stderrOutput ++ l.2 ++ "\n" } l.2
      "[download] Destination:"

/-- The last step of `Download`: a path that `os.Stat` does not find is looked
for under the output directory by its base name, and when it is not there
either the output template is returned, without error. -/
def accessiblePath (cfg : Config) (sys : System) (req : DownloadRequest)
    (actualFilePath : String) : String :=
  match sys.Stat actualFilePath with
  | some _ =>
    let relPath := filepath.Join cfg.OutputDir (filepath.Base actualFilePath)
    match sys.Stat relPath with
    | none => relPath
    | some _ => outputTemplate cfg req
  | none => actualFilePath

/-- The method `Download`: the returned path or error, and the remux commands
run on the way (the transfer process itself is `run`). The method
`DownloadDouyin`, to which requests for the short-video host are handed, is
not part of the sources at hand and is an argument. -/
def Download (cfg : Config) (sys : System) (run : ProcessRun)
    (DownloadDouyin : DownloadRequest → Resolution) (req : DownloadRequest) : Resolution :=
  if strings.Contains req.URL "bilibili.com" then DownloadBilibili cfg sys run req
  else if strings.Contains req.URL "douyin.com" || strings.Contains req.URL "v.douyin.com" then
    DownloadDouyin req
  else if cfg.YtDlpPath = "" then
    { result := Except.error "yt-dlp 路径未配置，请检查 config.yaml 的 ytdlp.path" }
  else if (sys.Stat cfg.YtDlpPath).isSome then
    { result := Except.error ("yt-dlp 路径无效或不可访问: " ++ cfg.YtDlpPath) }
  else
    let args := downloadArgs cfg sys req
    match run.StdoutPipe with
    | some err => { result := Except.error ("创建输出管道失败: " ++ err) }
    | none =>
    match run.StderrPipe with
    | some err => { result := Except.error ("创建错误输出管道失败: " ++ err) }
    | none =>
    match run.Start with
    | some err => { result := Except.error ("启动下载失败: " ++ err) }
    | none =>
    let obs := run.lines.foldl noteLine {}
    match run.Wait with
    | some err => { result := Except.error (fmt.Errorf (errMsg cfg args err obs)) }
    | none =>
      if obs.actualFilePath = "" then
        let found := findActualFile cfg.OutputDir sys (outputTemplate cfg req)
        match found.result with
        | Except.error err =>
          { result := Except.error ("下载可能失败，无法找到下载的文件: " ++ err),
            commands := found.commands }
        | Except.ok foundPath =>
          if !strings.Contains (filepath.Base foundPath) req.TaskID then
            { result := Except.error "下载失败，找到的文件与当前任务不匹配",
              commands := found.commands }
          else
            { result := Except.ok (accessiblePath cfg sys req foundPath),
              commands := found.commands }
      else { result := Except.ok (accessiblePath cfg sys req obs.actualFilePath) }

/-- A transfer that fails for want of a login: the process writes one line to
each stream and exits with status 1. -/
def cookiesRun : ProcessRun :=
  { lines := [(Stream.stdout, "[BiliBili] Extracting URL"),
              (Stream.stderr, "ERROR: Fresh cookies are needed")],
    Wait := some "exit status 1" }

/-- A transfer that fails after showing progress: a progress line on standard
output, an error line on standard error, exit status 1. -/
def failedRun : ProcessRun :=
  { lines := [(Stream.stdout, "[download] Destination: downloads/T1_clip.mp4"),
              (Stream.stderr, "ERROR: unable to download video data")],
    Wait := some "exit status 1" }

/-- A transfer that announces no destination and exits with status zero. -/
def silentRun : ProcessRun :=
  { lines := [(Stream.stdout, "[download] 100% of 10.00MiB in 00:03")] }

/-! ## The task orchestrator (`service.go`) -/

/-- The method `isDouyinURL` of the service: the URL matches one of
`^https?://v\.douyin\.com/`, `^https?://www\.douyin\.com/video/`,
`^https?://www\.douyin\.com/share/video/`. -/
def isDouyinURL (urlStr : String) : Bool :=
  ["http://v.douyin.com/", "https://v.douyin.com/",
   "http://www.douyin.com/video/", "https://www.douyin.com/video/",
   "http://www.douyin.com/share/video/", "https://www.douyin.com/share/video/"].any
    (fun p => strings.HasPrefix urlStr p)

/-- The first lines of `processYtdlpDownload`: the output path of the request
gets the task ID as file-name prefix. -/
def prefixOutput (OutputDir id : String) (req : DownloadRequest) : DownloadRequest :=
  if req.Output = "" then { req with Output := filepath.Join OutputDir (id ++ "_video.mp4") }
  else
    { req with Output :=
        filepath.Join (filepath.Dir req.Output) (id ++ "_" ++ filepath.Base req.Output) }

/-- The file name normalisation of `processYtdlpDownload`: a file whose base
name lacks the task ID is renamed to carry it; when the rename fails the old
path is kept. -/
def normalizeName (sys : System) (id actualFile : String) : String :=
  if !strings.Contains (filepath.Base actualFile) id then
    let dir := filepath.Dir actualFile
    let ext := filepath.Ext actualFile
    let base := strings.TrimSuffix (filepath.Base actualFile) ext
    let newPath := filepath.Join dir (id ++ "_" ++ base ++ ext)
    if sys.Rename actualFile newPath then newPath else actualFile
  else actualFile

/-- The sibling-audio step of `processYtdlpDownload`: for a `.mp4` path with a
`.f` marker, the first glob match that is another file with an audio
extension in its name is remuxed with the video; the merged path is used when
the command succeeds. -/
def mergeSibling (sys : System) (id actualFile : String) : String :=
  if strings.Contains actualFile ".f" && strings.HasSuffix actualFile ".mp4" then
    let filePattern := strings.Replace1 actualFile ".f" ".f"
    let filePattern := strings.TrimSuffix filePattern (filepath.Ext filePattern) ++ ".*"
    match (sys.Glob filePattern).find? (fun m => m != actualFile &&
        (strings.Contains m ".m4a" || strings.Contains m ".mp3" ||
          strings.Contains m ".aac" || strings.Contains m ".opus")) with
    | some audioFile =>
      if audioFile ≠ "" then
        let mergedPath :=
          filepath.Join (filepath.Dir actualFile) (id ++ "_merged" ++ filepath.Ext actualFile)
        if sys.Run ["ffmpeg", "-i", actualFile, "-i", audioFile, "-c", "copy", mergedPath] then
          mergedPath
        else actualFile
      else actualFile
    | none => actualFile
  else actualFile

/-- The last part of `processYtdlpDownload`: what it writes to the task record
once the transfer driver has returned `result`. -/
def finishDownload (sys : System) (id : String) (download : DownloadResponse)
    (result : Except String String) (now : Time) : DownloadResponse :=
  match result with
  | Except.error err => { download with Status := StatusFailed, Error := err, Updated := now }
  | Except.ok actualFile =>
    match sys.Stat actualFile with
    | some fileErr =>
      { download with
        Status := StatusFailed, Error := "下载完成但文件不存在: " ++ fileErr, Updated := now }
    | none =>
      let actualFile := normalizeName sys id actualFile
      let actualFile := mergeSibling sys id actualFile
      { download with
        Status := StatusCompleted, Progress := 100, File := actualFile, Updated := now }

/-- What a busy worker holds besides the pointers to the request and to the
task record: whether it has entered `processYtdlpDownload`, and the two
variables of its progress callback. -/
structure Worker where
  transferring : Bool := false
  lastProgressTime : Time := 0
  lastProgress : Rat := 0

/-- The state of the service. `records` holds every task record
`CreateDownload` has allocated, by task ID (a worker keeps its pointer to the
record also after the registry was cleared); `downloads` tells which IDs are
keys of the registry map, whose value for a key is that record. `requests`
holds the request of each work item. `downloadCh` lists the IDs of the work
items handed to `startDownload` and not yet received by a worker, `workers`
the IDs of the tasks a worker is busy with, `callbacks` what each of those
workers holds, and `broadcasts` the messages handed to `broadcastProgress`,
oldest first. -/
structure Service where
  OutputDir : String := "./downloads"
  records : String → Option DownloadResponse := fun _ => none
  downloads : String → Bool := fun _ => false
  requests : String → DownloadRequest := fun _ => {}
  downloadCh : List String := []
  workers : List String := []
  callbacks : String → Worker := fun _ => {}
  broadcasts : List ProgressMessage := []

/-- The task the registry holds under `id`. -/
def Service.task (s : Service) (id : String) : Option DownloadResponse :=
  if s.downloads id then s.records id else none

/-- The status of the task the registry holds under `id`. -/
def Service.status (s : Service) (id : String) : Option DownloadStatus :=
  (s.task id).map (fun d => d.Status)

/-- A write through the pointer to the record `id`. -/
def Service.write (s : Service) (id : String) (f : DownloadResponse → DownloadResponse) :
    Service :=
  { s with records := fun k => if k = id then (s.records k).map f else s.records k }

/-- The method `broadcastProgress(id, download)` for the record `id`. -/
def Service.broadcastProgress (s : Service) (id : String) : Service :=
  match s.records id with
  | some download => { s with broadcasts := s.broadcasts ++ [progressMessage id download] }
  | none => s

/-- The steps of the service. Each is one critical section of the source (or
one call that holds no lock). -/
inductive Op
  /-- The method `CreateDownload` for a well-formed request; `id` is the value of
  `uuid.New().String()`. The work item is handed to `startDownload`. -/
  | CreateDownload (id : String) (req : DownloadRequest) (now : Time)
  /-- The method `CancelDownload`. -/
  | CancelDownload (id : String) (now : Time)
  /-- The method `ClearDownloads`. -/
  | ClearDownloads
  /-- A free worker receives the work item of `id` and runs `processDownload` up
  to the first broadcast. -/
  | processDownload (id : String) (now : Time)
  /-- The call `s.douyin.Download(req)` of the worker of `id` returned `resp`
  without error; `processDownload` copies it to the record and returns. -/
  | douyinDone (id : String) (resp : DownloadResponse) (now : Time)
  /-- The progress callback of the worker of `id` is called with a sample. -/
  | progress (id : String) (sample : DownloadResponse) (now : Time)
  /-- The transfer driver of the worker of `id` returned `result`;
  `processYtdlpDownload` writes the outcome and returns. -/
  | finish (id : String) (sys : System) (result : Except String String) (now : Time)

/-- Is the step the douyin branch of `processDownload`? -/
def Op.isDouyinDone : Op → Bool
  | Op.douyinDone _ _ _ => true
  | _ => false

/-- One step of the service; `none` when the step cannot happen in this state
(a fresh UUID is not the ID of an existing record, a worker step needs its
worker, at most ten workers run). -/
def Service.step (s : Service) : Op → Option Service
  | Op.CreateDownload id req now =>
    if (s.records id).isSome then none
    else
      let req := { req with TaskID := id }
      let download : DownloadResponse :=
        { ID := id, Status := StatusPending, Progress := 0, Created := now, Updated := now,
          File := req.Output,
          Metadata := if req.SaveToLocal then [("save_to_local", "true")] else [] }
      some { s with
        records := fun k => if k = id then some download else s.records k,
        downloads := fun k => if k = id then true else s.downloads k,
        requests := fun k => if k = id then req else s.requests k,
        downloadCh := s.downloadCh ++ [id] }
  | Op.CancelDownload id now =>
    if s.downloads id then
      some (s.write id (fun d => { d with Status := StatusCancelled, Updated := now }))
    else some s
  | Op.ClearDownloads => some { s with downloads := fun _ => false }
  | Op.processDownload id now =>
    if id ∈ s.downloadCh ∧ s.workers.length < 10 then
      let s := { s with downloadCh := s.downloadCh.filter (fun k => k != id) }
      if s.downloads id then
        let s := s.write id (fun d => { d with Status := StatusDownloading, Updated := now })
        let s := s.broadcastProgress id
        some { s with
          workers := s.workers ++ [id],
          callbacks := fun k => if k = id then {} else s.callbacks k }
      else some s
    else none
  | Op.douyinDone id resp now =>
    if id ∈ s.workers ∧ (s.callbacks id).transferring = false ∧
        isDouyinURL (s.requests id).URL = true then
      let s := s.write id (fun d => { d with
        Status := resp.Status, Progress := resp.Progress, Speed := resp.Speed,
        ETA := resp.ETA, File := resp.File, Error := resp.Error, Updated := now })
      let s := s.broadcastProgress id
      some { s with workers := s.workers.filter (fun k => k != id) }
    else none
  | Op.progress id sample now =>
    if id ∈ s.workers then
      match s.records id with
      | some download =>
        let w := s.callbacks id
        let cb := progressCallback id
          { lastProgressTime := w.lastProgressTime, lastProgress := w.lastProgress,
            download := download, broadcasts := s.broadcasts } now sample
        some { s with
          records := fun k => if k = id then some cb.download else s.records k,
          broadcasts := cb.broadcasts,
          requests := fun k =>
            if k = id ∧ w.transferring = false then prefixOutput s.OutputDir id (s.requests k)
            else s.requests k,
          callbacks := fun k =>
            if k = id then
              { transferring := true, lastProgressTime := cb.lastProgressTime,
                lastProgress := cb.lastProgress }
            else s.callbacks k }
      | none => none
    else none
  | Op.finish id sys result now =>
    if id ∈ s.workers then
      let s := s.write id (fun d => finishDownload sys id d result now)
      let s := s.broadcastProgress id
      some { s with workers := s.workers.filter (fun k => k != id) }
    else none

/-- The service run through a sequence of steps. -/
def Service.run (s : Service) : List Op → Option Service
  | [] => some s
  | op :: ops =>
    match s.step op with
    | some s1 => s1.run ops
    | none => none

/-- The state `NewService` returns. -/
def NewService : Service := {}

/-- The status changes the orchestrator makes: `pending` to `downloading`,
`downloading` to `completed` or `failed`, anything to `cancelled`, and
`cancelled` on to `downloading`, `completed` or `failed`. -/
def StatusChange (a b : DownloadStatus) : Prop :=
  (a = StatusPending ∧ b = StatusDownloading) ∨
  (a = StatusDownloading ∧ (b = StatusCompleted ∨ b = StatusFailed)) ∨
  b = StatusCancelled ∨
  (a = StatusCancelled ∧ (b = StatusDownloading ∨ b = StatusCompleted ∨ b = StatusFailed))

/-- The link between the place of a task in the pipeline and its status: a
registered task waiting in the channel is `pending` or `cancelled`, one a
worker is busy with is `downloading` or `cancelled`, any other is
`completed`, `failed` or `cancelled`; no task is both waiting and being
worked on, and both kinds have a record. -/
def Service.Inv (s : Service) : Prop :=
  (∀ id ∈ s.downloadCh, id ∉ s.workers) ∧
  (∀ id ∈ s.downloadCh, (s.records id).isSome = true) ∧
  (∀ id ∈ s.workers, (s.records id).isSome = true) ∧
  ∀ id d, s.downloads id = true → s.records id = some d →
    (id ∈ s.downloadCh → d.Status = StatusPending ∨ d.Status = StatusCancelled) ∧
    (id ∈ s.workers → d.Status = StatusDownloading ∨ d.Status = StatusCancelled) ∧
    (id ∉ s.downloadCh → id ∉ s.workers →
      d.Status = StatusCompleted ∨ d.Status = StatusFailed ∨ d.Status = StatusCancelled)

/-- A run in which a cancelled task is picked up by a worker and completed. -/
def cancelledRun : List Op :=
  [Op.CreateDownload "t1" { URL := "https://example.com/x" } 10,
   Op.CancelDownload "t1" 20,
   Op.processDownload "t1" 30,
   Op.finish "t1" (systemWith [] 40 true true) (Except.ok "downloads/t1_video.mp4") 40]

/-- The handler `CreateDownload` for a well-formed request whose new UUID is
`id`: the state after the record is stored and the work item handed over, and
the reply, status 200 with the record as body. -/
def Service.CreateDownload (s : Service) (id : String) (req : DownloadRequest) (now : Time) :
    Option (Service × Nat × DownloadResponse) :=
  match s.step (Op.CreateDownload id req now) with
  | some s1 => (s1.records id).map (fun download => (s1, 200, download))
  | none => none

/-- The handler `ClearDownloads`: the state with a new, empty registry map, and
the reply, status 200 with a message. -/
def Service.ClearDownloads (s : Service) : Service × Nat × String :=
  ({ s with downloads := fun _ => false }, 200, "已清空所有下载记录")

/-- A service in which a worker is busy with task `t1`. -/
def busyService : Service :=
  { records := fun k =>
      if k = "t1" then some { ID := "t1", Status := StatusDownloading, Updated := 30 } else none,
    downloads := fun k => k = "t1",
    workers := ["t1"] }

/-- A system in which `os.Rename` always fails. -/
def noRenameSystem : System :=
  { systemWith [] 40 true true with Rename := fun _ _ => false }

/-! ## Delivery to the observers (`service.go`: `broadcastProgress`) -/

/-- The state of the loop over `s.wsClients`: the writes attempted so far,
oldest first, and the observer set. -/
structure Delivery (Conn : Type) where
  writes : List (Conn × ProgressMessage) := []
  wsClients : List Conn

/-- One round of the loop for `client`: the message is written, and a client
whose write returns an error is closed and deleted from the set.
`WriteJSON client message` tells whether the write succeeds. -/
def deliverStep {Conn : Type} [DecidableEq Conn] (WriteJSON : Conn → ProgressMessage → Bool)
    (message : ProgressMessage) (st : Delivery Conn) (client : Conn) : Delivery Conn :=
  if WriteJSON client message then { st with writes := st.writes ++ [(client, message)] }
  else
    { writes := st.writes ++ [(client, message)],
      wsClients := st.wsClients.filter (fun c => c ≠ client) }

/-- The loop of `broadcastProgress(id, download)` over the observer set
`wsClients`, a list without duplicates in the order the map is ranged over. -/
def deliver {Conn : Type} [DecidableEq Conn] (WriteJSON : Conn → ProgressMessage → Bool)
    (id : String) (download : DownloadResponse) (wsClients : List Conn) : Delivery Conn :=
  wsClients.foldl (deliverStep WriteJSON (progressMessage id download)) { wsClients := wsClients }

/-! ## Extraction (`ytdlp_downloader.go`: `GetVideoInfo`, `convertDouyinUrl`) -/

/-- Type `VideoFormat`; the zero value is the default. -/
structure VideoFormat where
  FormatID : String := ""
  Extension : String := ""
  Resolution : String := ""
  Filesize : Int := 0
  URL : String := ""
  Quality : String := ""
  deriving DecidableEq

/-- Type `VideoInfo`; the zero value is the default. -/
structure VideoInfo where
  Title : String := ""
  Duration : String := ""
  Formats : List VideoFormat := []
  Thumbnail : String := ""
  Description : String := ""
  Metadata : List (String × String) := []
  SpecialNote : String := ""
  ErrorType : String := ""
  Solutions : List String := []
  CanDownload : Bool := false
  deriving DecidableEq

/-- A JSON value as `json.Unmarshal` stores it in an `interface{}`: numbers are
`float64` (held as the rational they denote), objects are maps. -/
inductive Json
  | null
  | bool (b : Bool)
  | number (v : Rat)
  | string (s : String)
  | array (items : List Json)
  | object (fields : List (String × Json))

/-- The helper `getString`. -/
def getString (data : List (String × Json)) (key : String) : String :=
  match data.lookup key with
  | some (Json.string str) => str
  | _ => ""

/-- The helper `getInt64`: `int64(v)` for a number `v`, which truncates
towards zero (the cases `int` and `int64` do not arise from decoded JSON).
For a value that does not fit in an `int64` the language leaves the result to
the implementation; it is `-2 ^ 63` here, what the conversion gives on amd64. -/
def getInt64 (data : List (String × Json)) (key : String) : Int :=
  match data.lookup key with
  | some (Json.number v) =>
    let t : Int := if 0 ≤ v then Rat.floor v else - Rat.floor (- v)
    if -2 ^ 63 ≤ t ∧ t < 2 ^ 63 then t else -2 ^ 63
  | _ => 0

/-- The items of the pattern `content` followed by `(\d+)`, for a literal text
`content`. -/
def literalThenDigits (content : String) : List regexp.Item :=
  content.data.map regexp.lit ++
    [regexp.Item.mark, regexp.Item.cls regexp.digit regexp.Quant.plus, regexp.Item.mark]

/-- The method `convertDouyinUrl`; its pattern is `douyin\.com/video/(\d+)`. -/
def convertDouyinUrl (url : String) : String :=
  if strings.Contains url "v.douyin.com" then url
  else if strings.Contains url "douyin.com/video/" then
    match regexp.find (literalThenDigits "douyin.com/video/") url.data 0 with
    | some (a :: b :: _) => "https://www.douyin.com/video/" ++ regexp.slice url.data a b
    | _ => url
  else url

/-- What `GetVideoInfo` gets from outside. The method `getDouyinRealUrl` is
not part of the sources at hand; it returns a media URL, a title and an error
(`none`: nil). `Output args` is `cmd.Output()` of the extraction process run
with `args`: its standard output, or the error text of a failed run with the
captured standard error. `Unmarshal` decodes the output as a JSON object. -/
structure Extractor where
  getDouyinRealUrl : String → String × String × Option String
  Stat : String → Option String := fun _ => none
  Output : List String → Except (String × String) String
  Unmarshal : String → Except String (List (String × Json))

/-- The map `pinterestHeaders` of `GetVideoInfo`, in the order of the source
text. -/
def pinterestHeaders : List (String × String) :=
  [("Accept", "text/html,application/xhtml+xml,application/xml;q=0.9,image/webp,image/apng,*/*;q=0.8,application/signed-exchange;v=b3;q=0.9"),
   ("Accept-Language", "en-US,en;q=0.9"), ("Accept-Encoding", "gzip, deflate, br"),
   ("DNT", "1"), ("Connection", "keep-alive"), ("Upgrade-Insecure-Requests", "1")]

/-- The mobile user agent `GetVideoInfo` uses for douyin. -/
def mobileUA : String :=
  "Mozilla/5.0 (Linux; Android 10; K) AppleWebKit/537.36 (KHTML, like Gecko) Chrome/120.0.0.0 Mobile Safari/537.36"

/-- The variable `url` of `GetVideoInfo` when the extraction process is set
up: the douyin branch of the header selection converts it once more. -/
def extractionUrl (url : String) : String :=
  if strings.Contains url "spankbang.com" then url
  else if strings.Contains url "bilibili.com" then url
  else if strings.Contains url "douyin.com" || strings.Contains url "v.douyin.com" then
    convertDouyinUrl url
  else url

/-- The argument list `GetVideoInfo` builds (the maps `bilibiliHeaders` and
`douyinHeaders` have the entries of `bilibiliHeaders` in `Download`). -/
def extractionArgs (cfg : Config) (url : String) : List String :=
  ["--dump-json", "--no-playlist", "--user-agent", cfg.UserAgent, "--no-warnings"] ++
  (if strings.Contains url "spankbang.com" then
     ["--add-header",
      "Accept: text/html,application/xhtml+xml,application/xml;q=0.9,image/webp,*/*;q=0.8",
      "--add-header", "Accept-Language: en-US,en;q=0.5",
      "--add-header", "Accept-Encoding: gzip, deflate",
      "--add-header", "DNT: 1",
      "--add-header", "Connection: keep-alive",
      "--add-header", "Upgrade-Insecure-Requests: 1"]
   else if strings.Contains url "bilibili.com" then
     headerArgs downloadBilibiliHeaders ++ ["--no-check-certificate"]
   else if strings.Contains url "douyin.com" || strings.Contains url "v.douyin.com" then
     headerArgs downloadBilibiliHeaders ++
     ["--extractor-args", "douyin:app_version=9.9.10",
      "--extractor-args", "douyin:device_platform=android",
      "--add-header", "User-Agent: " ++ mobileUA, "--user-agent", mobileUA,
      "--no-check-certificate"]
   else if strings.Contains url "pinterest.com" then headerArgs pinterestHeaders
   else []) ++
  [extractionUrl url]

/-- The descriptor `GetVideoInfo` returns with the error of a failed
extraction run; `url` is the variable `url` at that point. -/
def failureInfo (url err errMsg : String) : VideoInfo :=
  let info : VideoInfo :=
    { Title := "视频信息获取失败",
      Formats := [{ FormatID := "best", Extension := "mp4", Resolution := "最佳质量" }],
      CanDownload := false }
  let info : VideoInfo :=
    if strings.Contains errMsg "douyin" || strings.Contains url "douyin.com" then
      { info with
        Title := "抖音视频", ErrorType := "douyin_access",
        SpecialNote := "抖音视频需要登录信息，请尝试以下方法：",
        Solutions := ["使用移动端分享的链接（以v.douyin.com开头的短链接）",
          "确保链接格式正确，例如：https://v.douyin.com/xxxxxx/",
          "尝试使用抖音官方分享功能获取新的链接", "使用移动端APP分享的链接"] }
    else if strings.Contains errMsg "bilibili" || strings.Contains url "bilibili.com" then
      { info with
        Title := "哔哩哔哩视频", ErrorType := "bilibili_access",
        SpecialNote := "哔哩哔哩视频可能需要登录信息，请尝试以下方法：",
        Solutions := ["确保链接格式正确", "尝试使用哔哩哔哩官方分享功能获取新的链接",
          "尝试使用不同的视频清晰度"] }
    else
      { info with
        ErrorType := "general_error", SpecialNote := "视频信息获取失败，请尝试以下方法：",
        Solutions := ["检查网络连接", "确保链接格式正确", "尝试使用其他视频源",
          "链接可能已失效，请尝试获取新的链接"] }
  { info with
    Metadata := [("original_error", "获取视频信息失败: " ++ err ++ ", stderr: " ++ errMsg)] }

/-- One entry of the decoded `formats` array as `GetVideoInfo` reads it; an
entry that is not an object is skipped. -/
def videoFormat : Json → Option VideoFormat
  | Json.object formatMap =>
    some { FormatID := getString formatMap "format_id", Extension := getString formatMap "ext",
           Resolution := getString formatMap "resolution",
           Filesize := getInt64 formatMap "filesize", URL := getString formatMap "url",
           Quality := getString formatMap "quality" }
  | _ => none

/-- The part of `GetVideoInfo` that runs the extraction process for `url` (the
variable `url` after the douyin pre-branch): descriptor (`none`: nil) and
error (`none`: nil). -/
def runExtraction (cfg : Config) (env : Extractor) (url : String) :
    Option VideoInfo × Option String :=
  if cfg.YtDlpPath = "" then
    (none, some "yt-dlp 路径未配置，请检查 config.yaml 的 ytdlp.path")
  else if (env.Stat cfg.YtDlpPath).isSome then
    (none, some ("yt-dlp 路径无效或不可访问: " ++ cfg.YtDlpPath))
  else
    match env.Output (extractionArgs cfg url) with
    | Except.error (err, stderr) =>
      (some (failureInfo (extractionUrl url) err stderr),
       some ("获取视频信息失败: " ++ err ++ ", stderr: " ++ stderr))
    | Except.ok output =>
      if output.utf8ByteSize = 0 then (none, some "获取视频信息失败: 输出为空")
      else
        match env.Unmarshal output with
        | Except.error err => (none, some ("解析视频信息失败: " ++ err))
        | Except.ok videoData =>
          let formats := match videoData.lookup "formats" with
            | some (Json.array formats) => formats.filterMap videoFormat
            | _ => []
          (some { Title := getString videoData "title",
                  Duration := getString videoData "duration_string",
                  Formats := formats, CanDownload := true }, none)

/-- The method `GetVideoInfo` of the driver. -/
def GetVideoInfo (cfg : Config) (env : Extractor) (url : String) :
    Option VideoInfo × Option String :=
  if strings.Contains url "douyin.com" || strings.Contains url "v.douyin.com" then
    let url := convertDouyinUrl url
    match env.getDouyinRealUrl url with
    | (videoURL, title, err) =>
      if err = none ∧ videoURL ≠ "" then
        (some { Title := title, Duration := "未知",
                Formats := [{ FormatID := "best", Extension := "mp4", Resolution := "最佳质量",
                              URL := videoURL }],
                Metadata := [("source", "douyin"), ("direct_url", "true"),
                  ("video_url", videoURL), ("parsed_by", "direct_api")] }, none)
      else if strings.Contains url "v.douyin.com" then
        (some { Title := "抖音视频",
                Formats := [{ FormatID := "best", Extension := "mp4", Resolution := "最佳质量" }],
                SpecialNote := "抖音短链接解析失败，请尝试以下方法：",
                ErrorType := "douyin_short_link",
                Solutions := ["使用完整的抖音视频链接（以www.douyin.com/video/开头）",
                  "确保短链接格式正确且有效", "尝试使用抖音官方分享功能获取新的链接",
                  "使用抖音APP内的复制链接功能获取链接"] },
         some ("抖音短链接解析失败: " ++ err.getD "<nil>"))
      else runExtraction cfg env url
  else runExtraction cfg env url

/-- The variable `url` of `GetVideoInfo` after its douyin pre-branch. -/
def preUrl (url : String) : String :=
  if strings.Contains url "douyin.com" || strings.Contains url "v.douyin.com" then
    convertDouyinUrl url
  else url

/-- Does the douyin pre-branch of `GetVideoInfo` return to the caller? It does
for a douyin URL when direct resolution gives a media URL without error, and
when the converted URL is a short link. -/
def directReturns (env : Extractor) (url : String) : Bool :=
  (strings.Contains url "douyin.com" || strings.Contains url "v.douyin.com") &&
  (((env.getDouyinRealUrl (convertDouyinUrl url)).2.2.isNone &&
      (env.getDouyinRealUrl (convertDouyinUrl url)).1 != "") ||
    strings.Contains (convertDouyinUrl url) "v.douyin.com")

/-- An extractor whose direct resolution and extraction run both fail; the run
writes `stderr` to standard error. -/
def failingExtractor (stderr : String) : Extractor :=
  { getDouyinRealUrl := fun _ => ("", "", some "direct resolution failed"),
    Output := fun _ => Except.error ("exit status 1", stderr),
    Unmarshal := fun _ => Except.error "unexpected end of JSON input" }

/-! ## The order of waiting in the transfer drivers

After `cmd.Start()` both `Download` and `DownloadBilibili` start one reader
goroutine per pipe and then run `err = cmd.Wait()` followed by `wg.Wait()`.
As package `os/exec` documents for `StdoutPipe` and `StderrPipe`, `Wait`
closes the read ends of the pipes once it has seen the process exit; a reader
whose pipe is closed gets an error from its next read and leaves its loop. -/

/-- Where the calling goroutine stands: in `cmd.Wait()`, in `wg.Wait()`, or
past both (it goes on to build its result and returns). -/
inductive Pc
  | awaitExit
  | joinReaders
  | returned
  deriving DecidableEq

/-- The state of one transfer: the lines the process has still to write, the
lines in each pipe, whether the process has exited, whether `Wait` has closed
the read ends, which readers have returned (`wg.Done()`), the lines the
readers have handled, and the position of the calling goroutine. -/
structure Driver where
  toWrite : List (Stream × String)
  pipe : Stream → List String := fun _ => []
  exited : Bool := false
  closed : Bool := false
  done : Stream → Bool := fun _ => false
  seen : List (Stream × String) := []
  pc : Pc := Pc.awaitExit

/-- What can happen next: the process writes its next line or exits, a reader
gets a line or the end of its input, the calling goroutine moves on. -/
inductive Act
  | write
  | exit
  | read (st : Stream)
  | stop (st : Stream)
  | caller
  deriving DecidableEq

/-- One action; `none` when it cannot happen in the state. The caller leaves
`cmd.Wait()` once the process has exited, closing the pipes, and leaves
`wg.Wait()` once both readers have returned. -/
def Driver.step (d : Driver) : Act → Option Driver
  | Act.write =>
    match d.toWrite with
    | (st, line) :: rest =>
      some { d with toWrite := rest,
                    pipe := fun k => if k = st then d.pipe k ++ [line] else d.pipe k }
    | [] => none
  | Act.exit =>
    if d.toWrite = [] ∧ d.exited = false then some { d with exited := true } else none
  | Act.read st =>
    if d.done st = false ∧ d.closed = false then
      match d.pipe st with
      | line :: rest =>
        some { d with pipe := fun k => if k = st then rest else d.pipe k,
                      seen := d.seen ++ [(st, line)] }
      | [] => none
    else none
  | Act.stop st =>
    if d.done st = false ∧ (d.closed = true ∨ (d.exited = true ∧ d.pipe st = [])) then
      some { d with done := fun k => if k = st then true else d.done k }
    else none
  | Act.caller =>
    match d.pc with
    | Pc.awaitExit =>
      if d.exited then some { d with closed := true, pc := Pc.joinReaders } else none
    | Pc.joinReaders =>
      if d.done Stream.stdout ∧ d.done Stream.stderr then some { d with pc := Pc.returned }
      else none
    | Pc.returned => none

/-- A sequence of actions. -/
def Driver.run (d : Driver) : List Act → Option Driver
  | [] => some d
  | a :: as =>
    match d.step a with
    | some d1 => d1.run as
    | none => none

/-- A transfer whose process writes one destination line and exits at once;
`cmd.Wait()` returns before the reader has taken the line from the pipe. -/
def hastyActs : List Act :=
  [Act.write, Act.exit, Act.caller, Act.stop Stream.stdout, Act.stop Stream.stderr, Act.caller]

/-- The start of the transfer of `hastyActs`. -/
def hastyStart : Driver :=
  { toWrite := [(Stream.stdout, "[download] Destination: downloads/T1_clip.mp4")] }

/-- The caller is past `wg.Wait()` only when both readers have returned, and
past `cmd.Wait()` only when the process has exited and the pipes are closed. -/
def Driver.Inv (d : Driver) : Prop :=
  (d.pc = Pc.returned → d.done Stream.stdout = true ∧ d.done Stream.stderr = true) ∧
  (d.pc ≠ Pc.awaitExit → d.exited = true ∧ d.closed = true) ∧
  (d.closed = true → d.pc ≠ Pc.awaitExit)


/-! ## The progress grammar read without going back

`parseProgress` is compared with a second reader of the same four patterns
that takes every repetition as long as it can and never reconsiders: a run of
digits is the whole run, an optional character is taken when it is there. -/

namespace Grammar

open regexp in
/-- The items read in sequence at the head of the input, each repetition as
long as possible; the result lists the offsets of the group boundaries and
then the end. -/
def matchAt : List Item → List Char → Nat → Option (List Nat)
  | [], _, pos => some [pos]
  | Item.mark :: rest, s, pos => (matchAt rest s pos).map (fun r => pos :: r)
  | Item.cls p Quant.one :: rest, s, pos =>
    match s with
    | c :: s1 => if p c then matchAt rest s1 (pos + 1) else none
    | [] => none
  | Item.cls p Quant.opt :: rest, s, pos =>
    match s with
    | c :: s1 => if p c then matchAt rest s1 (pos + 1) else matchAt rest (c :: s1) pos
    | [] => matchAt rest [] pos
  | Item.cls p Quant.star :: rest, s, pos =>
    matchAt rest (s.dropWhile p) (pos + (s.takeWhile p).length)
  | Item.cls p Quant.plus :: rest, s, pos =>
    match s with
    | c :: s1 =>
      if p c then matchAt rest (s1.dropWhile p) (pos + 1 + (s1.takeWhile p).length) else none
    | [] => none

/-- The first start offset at which the items can be read. -/
def find (items : List regexp.Item) : List Char → Nat → Option (List Nat)
  | [], pos => matchAt items [] pos
  | c :: s, pos =>
    match matchAt items (c :: s) pos with
    | some r => some r
    | none => find items s (pos + 1)

/-- The integer that a run of digits writes: each digit counts for its place. -/
def whole : List Char → Nat
  | [] => 0
  | c :: ds => (c.toNat - '0'.toNat) * 10 ^ ds.length + whole ds

/-- The decimal fraction that a run of digits writes after the dot: tenths,
hundredths and so on. -/
def frac : List Char → Rat
  | [] => 0
  | c :: ds => (((c.toNat - '0'.toNat : Nat) : Rat) + frac ds) / 10

/-- The numeric value of a numeral: its digits before the dot as an integer
plus its digits after the dot as a decimal fraction. -/
def numeralValue (n : String) : Rat :=
  let ip := n.data.takeWhile regexp.digit
  let fp := match n.data.dropWhile regexp.digit with
    | '.' :: r => r.takeWhile regexp.digit
    | _ => []
  (whole ip : Rat) + frac fp

/-- The percentage a numeral stands for: the `float64` nearest to its value,
and 0 when the value is beyond the range of `float64` (half a step or more
past the largest `float64`). -/
def percentage (n : String) : Rat :=
  if (2 : Rat) ^ 1024 - (2 : Rat) ^ 970 ≤ numeralValue n then 0
  else float64.round (numeralValue n)

/-- The fields of a progress line by the grammar: the percentage is that of
the numeral of the first `<numeral>%`, the speed the text of the first
`<size>/s`, the ETA the `<digits>:<digits>` of the first
`ETA<space><digits>:<digits>`, and the two sizes of the first
`<size><space>of<space><size>` are the metadata; `<numeral>` is digits, an
optional dot, optional digits, and `<size>` is a numeral, optional white
space, an optional `K`, `M` or `G`, an optional `i`, and `B`. -/
def parseProgress (line : String) : DownloadResponse :=
  let s := line.data
  let resp : DownloadResponse := {}
  let resp :=
    match find ([regexp.Item.mark] ++ regexp.number ++ [regexp.Item.mark, regexp.lit '%']) s 0 with
    | some (a :: b :: _) => { resp with Progress := percentage (regexp.slice s a b) }
    | _ => resp
  let resp :=
    match find ([regexp.Item.mark] ++ regexp.size ++
        [regexp.lit '/', regexp.lit 's', regexp.Item.mark]) s 0 with
    | some (a :: b :: _) => { resp with Speed := regexp.slice s a b }
    | _ => resp
  let resp :=
    match find ([regexp.lit 'E', regexp.lit 'T', regexp.lit 'A',
        regexp.Item.cls regexp.space regexp.Quant.plus, regexp.Item.mark,
        regexp.Item.cls regexp.digit regexp.Quant.plus, regexp.lit ':',
        regexp.Item.cls regexp.digit regexp.Quant.plus, regexp.Item.mark]) s 0 with
    | some (a :: b :: _) => { resp with ETA := regexp.slice s a b }
    | _ => resp
  match find ([regexp.Item.mark] ++ regexp.size ++
      [regexp.Item.mark, regexp.Item.cls regexp.space regexp.Quant.plus, regexp.lit 'o',
       regexp.lit 'f', regexp.Item.cls regexp.space regexp.Quant.plus, regexp.Item.mark] ++
      regexp.size ++ [regexp.Item.mark]) s 0 with
  | some (a :: b :: c :: d :: _) =>
    { resp with Metadata := [("downloaded", regexp.slice s a b), ("total_size", regexp.slice s c d)] }
  | _ => resp

/-- No character of the class `p` can start a reading of the items. -/
def Rejects (items : List regexp.Item) (p : Char → Bool) : Prop :=
  ∀ c s pos, p c = true → matchAt items (c :: s) pos = none

/-- A reading that fails after a run of `p` fails before it as well. -/
def Skips (items : List regexp.Item) (p : Char → Bool) : Prop :=
  ∀ s pos, matchAt items (s.dropWhile p) (pos + (s.takeWhile p).length) = none →
    matchAt items s pos = none

open regexp in
/-- Going back never helps: what follows a repetition fails before the end of
the run when it fails after it, and what follows an optional character fails
on that character when it fails after it. -/
def Det : List Item → Prop
  | [] => True
  | Item.mark :: rest => Det rest
  | Item.cls _ Quant.one :: rest => Det rest
  | Item.cls p Quant.opt :: rest =>
    (∀ c s pos, p c = true → matchAt rest s (pos + 1) = none →
      matchAt rest (c :: s) pos = none) ∧ Det rest
  | Item.cls p Quant.star :: rest => Skips rest p ∧ Det rest
  | Item.cls p Quant.plus :: rest => Skips rest p ∧ Det rest

/-- The numeral of the grammar `<digits>[.<digits>]`: digits, or digits, a dot
and digits. -/
def ClaimNumeral (n : List Char) : Prop :=
  ∃ d1 d2, d1 ≠ [] ∧ (∀ c ∈ d1, regexp.digit c = true) ∧
    (n = d1 ∨ (d2 ≠ [] ∧ (∀ c ∈ d2, regexp.digit c = true) ∧ n = d1 ++ '.' :: d2))

/-- The line has a substring `<digits>[.<digits>]%`. -/
def ClaimPercent (line : String) : Prop :=
  ∃ a n b, line.data = a ++ n ++ '%' :: b ∧ ClaimNumeral n

end Grammar

/-- An extractor whose direct resolution fails and whose extraction run prints
a JSON object without a `formats` entry. -/
def bareExtractor : Extractor :=
  { getDouyinRealUrl := fun _ => ("", "", some "direct resolution failed"),
    Output := fun _ => Except.ok "\x7b\"title\": \"clip\"\x7d",
    Unmarshal := fun _ => Except.ok [("title", Json.string "clip")] }

/-- The argument list holds `flag` with `value` right after it. -/
def Follows (args : List String) (flag value : String) : Prop :=
  ∃ pre post, args = pre ++ flag :: value :: post

/-- A transfer that announces a destination and exits with status zero. -/
def announcedRun : ProcessRun :=
  { lines := [(Stream.stdout, "[download] Destination: downloads/T1_clip.mp4")] }

/-- A system in which only the transfer tool is on disk. -/
def toolOnlySystem : System :=
  { systemWith [] 0 true true with
    Stat := fun p => if p = "/usr/bin/yt-dlp" then none else some "no such file or directory" }

/-! ## Direct download (`service.go`: `DirectDownload`) -/

/-- The request `dlReq` that `DirectDownload` hands to the driver: the output
path is `tmpDir/<uuid>.mp4`, the task ID stays empty. -/
def dlReq (tmpDir uuid url format : String) : DownloadRequest :=
  { URL := url, Format := format, Output := filepath.Join tmpDir (uuid ++ ".mp4") }

/-- The handler `DirectDownload` for a body that was decoded: `tmpDir` is
`os.TempDir()`, `uuid` the new UUID, `download` the call `s.ytdlp.Download`.
The reply is an error (status and message) or status 200 with the file at the
returned path (`c.File`). -/
def DirectDownload (tmpDir uuid url format : String)
    (download : DownloadRequest → Except String String) : Except (Nat × String) String :=
  if url = "" then Except.error (400, "缺少URL参数或参数格式错误")
  else
    let filePath := filepath.Join tmpDir (uuid ++ ".mp4")
    match download (dlReq tmpDir uuid url format) with
    | Except.error err => Except.error (500, "下载失败: " ++ err)
    | Except.ok _ => Except.ok filePath

/-! ## Handing a file to the client (`service.go`: `DownloadFile`) -/

/-- The file name `DownloadFile` puts in `Content-Disposition`, from the base
name of the file: the first `<id>_` is removed; when the name holds `.f`, the
text from the first `.f` up to the first dot of the part that follows it is
removed (provided that dot is not the first character of the part); then the
first `_merged` is removed. -/
def friendlyName (id filename : String) : String :=
  let filename :=
    if strings.Contains filename (id ++ "_") then strings.Replace1 filename (id ++ "_") ""
    else filename
  let filename :=
    if strings.Contains filename ".f" then
      match Chars.cut filename.data ['.', 'f'] with
      | some (part0, after) =>
        let secondPart := match Chars.cut after ['.', 'f'] with
          | some (part1, _) => part1
          | none => after
        match Chars.cut secondPart ['.'] with
        | some (before, ext) =>
          if before ≠ [] then String.mk (part0 ++ '.' :: ext) else filename
        | none => filename
      | none => filename
    else filename
  strings.Replace1 filename "_merged" ""

/-- Go `filepath.IsAbs` (Unix). -/
def filepath.IsAbs (path : String) : Bool := strings.HasPrefix path "/"

/-- The absolute path `DownloadFile` builds when the working directory is
`wd`: an absolute path is kept, a relative one is joined with `wd`. -/
def absPathOf (wd file : String) : String :=
  if filepath.IsAbs file then file else filepath.Join wd file

/-- The handler `DownloadFile`: an error reply (status and message) or the
path of the file sent with the file name offered to the client. `Getwd` is
the working directory (or the error of `os.Getwd`), which `filepath.Abs` joins
with a relative path; `Stat` is `os.Stat`. -/
def DownloadFile (s : Service) (id : String) (Getwd : Except String String)
    (Stat : String → Option String) : Except (Nat × String) (String × String) :=
  match s.task id with
  | none => Except.error (404, "下载任务不存在")
  | some download =>
    if download.Status ≠ StatusCompleted then Except.error (400, "下载尚未完成")
    else if download.File = "" then Except.error (404, "文件路径为空")
    else
      let abs : Except (Nat × String) String :=
        if filepath.IsAbs download.File then Except.ok download.File
        else match Getwd with
          | Except.ok wd => Except.ok (filepath.Join wd download.File)
          | Except.error _ => Except.error (500, "无法获取绝对路径")
      match abs with
      | Except.error e => Except.error e
      | Except.ok absPath =>
        match Stat absPath with
        | some _ => Except.error (404, "文件不存在或无法访问")
        | none => Except.ok (absPath, friendlyName id (filepath.Base absPath))

/-- The path has `base` as its last element: it is `base` or ends in `/base`. -/
def HasBase (path base : String) : Prop :=
  path.data = base.data ∨ ∃ dir, path.data = dir ++ '/' :: base.data

/-- A service that holds the completed task `t1` with the given file. -/
def doneService (file : String) : Service :=
  { records := fun k =>
      if k = "t1" then some { ID := "t1", Status := StatusCompleted, Progress := 100, File := file }
      else none,
    downloads := fun k => k = "t1" }

/-! ## `convertDouyinUrl` in the words of its description -/

/-- The digit run that follows the first `douyin.com/video/` with a digit
right after it; `none` when the text has no such place. -/
def firstVideoID : List Char → Option (List Char)
  | [] => none
  | c :: s =>
    if Chars.startsWith (c :: s) "douyin.com/video/".data ∧
        (((c :: s).drop 17).takeWhile regexp.digit) ≠ [] then
      some (((c :: s).drop 17).takeWhile regexp.digit)
    else firstVideoID s

/-- The conversion as described: a URL with `v.douyin.com` is kept; otherwise
a URL with `douyin.com/video/<digits>` becomes
`https://www.douyin.com/video/<digits>` for the first such place; any other
URL is kept. -/
def canonicalDouyinUrl (url : String) : String :=
  if strings.Contains url "v.douyin.com" then url
  else match firstVideoID url.data with
    | some id => "https://www.douyin.com/video/" ++ String.mk id
    | none => url
/-! # Theorems -/

/-! ## The progress filter -/

/-- The callback's bookkeeping agrees with the last message it broadcast. -/
def CallbackSynced (st : CallbackState) : Prop :=
  st.lastProgressTime ≠ 0 ∧
    ∃ m, st.broadcasts.getLast? = some m ∧ m.updated = st.lastProgressTime ∧
      m.progress = st.lastProgress

/-! ## Rounding to `float64` -/

namespace float64

theorem pow2_eq (e : Int) : pow2 e = (2 : ℚ) ^ e := by
  unfold pow2
  split_ifs with h
  · obtain ⟨n, rfl⟩ := Int.eq_ofNat_of_zero_le h
    simp
  · obtain ⟨n, hn⟩ := Int.eq_ofNat_of_zero_le (show 0 ≤ -e by omega)
    have he : e = -(n : ℤ) := by omega
    subst he
    simp [zpow_neg]

theorem pow2_pos (e : Int) : 0 < pow2 e := by
  rw [pow2_eq]; positivity

theorem pow2_add (a b : Int) : pow2 (a + b) = pow2 a * pow2 b := by
  simp only [pow2_eq]
  exact zpow_add₀ (by norm_num) a b

theorem pow2_le (a b : Int) (h : a ≤ b) : pow2 a ≤ pow2 b := by
  simp only [pow2_eq]
  exact zpow_le_zpow_right₀ (by norm_num) h

theorem pow2_lt_iff (a b : Int) : pow2 a < pow2 b ↔ a < b := by
  simp only [pow2_eq]
  exact zpow_lt_zpow_iff_right₀ (by norm_num)

theorem pow2_nat (n : Nat) : pow2 n = (2 : ℚ) ^ n := by
  rw [pow2_eq]; simp

theorem log2Aux_spec : ∀ fuel n, 0 < n → n ≤ fuel →
    2 ^ log2Aux fuel n ≤ n ∧ n < 2 ^ (log2Aux fuel n + 1)
  | 0, n, h0, h => by omega
  | fuel + 1, n, h0, h => by
    unfold log2Aux
    split_ifs with h2
    · constructor <;> simp <;> omega
    · have ih := log2Aux_spec fuel (n / 2) (by omega) (by omega)
      constructor
      · have := ih.1
        rw [pow_succ]
        omega
      · have := ih.2
        rw [pow_succ]
        omega

theorem log2_spec (n : Nat) (h : 0 < n) : 2 ^ log2 n ≤ n ∧ n < 2 ^ (log2 n + 1) :=
  log2Aux_spec n n h (le_refl n)

theorem exponent_spec (x : Rat) (hx : 0 < x) :
    pow2 (exponent x) ≤ x ∧ x < pow2 (exponent x + 1) := by
  have hnum : 0 < x.num := Rat.num_pos.mpr hx
  have hden : 0 < x.den := x.den_pos
  obtain ⟨ha1, ha2⟩ := log2_spec x.num.natAbs (by omega)
  obtain ⟨hb1, hb2⟩ := log2_spec x.den hden
  set a := log2 x.num.natAbs with ha
  set b := log2 x.den with hb
  have hxe : x = (x.num.natAbs : ℚ) / (x.den : ℚ) := by
    have h1 : ((x.num.natAbs : ℤ) : ℚ) = (x.num : ℚ) := by
      rw [Int.natAbs_of_nonneg hnum.le]
    have h2 : ((x.num.natAbs : ℕ) : ℚ) = ((x.num.natAbs : ℤ) : ℚ) :=
      (Int.cast_natCast _).symm
    rw [h2, h1]
    exact (Rat.num_div_den x).symm
  have hD : (0 : ℚ) < x.den := by exact_mod_cast hden
  have hN1 : (2 : ℚ) ^ a ≤ x.num.natAbs := by exact_mod_cast ha1
  have hN2 : (x.num.natAbs : ℚ) < 2 ^ (a + 1) := by exact_mod_cast ha2
  have hD1 : (2 : ℚ) ^ b ≤ x.den := by exact_mod_cast hb1
  have hD2 : (x.den : ℚ) < 2 ^ (b + 1) := by exact_mod_cast hb2
  have hab : pow2 ((a : ℤ) - b) * 2 ^ b = 2 ^ a := by
    rw [← pow2_nat b, ← pow2_add, ← pow2_nat a]
    congr 1; omega
  have hlow : pow2 ((a : ℤ) - b - 1) < x := by
    rw [hxe, lt_div_iff₀ hD]
    have h1 : pow2 ((a : ℤ) - b - 1) * 2 ^ (b + 1) = 2 ^ a := by
      rw [← pow2_nat (b + 1), ← pow2_add, ← pow2_nat a]
      congr 1; push_cast; omega
    calc pow2 ((a : ℤ) - b - 1) * x.den < pow2 ((a : ℤ) - b - 1) * 2 ^ (b + 1) :=
          mul_lt_mul_of_pos_left hD2 (pow2_pos _)
      _ = 2 ^ a := h1
      _ ≤ x.num.natAbs := hN1
  have hhigh : x < pow2 ((a : ℤ) - b + 1) := by
    rw [hxe, div_lt_iff₀ hD]
    have h1 : pow2 ((a : ℤ) - b + 1) * 2 ^ b = 2 ^ (a + 1) := by
      rw [← pow2_nat b, ← pow2_add, ← pow2_nat (a + 1)]
      congr 1; push_cast; omega
    calc (x.num.natAbs : ℚ) < 2 ^ (a + 1) := hN2
      _ = pow2 ((a : ℤ) - b + 1) * 2 ^ b := h1.symm
      _ ≤ pow2 ((a : ℤ) - b + 1) * x.den := mul_le_mul_of_nonneg_left hD1 (pow2_pos _).le
  unfold exponent
  simp only [← ha, ← hb]
  split_ifs with hlt
  · exact ⟨hlow.le, by rw [sub_add_cancel]; exact hlt⟩
  · exact ⟨not_lt.mp hlt, hhigh⟩

theorem roundEven_cases (m : Rat) :
    (roundEven m = ⌊m⌋ ∧ m - ⌊m⌋ ≤ 1 / 2 ∧ (m - ⌊m⌋ = 1 / 2 → ⌊m⌋ % 2 = 0)) ∨
    (roundEven m = ⌊m⌋ + 1 ∧ 1 / 2 ≤ m - ⌊m⌋ ∧ (m - ⌊m⌋ = 1 / 2 → ⌊m⌋ % 2 = 1)) := by
  have hf : Rat.floor m = ⌊m⌋ := rfl
  unfold roundEven
  simp only [hf]
  split_ifs with h1 h2 h3
  · exact Or.inl ⟨rfl, h1.le, fun h => absurd h (ne_of_lt h1)⟩
  · exact Or.inr ⟨rfl, h2.le, fun h => absurd h.symm (ne_of_lt h2)⟩
  · exact Or.inl ⟨rfl, not_lt.mp h2, fun _ => h3⟩
  · exact Or.inr ⟨rfl, not_lt.mp h1, fun _ => by omega⟩

theorem roundEven_abs (m : Rat) : |m - roundEven m| ≤ 1 / 2 := by
  have h1 := Int.floor_le m
  have h2 := Int.lt_floor_add_one m
  rw [abs_le]
  rcases roundEven_cases m with ⟨hk, h, _⟩ | ⟨hk, h, _⟩ <;> rw [hk] <;> push_cast <;>
    constructor <;> linarith

theorem roundEven_tie (m : Rat) (h : |m - roundEven m| = 1 / 2) : roundEven m % 2 = 0 := by
  have h1 := Int.floor_le m
  have h2 := Int.lt_floor_add_one m
  rcases roundEven_cases m with ⟨hk, _, ht⟩ | ⟨hk, _, ht⟩
  · rw [hk] at h ⊢
    rw [abs_of_nonneg (by linarith)] at h
    exact ht h
  · rw [hk] at h ⊢
    push_cast at h
    rw [abs_of_nonpos (by linarith)] at h
    have := ht (by linarith)
    omega

theorem le_roundEven (m : Rat) (j : Int) (h : (j : ℚ) ≤ m) : j ≤ roundEven m := by
  have hj : j ≤ ⌊m⌋ := Int.le_floor.mpr h
  rcases roundEven_cases m with ⟨hk, _, _⟩ | ⟨hk, _, _⟩ <;> rw [hk] <;> omega

theorem roundEven_le (m : Rat) (j : Int) (h : m ≤ (j : ℚ)) : roundEven m ≤ j := by
  have h1 := Int.floor_le m
  rcases roundEven_cases m with ⟨hk, _, _⟩ | ⟨hk, hh, _⟩ <;> rw [hk]
  · exact_mod_cast h1.trans h
  · have : ((⌊m⌋ : ℤ) : ℚ) < j := by linarith
    have : ⌊m⌋ < j := by exact_mod_cast this
    omega

theorem roundEven_int (j : Int) : roundEven (j : ℚ) = j :=
  le_antisymm (roundEven_le _ j (le_refl _)) (le_roundEven _ j (le_refl _))

theorem roundEven_nearest (m : Rat) (J : Int) : |m - roundEven m| ≤ |m - J| := by
  by_cases hJ : J = roundEven m
  · rw [hJ]
  · have h1 : (1 : ℤ) ≤ |roundEven m - J| := by
      have : roundEven m - J ≠ 0 := fun h => hJ (by omega)
      exact Int.one_le_abs this
    have h2 : (1 : ℚ) ≤ |(roundEven m : ℚ) - J| := by exact_mod_cast h1
    have h3 := roundEven_abs m
    have h4 : |(roundEven m : ℚ) - J| ≤ |m - roundEven m| + |m - J| := by
      have : (roundEven m : ℚ) - J = -(m - roundEven m) + (m - J) := by ring
      rw [this]
      exact (abs_add _ _).trans (by rw [abs_neg])
    linarith

/-- Two neighbours of `m` at the same distance: `m` lies half way and the
rounded one is even. -/
theorem roundEven_other (m : Rat) (J : Int) (hJ : J ≠ roundEven m)
    (h : |m - J| = |m - roundEven m|) :
    roundEven m % 2 = 0 ∧ (J - roundEven m) * (J - roundEven m) = 1 := by
  have h3 := roundEven_abs m
  have h1 : (1 : ℤ) ≤ |roundEven m - J| := by
    have : roundEven m - J ≠ 0 := fun h => hJ (by omega)
    exact Int.one_le_abs this
  have h2 : (1 : ℚ) ≤ |(roundEven m : ℚ) - J| := by exact_mod_cast h1
  have h4 : |(roundEven m : ℚ) - J| ≤ |m - roundEven m| + |m - J| := by
    have : (roundEven m : ℚ) - J = -(m - roundEven m) + (m - J) := by ring
    rw [this]
    exact (abs_add _ _).trans (by rw [abs_neg])
  have h5 : |m - roundEven m| = 1 / 2 := by linarith
  have h6 : |(roundEven m : ℚ) - J| ≤ 1 := by linarith
  have h7 : |roundEven m - J| ≤ 1 := by exact_mod_cast h6
  refine ⟨roundEven_tie m h5, ?_⟩
  have h8 : |roundEven m - J| = 1 := le_antisymm h7 h1
  rcases abs_eq (by norm_num : (0 : ℤ) ≤ 1) |>.mp h8 with h9 | h9
  · have : J - roundEven m = -1 := by omega
    rw [this]; norm_num
  · have : J - roundEven m = 1 := by omega
    rw [this]; norm_num

/-- Where a `float64` lies with respect to the spacing `q` that `roundAbs`
uses for `x`: on the grid of spacing `q`, or below the binade of `x` by half
a spacing at least. -/
theorem grid (x : Rat) (hx : 0 < x) (w : Rat) (hw : IsFloat64 w) :
    (∃ J : Int, w = J * pow2 (max (exponent x) (-1022) - 52)) ∨
    (pow2 (max (exponent x) (-1022)) ≤ x ∧
      w ≤ pow2 (max (exponent x) (-1022)) - pow2 (max (exponent x) (-1022) - 52) / 2) := by
  obtain ⟨j, f, hj, hf1, hf2, rfl⟩ := hw
  set e := max (exponent x) (-1022) with he
  by_cases hfe : e - 52 ≤ f
  · left
    obtain ⟨n, hn⟩ := Int.eq_ofNat_of_zero_le (show 0 ≤ f - (e - 52) by omega)
    refine ⟨j * 2 ^ n, ?_⟩
    have h1 : pow2 f = pow2 (e - 52) * pow2 n := by
      rw [← pow2_add]; congr 1; omega
    rw [h1, pow2_nat]
    push_cast
    ring
  · right
    have he' : e = exponent x := by
      rw [he]
      exact max_eq_left (by omega)
    constructor
    · rw [he']
      exact (exponent_spec x hx).1
    · have h1 : (j : ℚ) ≤ 2 ^ 53 - 1 := by
        have : j ≤ 2 ^ 53 - 1 := by
          have := (abs_lt.mp hj).2
          omega
        exact_mod_cast this
      have h2 : pow2 f ≤ pow2 (e - 53) := pow2_le _ _ (by omega)
      have h3 : pow2 e = 2 ^ 53 * pow2 (e - 53) := by
        have : pow2 e = pow2 (53 + (e - 53)) := by congr 1; omega
        rw [this, pow2_add]
        congr 1
      have h4 : pow2 (e - 52) = 2 * pow2 (e - 53) := by
        have : pow2 (e - 52) = pow2 (1 + (e - 53)) := by congr 1; omega
        rw [this, pow2_add]
        congr 1
      have h5 := pow2_pos (e - 53)
      have h6 := pow2_pos f
      have h7 : (j : ℚ) * pow2 f ≤ (2 ^ 53 - 1) * pow2 f :=
        mul_le_mul_of_nonneg_right h1 h6.le
      have h8 : ((2 : ℚ) ^ 53 - 1) * pow2 f ≤ (2 ^ 53 - 1) * pow2 (e - 53) :=
        mul_le_mul_of_nonneg_left h2 (by norm_num)
      rw [h3, h4]
      linarith

theorem roundAbs_eq (x : Rat) :
    roundAbs x = roundEven (x / pow2 (max (exponent x) (-1022) - 52)) *
      pow2 (max (exponent x) (-1022) - 52) := rfl

theorem roundAbs_dist (x : Rat) :
    |x - roundAbs x| = |x / pow2 (max (exponent x) (-1022) - 52) -
      roundEven (x / pow2 (max (exponent x) (-1022) - 52))| *
        pow2 (max (exponent x) (-1022) - 52) := by
  have hq := pow2_pos (max (exponent x) (-1022) - 52)
  rw [roundAbs_eq]
  set q := pow2 (max (exponent x) (-1022) - 52)
  have : x - roundEven (x / q) * q = (x / q - roundEven (x / q)) * q := by
    field_simp; ring
  rw [this, abs_mul, abs_of_pos hq]

theorem roundAbs_near (x : Rat) :
    |x - roundAbs x| ≤ pow2 (max (exponent x) (-1022) - 52) / 2 := by
  have hq := pow2_pos (max (exponent x) (-1022) - 52)
  rw [roundAbs_dist]
  have := roundEven_abs (x / pow2 (max (exponent x) (-1022) - 52))
  nlinarith

theorem roundAbs_nonneg (x : Rat) (hx : 0 ≤ x) : 0 ≤ roundAbs x := by
  have hq := pow2_pos (max (exponent x) (-1022) - 52)
  rw [roundAbs_eq]
  have h : (0 : ℤ) ≤ roundEven (x / pow2 (max (exponent x) (-1022) - 52)) :=
    le_roundEven _ 0 (by push_cast; positivity)
  have h2 : (0 : ℚ) ≤ roundEven (x / pow2 (max (exponent x) (-1022) - 52)) := by
    exact_mod_cast h
  positivity

theorem roundAbs_isFloat64 (x : Rat) (hx : 0 < x) (hr : x < 2 ^ 1024 - 2 ^ 970) :
    IsFloat64 (roundAbs x) := by
  have hq := pow2_pos (max (exponent x) (-1022) - 52)
  obtain ⟨hlo, hhi⟩ := exponent_spec x hx
  have hnear := roundEven_abs (x / pow2 (max (exponent x) (-1022) - 52))
  rw [roundAbs_eq]
  set e := max (exponent x) (-1022) with he
  set q := pow2 (e - 52) with hqd
  set m := x / q with hm
  have hxm : x = m * q := by rw [hm]; field_simp
  have he1 : -1022 ≤ e := le_max_right _ _
  have hxlt : x < pow2 (e + 1) := hhi.trans_le (pow2_le _ _ (by rw [he]; omega))
  have h53 : pow2 (e + 1) = 2 ^ 53 * q := by
    have : pow2 (e + 1) = pow2 (53 + (e - 52)) := by congr 1; omega
    rw [this, pow2_add]
    congr 1
  have hm53 : m < 2 ^ 53 := by
    rw [hm, div_lt_iff₀ hq, ← h53]
    exact hxlt
  have hK53 : roundEven m ≤ 2 ^ 53 := roundEven_le m (2 ^ 53) (by push_cast; exact hm53.le)
  have hK0 : 0 ≤ roundEven m := le_roundEven m 0 (by push_cast; rw [hm]; positivity)
  have he2 : e ≤ 1023 := by
    have h1 : pow2 (exponent x) < pow2 1024 := by
      have h1024 : pow2 1024 = 2 ^ 1024 := by rw [show (1024 : ℤ) = (1024 : ℕ) by rfl, pow2_nat]
      rw [h1024]
      have : (0 : ℚ) < 2 ^ 970 := by positivity
      linarith
    have := (pow2_lt_iff _ _).mp h1
    rw [he]
    omega
  by_cases hK : roundEven m < 2 ^ 53
  · exact ⟨roundEven m, e - 52, by rw [abs_of_nonneg hK0]; exact hK, by omega, by omega, rfl⟩
  · have hKeq : roundEven m = 2 ^ 53 := le_antisymm hK53 (not_lt.mp hK)
    have he3 : e ≤ 1022 := by
      by_contra hc
      have he4 : e = 1023 := by omega
      have hq971 : q = 2 ^ 971 := by
        rw [hqd, he4, show (1023 - 52 : ℤ) = (971 : ℕ) by rfl, pow2_nat]
      have h1 := (abs_le.mp hnear).2
      rw [hKeq] at hnear
      have h2 := (abs_le.mp hnear).1
      push_cast at h2
      have h3 : (2 ^ 53 - 1 / 2) * q ≤ x := by
        rw [hxm]
        exact mul_le_mul_of_nonneg_right (by linarith) hq.le
      rw [hq971] at h3
      have h4 : ((2 : ℚ) ^ 53 - 1 / 2) * 2 ^ 971 = 2 ^ 1024 - 2 ^ 970 := by norm_num
      linarith
    refine ⟨2 ^ 52, e - 51, by norm_num, by omega, by omega, ?_⟩
    have h1 : pow2 (e - 51) = 2 * q := by
      have : pow2 (e - 51) = pow2 (1 + (e - 52)) := by congr 1; omega
      rw [this, pow2_add]
      congr 1
    rw [hKeq, h1]
    push_cast
    ring

theorem roundAbs_rounds (x : Rat) (hx : 0 < x) (hr : x < 2 ^ 1024 - 2 ^ 970) :
    Rounds x (roundAbs x) := by
  have hq := pow2_pos (max (exponent x) (-1022) - 52)
  refine ⟨roundAbs_isFloat64 x hx hr, ?_, ?_⟩
  · intro w hw
    rcases grid x hx w hw with ⟨J, hJ⟩ | ⟨hlo, hwle⟩
    · have h1 := roundEven_nearest (x / pow2 (max (exponent x) (-1022) - 52)) J
      rw [roundAbs_dist, hJ]
      set q := pow2 (max (exponent x) (-1022) - 52)
      have : x - J * q = (x / q - J) * q := by field_simp; ring
      rw [this, abs_mul, abs_of_pos hq]
      exact mul_le_mul_of_nonneg_right h1 hq.le
    · have h1 := roundAbs_near x
      have h2 : x - w ≤ |x - w| := le_abs_self _
      linarith
  · intro w hw hne heq
    rcases grid x hx w hw with ⟨J, hJ⟩ | ⟨hlo, hwle⟩
    · set q := pow2 (max (exponent x) (-1022) - 52) with hqd
      have hJne : J ≠ roundEven (x / q) := by
        intro h
        apply hne
        rw [hJ, roundAbs_eq, h]
      have hd : |x / q - J| = |x / q - roundEven (x / q)| := by
        have h1 : x - J * q = (x / q - J) * q := by field_simp; ring
        rw [roundAbs_dist, hJ, h1, abs_mul, abs_of_pos hq] at heq
        exact mul_right_cancel₀ hq.ne' heq
      obtain ⟨hev, hsq⟩ := roundEven_other (x / q) J hJne hd
      obtain ⟨k, hk⟩ : ∃ k, roundEven (x / q) = 2 * k := ⟨roundEven (x / q) / 2, by omega⟩
      refine ⟨k * (J - roundEven (x / q)), ?_⟩
      rw [hJ, roundAbs_eq]
      have hsq' : ((J : ℚ) - roundEven (x / q)) * (J - roundEven (x / q)) = 1 := by
        exact_mod_cast hsq
      have hk' : (roundEven (x / q) : ℚ) = 2 * k := by exact_mod_cast hk
      push_cast
      calc (roundEven (x / q) : ℚ) * q
          = 2 * k * (((J : ℚ) - roundEven (x / q)) * (J - roundEven (x / q))) * q := by
            rw [hsq', hk']; ring
        _ = 2 * (k * (J - roundEven (x / q))) * (J * q - roundEven (x / q) * q) := by ring
    · exfalso
      have h1 := roundAbs_near x
      have h2 : x - w ≤ |x - w| := le_abs_self _
      set e := max (exponent x) (-1022) with he
      set q := pow2 (e - 52) with hqd
      have hxe : x = pow2 e := by linarith
      have hdist : |x - roundAbs x| = q / 2 := by linarith
      have h52 : pow2 e = 2 ^ 52 * q := by
        have : pow2 e = pow2 (52 + (e - 52)) := by congr 1; omega
        rw [this, pow2_add]
        congr 1
      have hm : x / q = ((2 ^ 52 : ℤ) : ℚ) := by
        rw [hxe, h52]
        field_simp
      have hv : roundAbs x = x := by
        rw [roundAbs_eq, ← he, ← hqd, hm, roundEven_int, hxe, h52]
        push_cast
        ring
      rw [hv, sub_self, abs_zero] at hdist
      linarith

theorem isFloat64_neg (w : Rat) (h : IsFloat64 w) : IsFloat64 (-w) := by
  obtain ⟨k, e, hk, h1, h2, rfl⟩ := h
  exact ⟨-k, e, by rw [abs_neg]; exact hk, h1, h2, by push_cast; ring⟩

theorem isFloat64_zero : IsFloat64 0 :=
  ⟨0, 0, by norm_num, by norm_num, by norm_num, by norm_num⟩

theorem rounds_neg (x v : Rat) (h : Rounds x v) : Rounds (-x) (-v) := by
  obtain ⟨hf, hn, ht⟩ := h
  refine ⟨isFloat64_neg v hf, ?_, ?_⟩
  · intro w hw
    have := hn (-w) (isFloat64_neg w hw)
    have e1 : -x - -v = -(x - v) := by ring
    have e2 : -x - w = -(x - -w) := by ring
    rw [e1, e2, abs_neg, abs_neg]
    exact this
  · intro w hw hne heq
    have e1 : -x - -v = -(x - v) := by ring
    have e2 : -x - w = -(x - -w) := by ring
    rw [e1, e2, abs_neg, abs_neg] at heq
    obtain ⟨k, hk⟩ := ht (-w) (isFloat64_neg w hw) (fun h => hne (by rw [← h, neg_neg])) heq
    exact ⟨k, by linear_combination -hk⟩

/-- For every `x` within the range of `float64`, `round x` is the value that
round-to-nearest-even gives. -/
theorem round_rounds (x : Rat) (hr : |x| < 2 ^ 1024 - 2 ^ 970) : Rounds x (round x) := by
  unfold round
  split_ifs with h0 hneg
  · subst h0
    refine ⟨isFloat64_zero, fun w _ => by simp, ?_⟩
    intro w _ hne heq
    simp only [zero_sub, abs_neg, sub_self, abs_zero, abs_eq_zero] at heq
    exact absurd heq hne
  · have hpos : 0 < -x := by linarith
    have h := roundAbs_rounds (-x) hpos (by rw [abs_of_neg hneg] at hr; exact hr)
    have h2 := rounds_neg _ _ h
    rw [neg_neg] at h2
    exact h2
  · have hpos : 0 < x := lt_of_le_of_ne (not_lt.mp hneg) (Ne.symm h0)
    exact roundAbs_rounds x hpos (by rw [abs_of_pos hpos] at hr; exact hr)

/-- Round-to-nearest-even determines its result. -/
theorem rounds_unique (x v v' : Rat) (h : Rounds x v) (h' : Rounds x v') : v = v' := by
  by_contra hne
  obtain ⟨hf, hn, ht⟩ := h
  obtain ⟨hf', hn', ht'⟩ := h'
  have heq : |x - v'| = |x - v| := le_antisymm (hn' v hf) (hn v' hf')
  obtain ⟨k, hk⟩ := ht v' hf' (fun h => hne h.symm) heq
  obtain ⟨k', hk'⟩ := ht' v hf hne heq.symm
  have hd : v' - v ≠ 0 := fun h => hne (by linarith)
  have h1 : (v' - v) * (1 + 2 * k + 2 * k') = 0 := by
    linear_combination hk' - hk
  have h2 : (1 : ℚ) + 2 * k + 2 * k' = 0 := by
    rcases mul_eq_zero.mp h1 with h | h
    · exact absurd h hd
    · exact h
  have h3 : (1 : ℤ) + 2 * k + 2 * k' = 0 := by exact_mod_cast h2
  omega

theorem round_nonpos (x : Rat) (hx : x ≤ 0) : round x ≤ 0 := by
  unfold round
  split_ifs with h0 hneg
  · exact le_refl _
  · have := roundAbs_nonneg (-x) (by linarith)
    linarith
  · exact absurd (lt_of_le_of_ne hx h0) hneg

theorem round_nonneg (x : Rat) (hx : 0 ≤ x) : 0 ≤ round x := by
  unfold round
  split_ifs with h0 hneg
  · exact le_refl _
  · exact absurd hneg (not_lt.mpr hx)
  · exact roundAbs_nonneg x hx

theorem pow2_zero : pow2 0 = 1 := rfl

theorem round_lt_one (x : Rat) (hx : x < 1 - 1 / 2 ^ 54) : round x < 1 := by
  by_cases h0 : x ≤ 0
  · exact (round_nonpos x h0).trans_lt one_pos
  · have hpos : 0 < x := not_le.mp h0
    have hr : round x = roundAbs x := by
      unfold round
      rw [if_neg hpos.ne', if_neg (not_lt.mpr hpos.le)]
    rw [hr]
    obtain ⟨hlo, hhi⟩ := exponent_spec x hpos
    have hnear := (abs_le.mp (roundAbs_near x)).1
    have he' : exponent x ≤ -1 := by
      have h1 : pow2 (exponent x) < pow2 0 := by
        rw [pow2_zero]
        have : (0 : ℚ) < 1 / 2 ^ 54 := by positivity
        linarith
      have := (pow2_lt_iff _ _).mp h1
      omega
    set e := max (exponent x) (-1022) with he
    have he1 : e ≤ -1 := max_le he' (by norm_num)
    by_cases he2 : e = -1
    · have hq : pow2 (e - 52) = 1 / 2 ^ 53 := by rw [he2]; rfl
      rw [hq] at hnear
      have : (1 : ℚ) / 2 ^ 53 / 2 = 1 / 2 ^ 54 := by norm_num
      linarith
    · have h1 : x < pow2 (-1) := hhi.trans_le (pow2_le _ _ (by omega))
      have h2 : pow2 (e - 52) ≤ pow2 (-54) := pow2_le _ _ (by omega)
      have h3 : pow2 (-1) = 1 / 2 := rfl
      have h4 : pow2 (-54) = 1 / 2 ^ 54 := rfl
      rw [h3] at h1
      rw [h4] at h2
      have : (1 : ℚ) / 2 ^ 54 < 1 / 2 := by norm_num
      linarith

theorem one_le_round (x : Rat) (hx : 1 - 1 / 2 ^ 54 ≤ x) : 1 ≤ round x := by
  have hpos : 0 < x := by
    have : (1 : ℚ) / 2 ^ 54 < 1 := by norm_num
    linarith
  have hr : round x = roundAbs x := by
    unfold round
    rw [if_neg hpos.ne', if_neg (not_lt.mpr hpos.le)]
  rw [hr, roundAbs_eq]
  obtain ⟨hlo, hhi⟩ := exponent_spec x hpos
  by_cases h1 : 1 ≤ x
  · have he' : 0 ≤ exponent x := by
      have h2 : pow2 0 < pow2 (exponent x + 1) := by
        rw [pow2_zero]; linarith
      have := (pow2_lt_iff _ _).mp h2
      omega
    have he : max (exponent x) (-1022) = exponent x := max_eq_left (by omega)
    rw [he]
    set e := exponent x
    have hq := pow2_pos (e - 52)
    have h52 : pow2 e = 2 ^ 52 * pow2 (e - 52) := by
      have : pow2 e = pow2 (52 + (e - 52)) := by congr 1; omega
      rw [this, pow2_add]
      congr 1
    have hc : ((2 ^ 52 : ℤ) : ℚ) = 2 ^ 52 := by norm_cast
    have hm : ((2 ^ 52 : ℤ) : ℚ) ≤ x / pow2 (e - 52) := by
      rw [le_div_iff₀ hq, hc, ← h52]
      exact hlo
    have hK := le_roundEven _ _ hm
    have hK' : ((2 ^ 52 : ℤ) : ℚ) ≤ roundEven (x / pow2 (e - 52)) := by exact_mod_cast hK
    have h0 : pow2 0 ≤ pow2 e := pow2_le _ _ he'
    rw [pow2_zero] at h0
    calc (1 : ℚ) ≤ pow2 e := h0
      _ = ((2 ^ 52 : ℤ) : ℚ) * pow2 (e - 52) := by rw [hc, ← h52]
      _ ≤ roundEven (x / pow2 (e - 52)) * pow2 (e - 52) :=
          mul_le_mul_of_nonneg_right hK' hq.le
  · have hlt : x < 1 := not_le.mp h1
    have he' : exponent x = -1 := by
      have h2 : pow2 (exponent x) < pow2 0 := by rw [pow2_zero]; linarith
      have h3 : pow2 (-1) < pow2 (exponent x + 1) := by
        have h4 : pow2 (-1) = 1 / 2 := rfl
        rw [h4]
        have : (1 : ℚ) / 2 ≤ 1 - 1 / 2 ^ 54 := by norm_num
        linarith
      have := (pow2_lt_iff _ _).mp h2
      have := (pow2_lt_iff _ _).mp h3
      omega
    have he : max (exponent x) (-1022) - 52 = -53 := by rw [he']; rfl
    rw [he]
    have hq : pow2 (-53) = 1 / 2 ^ 53 := rfl
    rw [hq]
    set m := x / (1 / 2 ^ 53) with hm
    have hm1 : (2 : ℚ) ^ 53 - 1 / 2 ≤ m := by
      rw [hm, le_div_iff₀ (by positivity)]
      have : ((2 : ℚ) ^ 53 - 1 / 2) * (1 / 2 ^ 53) = 1 - 1 / 2 ^ 54 := by norm_num
      linarith
    have hm2 : m < 2 ^ 53 := by
      rw [hm, div_lt_iff₀ (by positivity)]
      have : (2 : ℚ) ^ 53 * (1 / 2 ^ 53) = 1 := by norm_num
      linarith
    have hc1 : ((9007199254740991 : ℤ) : ℚ) = 2 ^ 53 - 1 := by norm_num
    have hc2 : ((9007199254740992 : ℤ) : ℚ) = 2 ^ 53 := by norm_num
    have hK1 : 9007199254740991 ≤ roundEven m :=
      le_roundEven m 9007199254740991 (by rw [hc1]; linarith)
    have hK2 : roundEven m ≤ 9007199254740992 :=
      roundEven_le m 9007199254740992 (by rw [hc2]; exact hm2.le)
    have hK : roundEven m = 9007199254740992 := by
      by_contra hne
      have hKeq : roundEven m = 9007199254740991 := by omega
      have habs := roundEven_abs m
      have htie : |m - roundEven m| = 1 / 2 := by
        apply le_antisymm habs
        rw [hKeq, hc1]
        exact (by linarith : (1 : ℚ) / 2 ≤ m - (2 ^ 53 - 1)).trans (le_abs_self _)
      have := roundEven_tie m htie
      omega
    rw [hK, hc2]
    norm_num

/-- The comparison of the progress filter in real numbers: a `float64`
difference is at least 1 exactly when the difference itself is at least
`1 - 2 ^ (-54)`, the point half way between 1 and the `float64` below it. -/
theorem one_le_round_iff (x : Rat) : 1 ≤ round x ↔ 1 - 1 / 2 ^ 54 ≤ x := by
  constructor
  · intro h
    by_contra hc
    exact absurd h (not_le.mpr (round_lt_one x (not_le.mp hc)))
  · exact one_le_round x

end float64

/-! ## The callback -/

theorem progressCallback_fires (id : String) (st : CallbackState) (now : Time)
    (progress : DownloadResponse)
    (h : st.lastProgressTime = 0 ∨ Second ≤ now.Sub st.lastProgressTime ∨
      1 ≤ float64.sub progress.Progress st.lastProgress ∨ 100 ≤ progress.Progress) :
    progressCallback id st now progress =
      { lastProgressTime := now, lastProgress := progress.Progress,
        download := { st.download with
          Progress := progress.Progress, Speed := progress.Speed, ETA := progress.ETA,
          Updated := now },
        broadcasts := st.broadcasts ++ [progressMessage id { st.download with
          Progress := progress.Progress, Speed := progress.Speed, ETA := progress.ETA,
          Updated := now }] } := by
  unfold progressCallback
  rw [if_pos]
  simp only [Time.IsZero, Bool.or_eq_true, decide_eq_true_eq, beq_iff_eq]
  tauto

theorem progressCallback_skips (id : String) (st : CallbackState) (now : Time)
    (progress : DownloadResponse)
    (h : ¬ (st.lastProgressTime = 0 ∨ Second ≤ now.Sub st.lastProgressTime ∨
      1 ≤ float64.sub progress.Progress st.lastProgress ∨ 100 ≤ progress.Progress)) :
    progressCallback id st now progress = st := by
  unfold progressCallback
  rw [if_neg]
  simp only [Time.IsZero, Bool.or_eq_true, decide_eq_true_eq, beq_iff_eq]
  tauto

theorem progressCallback_synced (id : String) (st : CallbackState) (now : Time)
    (progress : DownloadResponse) (hnow : now ≠ 0)
    (h : st.lastProgressTime = 0 ∨ CallbackSynced st) :
    CallbackSynced (progressCallback id st now progress) := by
  by_cases hc : st.lastProgressTime = 0 ∨ Second ≤ now.Sub st.lastProgressTime ∨
      1 ≤ float64.sub progress.Progress st.lastProgress ∨ 100 ≤ progress.Progress
  · rw [progressCallback_fires id st now progress hc]
    exact ⟨hnow, _, List.getLast?_concat .., rfl, rfl⟩
  · rw [progressCallback_skips id st now progress hc]
    rcases h with h | h
    · exact absurd (Or.inl h) hc
    · exact h

theorem runCallback_synced (id : String) (samples : List (Time × DownloadResponse)) :
    ∀ st : CallbackState, (∀ s ∈ samples, s.1 ≠ 0) → CallbackSynced st →
      CallbackSynced (runCallback id st samples) := by
  induction samples with
  | nil => intro st _ h; exact h
  | cons s rest ih =>
    intro st hs h
    obtain ⟨now, progress⟩ := s
    exact ih _ (fun x hx => hs x (List.mem_cons_of_mem _ hx))
      (progressCallback_synced id st now progress (hs _ (List.mem_cons_self _ _)) (Or.inr h))

theorem runCallback_new_synced (id : String) (download : DownloadResponse)
    (samples : List (Time × DownloadResponse)) (hs : ∀ s ∈ samples, s.1 ≠ 0)
    (hne : samples ≠ []) :
    CallbackSynced (runCallback id (newCallback download) samples) := by
  cases samples with
  | nil => exact absurd rfl hne
  | cons s rest =>
    obtain ⟨now, progress⟩ := s
    exact runCallback_synced id rest _ (fun x hx => hs x (List.mem_cons_of_mem _ hx))
      (progressCallback_synced id _ now progress (hs _ (List.mem_cons_self _ _)) (Or.inl rfl))

/-- C1: in the progress callback of `processYtdlpDownload`, the sample delivered
after the samples `pre` is written to the task and broadcast exactly when it is
the first sample, or one second has passed since the last broadcast sample, or
its percentage exceeds the last broadcast percentage by at least 1.0 (the
`float64` difference of the two percentages, as the callback computes it, is
at least 1), or its percentage is at least 100; any other sample leaves the
task record and the broadcasts unchanged. (The clock never reads the zero
`Time`.) -/
theorem progressCallback_broadcast_iff (id : String) (download : DownloadResponse)
    (pre : List (Time × DownloadResponse)) (now : Time) (progress : DownloadResponse)
    (hclock : ∀ s ∈ pre, s.1 ≠ 0) :
    let st := runCallback id (newCallback download) pre
    let st' := progressCallback id st now progress
    let due := pre = [] ∨
      (∃ m, st.broadcasts.getLast? = some m ∧
        (Second ≤ now.Sub m.updated ∨ 1 ≤ float64.sub progress.Progress m.progress)) ∨
      100 ≤ progress.Progress
    (due →
      st'.download = { st.download with
        Progress := progress.Progress, Speed := progress.Speed, ETA := progress.ETA,
        Updated := now } ∧
      st'.broadcasts = st.broadcasts ++ [progressMessage id st'.download]) ∧
    (¬ due → st'.download = st.download ∧ st'.broadcasts = st.broadcasts) := by
  intro st st' due
  by_cases hpre : pre = []
  · have hst : st.lastProgressTime = 0 := by
      simp only [st, hpre]; rfl
    have hfire := progressCallback_fires id st now progress (Or.inl hst)
    refine ⟨fun _ => ?_, fun hnd => absurd (Or.inl hpre) hnd⟩
    simp only [st', hfire, and_self]
  · obtain ⟨hnz, m, hm, hmt, hmp⟩ := runCallback_new_synced id download pre hclock hpre
    by_cases hc : st.lastProgressTime = 0 ∨ Second ≤ now.Sub st.lastProgressTime ∨
        1 ≤ float64.sub progress.Progress st.lastProgress ∨ 100 ≤ progress.Progress
    · have hfire := progressCallback_fires id st now progress hc
      refine ⟨fun _ => ?_, fun hnd => ?_⟩
      · simp only [st', hfire, and_self]
      · exfalso
        apply hnd
        rcases hc with hc | hc | hc | hc
        · exact absurd hc hnz
        · exact Or.inr (Or.inl ⟨m, hm, Or.inl (by rw [hmt]; exact hc)⟩)
        · exact Or.inr (Or.inl ⟨m, hm, Or.inr (by rw [hmp]; exact hc)⟩)
        · exact Or.inr (Or.inr hc)
    · have hskip := progressCallback_skips id st now progress hc
      refine ⟨fun hd => ?_, fun _ => ?_⟩
      · exfalso
        apply hc
        rcases hd with hd | ⟨m', hm', hd⟩ | hd
        · exact absurd hd hpre
        · have hmm : m' = m := by
            have := hm'.symm.trans hm
            exact Option.some.inj this
          subst hmm
          rcases hd with hd | hd
          · exact Or.inr (Or.inl (by rw [← hmt]; exact hd))
          · exact Or.inr (Or.inr (Or.inl (by rw [← hmp]; exact hd)))
        · exact Or.inr (Or.inr (Or.inr hd))
      · simp only [st', hskip, and_self]

/-- Witness of C1: the samples 0, 0.2, 0.5, 1.2, 1.3, 50 arrive within one
second and 100 follows; 100 is broadcast, and of the whole run exactly 0, 1.2,
50 and 100 are broadcast. The lines `0.4%` and, a tenth of a second later,
`1.4%`: the second is not broadcast, since the `float64` values of the two
numerals differ by less than 1. -/
theorem progressCallback_broadcast_iff_witness :
    (∀ s ∈ burstSamples, s.1 ≠ 0) ∧
    (progressCallback "t1" (runCallback "t1" (newCallback {}) burstSamples) 2000000000
        { Progress := 100 }).broadcasts =
      (runCallback "t1" (newCallback {}) burstSamples).broadcasts ++
        [progressMessage "t1" (progressCallback "t1"
          (runCallback "t1" (newCallback {}) burstSamples) 2000000000
          { Progress := 100 }).download] ∧
    (runCallback "t1" (newCallback {})
        (burstSamples ++ [(2000000000, { Progress := 100 })])).broadcasts.map
      (fun m => m.progress) = [0, float64.round (6 / 5), 50, 100] ∧
    (progressCallback "t1"
        (runCallback "t1" (newCallback {}) [(1000000000, parseProgress "0.4%")]) 1100000000
        (parseProgress "1.4%")).broadcasts =
      (runCallback "t1" (newCallback {}) [(1000000000, parseProgress "0.4%")]).broadcasts :=
  ⟨by decide,
   ((progressCallback_broadcast_iff "t1" {} burstSamples 2000000000 { Progress := 100 }
      (by decide)).1 (Or.inr (Or.inr (le_refl _)))).2,
   by decide!,
   ((progressCallback_broadcast_iff "t1" {} [(1000000000, parseProgress "0.4%")] 1100000000
      (parseProgress "1.4%") (by decide)).2 (by
        rintro (h | ⟨m, hm, h⟩ | h)
        · exact absurd h (by simp)
        · have hm' : m = progressMessage "t1"
              { Progress := float64.round (2 / 5), Updated := 1000000000 } := by
            have h1 : (runCallback "t1" (newCallback {})
                [(1000000000, parseProgress "0.4%")]).broadcasts.getLast? =
                some (progressMessage "t1"
                  { Progress := float64.round (2 / 5), Updated := 1000000000 }) := by
              decide!
            rw [h1] at hm
            exact (Option.some.inj hm).symm
          subst hm'
          revert h
          decide!
        · revert h
          decide!)).2⟩

theorem runCallback_append (id : String) (xs ys : List (Time × DownloadResponse)) :
    ∀ st : CallbackState,
      runCallback id st (xs ++ ys) = runCallback id (runCallback id st xs) ys := by
  induction xs with
  | nil => intro st; rfl
  | cons x xs ih => intro st; obtain ⟨now, progress⟩ := x; exact ih _

theorem runCallback_sublist (id : String) (samples : List (Time × DownloadResponse)) :
    ∀ st : CallbackState, ∃ l, (runCallback id st samples).broadcasts = st.broadcasts ++ l ∧
      List.Sublist (l.map (fun m => m.progress)) (samples.map (fun s => s.2.Progress)) := by
  induction samples with
  | nil => intro st; exact ⟨[], by simp [runCallback], by simp⟩
  | cons s rest ih =>
    intro st
    obtain ⟨now, progress⟩ := s
    obtain ⟨l, hl, hsub⟩ := ih (progressCallback id st now progress)
    by_cases hc : st.lastProgressTime = 0 ∨ Second ≤ now.Sub st.lastProgressTime ∨
        1 ≤ float64.sub progress.Progress st.lastProgress ∨ 100 ≤ progress.Progress
    · rw [progressCallback_fires id st now progress hc] at hl
      refine ⟨progressMessage id { st.download with
          Progress := progress.Progress, Speed := progress.Speed, ETA := progress.ETA,
          Updated := now } :: l, ?_, ?_⟩
      · show (runCallback id (progressCallback id st now progress) rest).broadcasts = _
        rw [progressCallback_fires id st now progress hc, hl]
        simp
      · simpa [progressMessage] using hsub.cons₂ progress.Progress
    · rw [progressCallback_skips id st now progress hc] at hl
      refine ⟨l, ?_, ?_⟩
      · show (runCallback id (progressCallback id st now progress) rest).broadcasts = _
        rw [progressCallback_skips id st now progress hc, hl]
      · simpa using hsub.cons progress.Progress

theorem progressCallback_chain (id : String) (st : CallbackState) (now : Time)
    (progress : DownloadResponse)
    (hinv : (st.lastProgressTime = 0 ∧ st.broadcasts = []) ∨ CallbackSynced st)
    (hch : List.Chain' DropAllowed st.broadcasts) :
    List.Chain' DropAllowed (progressCallback id st now progress).broadcasts := by
  by_cases hc : st.lastProgressTime = 0 ∨ Second ≤ now.Sub st.lastProgressTime ∨
      1 ≤ float64.sub progress.Progress st.lastProgress ∨ 100 ≤ progress.Progress
  · rw [progressCallback_fires id st now progress hc]
    rw [List.chain'_append]
    refine ⟨hch, List.chain'_singleton _, ?_⟩
    intro x hx y hy
    rcases hinv with ⟨_, hnil⟩ | ⟨hnz, m, hm, hmt, hmp⟩
    · rw [hnil] at hx; simp at hx
    · have hxm : x = m := by
        rw [hm] at hx
        exact (Option.some.inj hx).symm
      subst hxm
      have hy' : y = progressMessage id { st.download with
          Progress := progress.Progress, Speed := progress.Speed, ETA := progress.ETA,
          Updated := now } := by
        simpa using hy.symm
      subst hy'
      intro hlt
      simp only [progressMessage] at hlt ⊢
      rcases hc with hc | hc | hc | hc
      · exact absurd hc hnz
      · exact Or.inl (by rw [hmt]; exact hc)
      · rw [hmp] at hlt
        have := float64.round_nonpos (progress.Progress - st.lastProgress) (by linarith)
        unfold float64.sub at hc
        linarith
      · exact Or.inr hc
  · rw [progressCallback_skips id st now progress hc]
    exact hch

theorem runCallback_chain (id : String) (samples : List (Time × DownloadResponse)) :
    ∀ st : CallbackState, (∀ s ∈ samples, s.1 ≠ 0) →
      ((st.lastProgressTime = 0 ∧ st.broadcasts = []) ∨ CallbackSynced st) →
      List.Chain' DropAllowed st.broadcasts →
      List.Chain' DropAllowed (runCallback id st samples).broadcasts := by
  induction samples with
  | nil => intro st _ _ h; exact h
  | cons s rest ih =>
    intro st hs hinv hch
    obtain ⟨now, progress⟩ := s
    refine ih _ (fun x hx => hs x (List.mem_cons_of_mem _ hx)) (Or.inr ?_)
      (progressCallback_chain id st now progress hinv hch)
    exact progressCallback_synced id st now progress (hs _ (List.mem_cons_self _ _))
      (hinv.imp (fun h => h.1) (fun h => h))

/-- C3, as stated, fails: the lines `50.0%` and, two seconds later, `10.0%`
(the second stream of a two-stream transfer) are both written and broadcast,
so the broadcast percentages 50, 10 are not non-decreasing. -/
theorem progress_not_monotone :
    (∀ l ∈ twoStreamLines, strings.Contains l.2 "%" = true) ∧
    (runCallback "t1" (newCallback {}) (samplesOfLines twoStreamLines)).broadcasts.map
      (fun m => m.progress) = [50, 10] ∧
    ¬ List.Pairwise (fun a b : Rat => a ≤ b)
      ((runCallback "t1" (newCallback {}) (samplesOfLines twoStreamLines)).broadcasts.map
        (fun m => m.progress)) := by
  decide!

/-- C3 (amended): the percentages the callback writes and broadcasts are, in
order, a subsequence of the delivered percentages, so they are non-decreasing
whenever the delivered percentages are; and a broadcast reports less than the
broadcast before it only if it came at least one second later or reports at
least 100. -/
theorem progress_broadcasts_ordered (id : String) (download : DownloadResponse)
    (samples : List (Time × DownloadResponse)) (hclock : ∀ s ∈ samples, s.1 ≠ 0) :
    let sent := (runCallback id (newCallback download) samples).broadcasts
    List.Sublist (sent.map (fun m => m.progress)) (samples.map (fun s => s.2.Progress)) ∧
    (List.Pairwise (fun a b : Rat => a ≤ b) (samples.map (fun s => s.2.Progress)) →
      List.Pairwise (fun a b : Rat => a ≤ b) (sent.map (fun m => m.progress))) ∧
    List.Chain' DropAllowed sent := by
  intro sent
  obtain ⟨l, hl, hsub⟩ := runCallback_sublist id samples (newCallback download)
  have hsent : sent = l := by
    simp only [sent, hl, newCallback, List.nil_append]
  refine ⟨?_, ?_, ?_⟩
  · rw [hsent]; exact hsub
  · rw [hsent]; exact fun h => h.sublist hsub
  · exact runCallback_chain id samples _ hclock (Or.inl ⟨rfl, rfl⟩) List.chain'_nil

/-- Witness of C3 (amended), on the two-stream lines. -/
theorem progress_broadcasts_ordered_witness :
    (∀ s ∈ samplesOfLines twoStreamLines, s.1 ≠ 0) ∧
    List.Chain' DropAllowed
      (runCallback "t1" (newCallback {}) (samplesOfLines twoStreamLines)).broadcasts :=
  ⟨by decide,
   (progress_broadcasts_ordered "t1" {} (samplesOfLines twoStreamLines) (by decide)).2.2⟩
/-! ## Paths -/

namespace filepath

theorem splitSlash_ne_nil (s : List Char) : splitSlash s ≠ [] := by
  cases s with
  | nil => simp [splitSlash]
  | cons c s =>
    unfold splitSlash
    split
    · simp
    · split <;> simp

theorem splitSlash_append (a b : List Char) :
    splitSlash (a ++ '/' :: b) = splitSlash a ++ splitSlash b := by
  induction a with
  | nil => simp [splitSlash]
  | cons c a ih =>
    by_cases hc : c = '/'
    · simp [splitSlash, hc, ih]
    · cases h : splitSlash a with
      | nil => exact absurd h (splitSlash_ne_nil a)
      | cons x t =>
        show splitSlash (c :: (a ++ '/' :: b)) = splitSlash (c :: a) ++ splitSlash b
        simp only [splitSlash, hc, if_false]
        rw [ih, h]
        rfl

theorem splitSlash_plain (n : List Char) (h : '/' ∉ n) : splitSlash n = [n] := by
  induction n with
  | nil => rfl
  | cons c n ih =>
    have hc : c ≠ '/' := fun e => h (by simp [e])
    have hn : '/' ∉ n := fun e => h (List.mem_cons_of_mem _ e)
    simp [splitSlash, hc, ih hn]

theorem cleanComps_append (r : Bool) (cs ds : List (List Char)) :
    ∀ st, cleanComps r st (cs ++ ds) = cleanComps r (cleanComps r st cs) ds := by
  induction cs with
  | nil => intro st; rfl
  | cons c cs ih =>
    intro st
    simp only [List.cons_append, cleanComps]
    split
    · exact ih _
    · split
      · split
        · split
          · exact ih _
          · exact ih _
        · split
          · exact ih _
          · exact ih _
      · exact ih _

theorem cleanComps_push (r : Bool) (st : List (List Char)) (n : List Char)
    (h1 : n ≠ []) (h2 : n ≠ ['.']) (h3 : n ≠ ['.', '.']) :
    cleanComps r st [n] = n :: st := by
  simp [cleanComps, h1, h2, h3]

theorem joinSlash_concat (xs : List (List Char)) (n : List Char) :
    joinSlash (xs ++ [n]) = if xs = [] then n else joinSlash xs ++ '/' :: n := by
  induction xs with
  | nil => simp [joinSlash]
  | cons x xs ih =>
    cases xs with
    | nil => simp [joinSlash]
    | cons y ys =>
      have ih1 : joinSlash (y :: (ys ++ [n])) = joinSlash (y :: ys) ++ '/' :: n := by
        simpa using ih
      have e1 : joinSlash (x :: y :: (ys ++ [n])) = x ++ '/' :: joinSlash (y :: (ys ++ [n])) :=
        rfl
      have e2 : joinSlash (x :: y :: ys) = x ++ '/' :: joinSlash (y :: ys) := rfl
      show joinSlash (x :: y :: (ys ++ [n])) = _
      rw [e1, ih1, if_neg (by simp), e2]
      simp

/-- A cleaned path that ends in a pushed component `n` is `n` itself or ends
in `/n`. -/
theorem render_push (r : Bool) (st : List (List Char)) (n : List Char) :
    render r (n :: st) = n ∨ ∃ X, render r (n :: st) = X ++ '/' :: n := by
  unfold render
  simp only [List.reverse_cons, joinSlash_concat]
  by_cases hr : r = true
  · right
    simp only [hr, if_true]
    by_cases hs : st.reverse = []
    · exact ⟨[], by simp [hs]⟩
    · exact ⟨'/' :: joinSlash st.reverse, by simp [hs]⟩
  · simp only [hr]
    by_cases hs : st.reverse = []
    · left; simp [hs]
    · right; exact ⟨joinSlash st.reverse, by simp [hs]⟩

theorem cleanChars_append_name (d n : List Char) (hn0 : n ≠ []) (hn1 : '/' ∉ n)
    (hn2 : n ≠ ['.']) (hn3 : n ≠ ['.', '.']) :
    cleanChars (d ++ '/' :: n) = n ∨ ∃ X, cleanChars (d ++ '/' :: n) = X ++ '/' :: n := by
  unfold cleanChars
  rw [if_neg (by simp)]
  rw [splitSlash_append, splitSlash_plain n hn1, cleanComps_append,
    cleanComps_push _ _ n hn0 hn2 hn3]
  exact render_push _ _ n

theorem cleanChars_name (n : List Char) (hn0 : n ≠ []) (hn1 : '/' ∉ n)
    (hn2 : n ≠ ['.']) (hn3 : n ≠ ['.', '.']) :
    cleanChars n = n ∨ ∃ X, cleanChars n = X ++ '/' :: n := by
  unfold cleanChars
  rw [if_neg hn0, splitSlash_plain n hn1]
  have : cleanComps (decide (n.head? = some '/')) [] [n] = [n] :=
    cleanComps_push _ _ n hn0 hn2 hn3
  rw [this]
  exact render_push _ _ n

theorem Join_name (dir name : String) (h : ValidName name) :
    (Join dir name).data = name.data ∨ ∃ X, (Join dir name).data = X ++ '/' :: name.data := by
  obtain ⟨h0, h1, h2, h3⟩ := h
  unfold Join
  by_cases hd : dir = ""
  · have hb : name ≠ "" := fun e => h0 (by rw [e])
    simp only [hd, ne_eq, not_true_eq_false, if_false, hb, not_false_eq_true, if_true, Clean]
    exact cleanChars_name _ h0 h1 h2 h3
  · simp only [ne_eq, hd, not_false_eq_true, if_true, Clean]
    exact cleanChars_append_name _ _ h0 h1 h2 h3

theorem takeWhile_append_stop {α : Type} (p : α → Bool) (l r : List α) (x : α)
    (hl : ∀ a ∈ l, p a = true) (hx : p x = false) :
    (l ++ x :: r).takeWhile p = l := by
  induction l with
  | nil => simp [List.takeWhile, hx]
  | cons a l ih =>
    have ha : p a = true := hl a (List.mem_cons_self _ _)
    rw [List.cons_append, List.takeWhile_cons, if_pos ha,
      ih (fun b hb => hl b (List.mem_cons_of_mem _ hb))]

theorem takeWhile_all {α : Type} (p : α → Bool) (l : List α)
    (hl : ∀ a ∈ l, p a = true) : l.takeWhile p = l := by
  induction l with
  | nil => rfl
  | cons a l ih =>
    have ha : p a = true := hl a (List.mem_cons_self _ _)
    rw [List.takeWhile_cons, if_pos ha, ih (fun b hb => hl b (List.mem_cons_of_mem _ hb))]

theorem dropWhile_head_stop {α : Type} (p : α → Bool) (l : List α) (x : α)
    (hx : p x = false) : (x :: l).dropWhile p = x :: l := by
  simp [List.dropWhile, hx]

theorem baseChars_of_reverse (p : List Char) (c : Char) (m : List Char)
    (hp : p.reverse = c :: m) (hc : (c == '/') = false) :
    baseChars p = (p.reverse.takeWhile (fun c => c != '/')).reverse := by
  have hp0 : p ≠ [] := by
    intro e
    rw [e] at hp
    exact List.noConfusion hp
  have hd : p.reverse.dropWhile (fun c => c == '/') = p.reverse := by
    rw [hp]
    exact dropWhile_head_stop _ _ _ hc
  unfold baseChars
  simp only [hd, List.reverse_reverse, if_neg hp0]

theorem baseChars_tail (X n : List Char) (hn0 : n ≠ []) (hn1 : '/' ∉ n) :
    baseChars (X ++ '/' :: n) = n ∧ baseChars n = n := by
  have hrev : ∀ a ∈ n.reverse, (a != '/') = true := by
    intro a ha
    have : a ∈ n := List.mem_reverse.mp ha
    simp only [bne_iff_ne, ne_eq]
    intro e
    exact hn1 (e ▸ this)
  obtain ⟨c, m, hcm⟩ : ∃ c m, n.reverse = c :: m := by
    cases h : n.reverse with
    | nil => exact absurd (List.reverse_eq_nil_iff.mp h) hn0
    | cons c m => exact ⟨c, m, rfl⟩
  have hc : (c == '/') = false := by
    have := hrev c (by rw [hcm]; exact List.mem_cons_self _ _)
    simpa using this
  constructor
  · have h1 : (X ++ '/' :: n).reverse = c :: (m ++ '/' :: X.reverse) := by
      simp [hcm]
    have h2 : (X ++ '/' :: n).reverse = n.reverse ++ '/' :: X.reverse := by simp
    rw [baseChars_of_reverse _ c _ h1 hc, h2,
      takeWhile_append_stop _ _ _ _ hrev (by simp), List.reverse_reverse]
  · rw [baseChars_of_reverse _ c _ hcm hc, takeWhile_all _ _ hrev, List.reverse_reverse]

/-- The base name of `Join dir name` is `name`, and the joined path is not
empty. -/
theorem Base_Join (dir name : String) (h : ValidName name) :
    Base (Join dir name) = name ∧ Join dir name ≠ "" := by
  have hj := Join_name dir name h
  obtain ⟨h0, h1, _, _⟩ := h
  have hb := baseChars_tail
  constructor
  · unfold Base
    rcases hj with hj | ⟨X, hj⟩
    · rw [hj, (hb [] _ h0 h1).2]
    · rw [hj, (hb X _ h0 h1).1]
  · intro e
    rcases hj with hj | ⟨X, hj⟩
    · rw [e] at hj; exact h0 hj.symm
    · rw [e] at hj; simp at hj

end filepath

/-! ## Strings -/

theorem Chars.startsWith_iff (s p : List Char) :
    Chars.startsWith s p = true ↔ ∃ r, s = p ++ r := by
  induction p generalizing s with
  | nil => simp [Chars.startsWith]
  | cons d p ih =>
    cases s with
    | nil => simp [Chars.startsWith]
    | cons c s =>
      simp only [Chars.startsWith, Bool.and_eq_true, beq_iff_eq, ih, List.cons_append,
        List.cons.injEq]
      constructor
      · rintro ⟨rfl, r, rfl⟩; exact ⟨r, rfl, rfl⟩
      · rintro ⟨r, rfl, rfl⟩; exact ⟨rfl, r, rfl⟩

theorem strings.HasPrefix_iff (s p : String) :
    strings.HasPrefix s p = true ↔ ∃ r, s.data = p.data ++ r :=
  Chars.startsWith_iff _ _

theorem strings.HasPrefix_append (p r : String) : strings.HasPrefix (p ++ r) p = true :=
  (strings.HasPrefix_iff _ _).2 ⟨r.data, by simp⟩

/-- A name that starts with `<taskID>_` in a listing without slashes, and is
not hidden, is a valid entry name; the task ID has no slash either. -/
theorem TaskFile.valid {taskID : String} {e : DirEntry} (h : TaskFile taskID e)
    (hs : '/' ∉ e.Name.data) : ValidName e.Name ∧ '/' ∉ taskID.data := by
  obtain ⟨_, hhid, hpre⟩ := h
  obtain ⟨r, hr⟩ := (strings.HasPrefix_iff _ _).1 hpre
  have hdata : e.Name.data = taskID.data ++ '_' :: r := by
    rw [hr]; simp
  refine ⟨⟨?_, hs, ?_, ?_⟩, ?_⟩
  · rw [hdata]; simp
  · intro e1
    have : strings.HasPrefix e.Name "." = true :=
      (strings.HasPrefix_iff _ _).2 ⟨[], by rw [e1]; rfl⟩
    rw [this] at hhid
    exact Bool.noConfusion hhid
  · intro e1
    have : strings.HasPrefix e.Name "." = true :=
      (strings.HasPrefix_iff _ _).2 ⟨['.'], by rw [e1]; rfl⟩
    rw [this] at hhid
    exact Bool.noConfusion hhid
  · intro hin
    apply hs
    rw [hdata]
    exact List.mem_append_left _ hin

/-- None of the noise names is a non-hidden name starting with `<taskID>_`. -/
theorem TaskFile.not_system {taskID : String} {e : DirEntry} (h : TaskFile taskID e) :
    systemFiles e.Name = false := by
  obtain ⟨_, hhid, hpre⟩ := h
  obtain ⟨r, hr⟩ := (strings.HasPrefix_iff _ _).1 hpre
  have hdata : e.Name.data = taskID.data ++ '_' :: r := by
    rw [hr]; simp
  by_contra hsys
  simp only [systemFiles, Bool.or_eq_false_iff, beq_eq_false_iff_ne, ne_eq, not_and,
    Decidable.not_not] at hsys
  by_cases h1 : e.Name = ".DS_Store"
  · rw [h1] at hhid; exact absurd hhid (by decide)
  · by_cases h2 : e.Name = "Thumbs.db"
    · have : '_' ∈ e.Name.data := by rw [hdata]; simp
      rw [h2] at this
      exact absurd this (by decide)
    · have h3 := hsys ⟨h1, h2⟩
      rw [h3] at hhid; exact absurd hhid (by decide)

/-! ## The scan of `findActualFile` -/

/-- A fold in which every element satisfying `q` overwrites a field with `g`
of itself: afterwards the field is that of the last such element. -/
theorem foldl_last_wins {σ α β : Type} (f : σ → α → σ) (proj : σ → β) (q : α → Prop)
    [DecidablePred q] (g : α → β)
    (h : ∀ st e, proj (f st e) = if q e then g e else proj st) (files : List α) :
    ∀ st, ((∀ e ∈ files, ¬ q e) → proj (files.foldl f st) = proj st) ∧
      ((∃ e ∈ files, q e) → ∃ e ∈ files, q e ∧ proj (files.foldl f st) = g e) := by
  induction files with
  | nil => intro st; simp
  | cons a rest ih =>
    intro st
    rw [List.foldl_cons]
    constructor
    · intro hall
      rw [(ih (f st a)).1 (fun e he => hall e (List.mem_cons_of_mem _ he)), h,
        if_neg (hall a (List.mem_cons_self _ _))]
    · rintro ⟨e, he, hq⟩
      by_cases hrest : ∃ e ∈ rest, q e
      · obtain ⟨e1, he1, hq1, hv⟩ := (ih (f st a)).2 hrest
        exact ⟨e1, List.mem_cons_of_mem _ he1, hq1, hv⟩
      · have hall : ∀ e ∈ rest, ¬ q e := fun e1 he1 hq1 => hrest ⟨e1, he1, hq1⟩
        have hqa : q a := by
          rcases List.mem_cons.1 he with rfl | he1
          · exact hq
          · exact absurd hq (hall e he1)
        refine ⟨a, List.mem_cons_self _ _, hqa, ?_⟩
        rw [(ih (f st a)).1 hall, h, if_pos hqa]

theorem scanStep_other (dir taskID : String) (st : Scan) (e : DirEntry)
    (h : ¬ TaskFile taskID e) : scanStep dir taskID st e = st := by
  unfold TaskFile at h
  unfold scanStep
  by_cases hd : e.IsDir = true
  · simp [hd]
  · by_cases hs : systemFiles e.Name = true
    · simp [hd, hs]
    · by_cases hh : strings.HasPrefix e.Name "." = true
      · simp [hd, hs, hh]
      · have hp : strings.HasPrefix e.Name (taskID ++ "_") = false := by
          by_contra hp
          exact h ⟨by simpa using hd, by simpa using hh, by simpa using hp⟩
        simp [hd, hs, hh, hp]

theorem scanStep_task (dir taskID : String) (st : Scan) (e : DirEntry)
    (h : TaskFile taskID e) :
    scanStep dir taskID st e =
      { matchedFiles := st.matchedFiles ++ [filepath.Join dir e.Name],
        videoFile := if VideoCandidate taskID e then filepath.Join dir e.Name else st.videoFile,
        audioFile := if AudioCandidate taskID e then filepath.Join dir e.Name else st.audioFile,
        mergedFile :=
          if MergedCandidate taskID e then filepath.Join dir e.Name else st.mergedFile } := by
  have hsys := h.not_system
  have h' := h
  obtain ⟨hd, hh, hp⟩ := h'
  unfold scanStep
  simp only [hd, hsys, hh, hp, VideoCandidate, AudioCandidate, MergedCandidate, h, true_and,
    Bool.not_false, if_true, Bool.false_eq_true, if_false, Bool.or_eq_true]
  by_cases h1 : strings.HasSuffix e.Name ".mp4" = true <;>
  by_cases h2 : strings.Contains e.Name ".f" = true <;>
  by_cases h3 : (strings.HasSuffix e.Name ".m4a" = true ∨
      strings.HasSuffix e.Name ".aac" = true) ∨ strings.HasSuffix e.Name ".mp3" = true <;>
  simp_all [or_assoc]

theorem scanStep_mergedFile (dir taskID : String) (st : Scan) (e : DirEntry) :
    (scanStep dir taskID st e).mergedFile =
      if MergedCandidate taskID e then filepath.Join dir e.Name else st.mergedFile := by
  by_cases h : TaskFile taskID e
  · rw [scanStep_task dir taskID st e h]
  · rw [scanStep_other dir taskID st e h, if_neg (fun hm => h hm.1)]

theorem scanStep_videoFile (dir taskID : String) (st : Scan) (e : DirEntry) :
    (scanStep dir taskID st e).videoFile =
      if VideoCandidate taskID e then filepath.Join dir e.Name else st.videoFile := by
  by_cases h : TaskFile taskID e
  · rw [scanStep_task dir taskID st e h]
  · rw [scanStep_other dir taskID st e h, if_neg (fun hm => h hm.1)]

theorem scanStep_audioFile (dir taskID : String) (st : Scan) (e : DirEntry) :
    (scanStep dir taskID st e).audioFile =
      if AudioCandidate taskID e then filepath.Join dir e.Name else st.audioFile := by
  by_cases h : TaskFile taskID e
  · rw [scanStep_task dir taskID st e h]
  · rw [scanStep_other dir taskID st e h, if_neg (fun hm => h hm.1)]

theorem scan_matchedFiles (dir taskID : String) (files : List DirEntry) :
    ∀ st : Scan, ∃ l, (files.foldl (scanStep dir taskID) st).matchedFiles = st.matchedFiles ++ l ∧
      (∀ p ∈ l, ∃ e ∈ files, TaskFile taskID e ∧ p = filepath.Join dir e.Name) ∧
      ((∃ e ∈ files, TaskFile taskID e) → l ≠ []) := by
  induction files with
  | nil => intro st; exact ⟨[], by simp, by simp, by simp⟩
  | cons a rest ih =>
    intro st
    rw [List.foldl_cons]
    obtain ⟨l, hl, hmem, hne⟩ := ih (scanStep dir taskID st a)
    by_cases h : TaskFile taskID a
    · refine ⟨filepath.Join dir a.Name :: l, ?_, ?_, fun _ => by simp⟩
      · rw [hl, scanStep_task dir taskID st a h]; simp
      · intro p hp
        rcases List.mem_cons.1 hp with rfl | hp
        · exact ⟨a, List.mem_cons_self _ _, h, rfl⟩
        · obtain ⟨e, he, hte, hpe⟩ := hmem p hp
          exact ⟨e, List.mem_cons_of_mem _ he, hte, hpe⟩
    · refine ⟨l, ?_, ?_, ?_⟩
      · rw [hl, scanStep_other dir taskID st a h]
      · intro p hp
        obtain ⟨e, he, hte, hpe⟩ := hmem p hp
        exact ⟨e, List.mem_cons_of_mem _ he, hte, hpe⟩
      · rintro ⟨e, he, hte⟩
        rcases List.mem_cons.1 he with rfl | he
        · exact absurd hte h
        · exact hne ⟨e, he, hte⟩

theorem filepath.cleanComps_nonempty (r : Bool) (cs : List (List Char)) :
    ∀ st : List (List Char), (∀ c ∈ st, c ≠ []) → ∀ c ∈ filepath.cleanComps r st cs, c ≠ [] := by
  induction cs with
  | nil => intro st h; exact h
  | cons a cs ih =>
    intro st h
    unfold filepath.cleanComps
    split
    · exact ih _ h
    · rename_i ha
      have ha0 : a ≠ [] := fun e => ha (Or.inl e)
      have hpush : ∀ c ∈ a :: st, c ≠ [] := by
        intro c hc
        rcases List.mem_cons.1 hc with rfl | hc
        · exact ha0
        · exact h c hc
      split
      · split
        · rename_i top below
          split
          · exact ih _ hpush
          · exact ih _ (fun c hc => h c (List.mem_cons_of_mem _ hc))
        · split
          · exact ih _ h
          · exact ih _ (by intro c hc; rcases List.mem_singleton.1 hc with rfl; exact ha0)
      · exact ih _ hpush

theorem filepath.joinSlash_ne_nil (xs : List (List Char)) (hne : xs ≠ [])
    (h : ∀ c ∈ xs, c ≠ []) : filepath.joinSlash xs ≠ [] := by
  cases xs with
  | nil => exact absurd rfl hne
  | cons c rest =>
    cases rest with
    | nil => simpa [filepath.joinSlash] using h c (List.mem_cons_self _ _)
    | cons d rest => simp [filepath.joinSlash]

theorem filepath.cleanChars_ne_nil (p : List Char) : filepath.cleanChars p ≠ [] := by
  unfold filepath.cleanChars
  split
  · simp
  · unfold filepath.render
    split
    · simp
    · split
      · simp
      · rename_i hst
        apply filepath.joinSlash_ne_nil
        · simpa using hst
        · intro c hc
          exact filepath.cleanComps_nonempty _ _ [] (by simp) c (List.mem_reverse.1 hc)

/-- Joining a non-empty name to a directory never gives the empty path. -/
theorem filepath.Join_ne_empty (dir name : String) (h : name ≠ "") :
    filepath.Join dir name ≠ "" := by
  unfold filepath.Join
  split
  · intro e
    have := congrArg String.data e
    exact filepath.cleanChars_ne_nil _ this
  · intro e
    have := congrArg String.data e
    exact filepath.cleanChars_ne_nil _ this

theorem TaskFile.name_ne_empty {taskID : String} {e : DirEntry} (h : TaskFile taskID e) :
    e.Name ≠ "" := by
  obtain ⟨r, hr⟩ := (strings.HasPrefix_iff _ _).1 h.2.2
  intro e1
  rw [e1] at hr
  simp at hr

theorem scan_mergedFile (dir taskID : String) (files : List DirEntry) :
    ((∀ e ∈ files, ¬ MergedCandidate taskID e) → (scanFiles dir taskID files).mergedFile = "") ∧
    ((∃ e ∈ files, MergedCandidate taskID e) → ∃ e ∈ files, MergedCandidate taskID e ∧
      (scanFiles dir taskID files).mergedFile = filepath.Join dir e.Name) :=
  foldl_last_wins (scanStep dir taskID) (fun st => st.mergedFile) (MergedCandidate taskID)
    (fun e => filepath.Join dir e.Name) (scanStep_mergedFile dir taskID) files {}

theorem scan_videoFile (dir taskID : String) (files : List DirEntry) :
    ((∀ e ∈ files, ¬ VideoCandidate taskID e) → (scanFiles dir taskID files).videoFile = "") ∧
    ((∃ e ∈ files, VideoCandidate taskID e) → ∃ e ∈ files, VideoCandidate taskID e ∧
      (scanFiles dir taskID files).videoFile = filepath.Join dir e.Name) :=
  foldl_last_wins (scanStep dir taskID) (fun st => st.videoFile) (VideoCandidate taskID)
    (fun e => filepath.Join dir e.Name) (scanStep_videoFile dir taskID) files {}

theorem scan_audioFile (dir taskID : String) (files : List DirEntry) :
    ((∀ e ∈ files, ¬ AudioCandidate taskID e) → (scanFiles dir taskID files).audioFile = "") ∧
    ((∃ e ∈ files, AudioCandidate taskID e) → ∃ e ∈ files, AudioCandidate taskID e ∧
      (scanFiles dir taskID files).audioFile = filepath.Join dir e.Name) :=
  foldl_last_wins (scanStep dir taskID) (fun st => st.audioFile) (AudioCandidate taskID)
    (fun e => filepath.Join dir e.Name) (scanStep_audioFile dir taskID) files {}

theorem scan_mergedFile_origin (dir taskID : String) (files : List DirEntry)
    (h : (scanFiles dir taskID files).mergedFile ≠ "") :
    ∃ e ∈ files, MergedCandidate taskID e ∧
      (scanFiles dir taskID files).mergedFile = filepath.Join dir e.Name := by
  apply (scan_mergedFile dir taskID files).2
  by_contra hno
  exact h ((scan_mergedFile dir taskID files).1 (fun e he hm => hno ⟨e, he, hm⟩))

theorem scan_videoFile_origin (dir taskID : String) (files : List DirEntry)
    (h : (scanFiles dir taskID files).videoFile ≠ "") :
    ∃ e ∈ files, VideoCandidate taskID e ∧
      (scanFiles dir taskID files).videoFile = filepath.Join dir e.Name := by
  apply (scan_videoFile dir taskID files).2
  by_contra hno
  exact h ((scan_videoFile dir taskID files).1 (fun e he hm => hno ⟨e, he, hm⟩))

theorem scan_audioFile_origin (dir taskID : String) (files : List DirEntry)
    (h : (scanFiles dir taskID files).audioFile ≠ "") :
    ∃ e ∈ files, AudioCandidate taskID e ∧
      (scanFiles dir taskID files).audioFile = filepath.Join dir e.Name := by
  apply (scan_audioFile dir taskID files).2
  by_contra hno
  exact h ((scan_audioFile dir taskID files).1 (fun e he hm => hno ⟨e, he, hm⟩))

/-- With a task ID in the template and a readable directory, `findActualFile`
is the priority chain over the scan. -/
theorem findActualFile_scan (dir template : String) (sys : System) (files : List DirEntry)
    (hread : sys.ReadDir = Except.ok files) (hne : templateTaskID template ≠ "") :
    findActualFile dir sys template =
      (let taskID := templateTaskID template
       let st := scanFiles dir taskID files
       if st.mergedFile ≠ "" then { result := Except.ok st.mergedFile }
       else if st.videoFile ≠ "" ∧ st.audioFile ≠ "" then
         if !sys.LookPathFfmpeg then { result := Except.ok st.videoFile }
         else
           if sys.Run (remuxArgs st.videoFile st.audioFile
               (filepath.Join dir (taskID ++ "_merged.mp4"))) then
             { result := Except.ok (filepath.Join dir (taskID ++ "_merged.mp4")),
               commands := [remuxArgs st.videoFile st.audioFile
                 (filepath.Join dir (taskID ++ "_merged.mp4"))] }
           else { result := Except.ok st.videoFile,
                  commands := [remuxArgs st.videoFile st.audioFile
                    (filepath.Join dir (taskID ++ "_merged.mp4"))] }
       else if st.videoFile ≠ "" then { result := Except.ok st.videoFile }
       else if st.audioFile ≠ "" then { result := Except.ok st.audioFile }
       else
         match st.matchedFiles with
         | first :: _ => { result := Except.ok first }
         | [] => { result := findLatestFile dir sys }) := by
  unfold findActualFile
  simp only [hne, if_false, hread]

theorem mergedName_valid (taskID : String) (h : '/' ∉ taskID.data) :
    ValidName (taskID ++ "_merged.mp4") ∧
      strings.HasPrefix (taskID ++ "_merged.mp4") (taskID ++ "_") = true := by
  have hd : (taskID ++ "_merged.mp4").data = taskID.data ++ "_merged.mp4".data := by simp
  refine ⟨⟨?_, ?_, ?_, ?_⟩, ?_⟩
  · rw [hd]; simp
  · rw [hd]
    intro hin
    rcases List.mem_append.1 hin with h1 | h1
    · exact h h1
    · exact absurd h1 (by decide)
  · intro e
    have := congrArg List.length e
    rw [hd] at this
    simp at this
  · intro e
    have := congrArg List.length e
    rw [hd] at this
    simp at this
  · apply (strings.HasPrefix_iff _ _).2
    refine ⟨"merged.mp4".data, ?_⟩
    rw [hd]
    simp

/-- The path of a task file has a base name with the task prefix. -/
theorem TaskFile.base {taskID : String} {e : DirEntry} (h : TaskFile taskID e)
    (hs : '/' ∉ e.Name.data) (dir : String) :
    strings.HasPrefix (filepath.Base (filepath.Join dir e.Name)) (taskID ++ "_") = true := by
  rw [(filepath.Base_Join dir e.Name (h.valid hs).1).1]
  exact h.2.2

/-- C4: when the listing holds a non-directory, non-hidden entry whose name
starts with `<taskID>_` and the template's base name is `<taskID>_...` (the
task ID being the text before the first `_`, not empty), `findActualFile`
returns without error a path whose base name starts with `<taskID>_`: the path
of such an entry, or the merged output `<taskID>_merged.mp4`. -/
theorem findActualFile_returns_task_file (dir template taskID : String) (sys : System)
    (files : List DirEntry) (hread : sys.ReadDir = Except.ok files)
    (hid : templateTaskID template = taskID) (hne : taskID ≠ "")
    (hnames : ∀ e ∈ files, '/' ∉ e.Name.data)
    (hex : ∃ e ∈ files, e.IsDir = false ∧ strings.HasPrefix e.Name "." = false ∧
      strings.HasPrefix e.Name (taskID ++ "_") = true) :
    ∃ path, (findActualFile dir sys template).result = Except.ok path ∧
      strings.HasPrefix (filepath.Base path) (taskID ++ "_") = true ∧
      ((∃ e ∈ files, e.IsDir = false ∧ strings.HasPrefix e.Name "." = false ∧
          strings.HasPrefix e.Name (taskID ++ "_") = true ∧ path = filepath.Join dir e.Name) ∨
        path = filepath.Join dir (taskID ++ "_merged.mp4")) := by
  subst hid
  have hex' : ∃ e ∈ files, TaskFile (templateTaskID template) e := hex
  have fromEntry : ∀ e ∈ files, TaskFile (templateTaskID template) e →
      strings.HasPrefix (filepath.Base (filepath.Join dir e.Name))
          (templateTaskID template ++ "_") = true ∧
        ((∃ e1 ∈ files, e1.IsDir = false ∧ strings.HasPrefix e1.Name "." = false ∧
            strings.HasPrefix e1.Name (templateTaskID template ++ "_") = true ∧
            filepath.Join dir e.Name = filepath.Join dir e1.Name) ∨
          filepath.Join dir e.Name =
            filepath.Join dir (templateTaskID template ++ "_merged.mp4")) :=
    fun e he ht => ⟨ht.base (hnames e he) dir, Or.inl ⟨e, he, ht.1, ht.2.1, ht.2.2, rfl⟩⟩
  have hslash : '/' ∉ (templateTaskID template).data := by
    obtain ⟨e, he, ht⟩ := hex'
    exact (ht.valid (hnames e he)).2
  have hmv := mergedName_valid _ hslash
  rw [findActualFile_scan dir template sys files hread hne]
  dsimp only
  split_ifs with h1 h2 h3 h4 h5 h6
  · obtain ⟨e, he, hm, hp⟩ := scan_mergedFile_origin dir _ files h1
    exact ⟨_, rfl, hp ▸ fromEntry e he hm.1⟩
  · obtain ⟨e, he, hm, hp⟩ := scan_videoFile_origin dir _ files h2.1
    exact ⟨_, rfl, hp ▸ fromEntry e he hm.1⟩
  · refine ⟨_, rfl, ?_, Or.inr rfl⟩
    rw [(filepath.Base_Join dir _ hmv.1).1]
    exact hmv.2
  · obtain ⟨e, he, hm, hp⟩ := scan_videoFile_origin dir _ files h2.1
    exact ⟨_, rfl, hp ▸ fromEntry e he hm.1⟩
  · obtain ⟨e, he, hm, hp⟩ := scan_videoFile_origin dir _ files h5
    exact ⟨_, rfl, hp ▸ fromEntry e he hm.1⟩
  · obtain ⟨e, he, hm, hp⟩ := scan_audioFile_origin dir _ files h6
    exact ⟨_, rfl, hp ▸ fromEntry e he hm.1⟩
  · obtain ⟨l, hl, hmem, hnil⟩ := scan_matchedFiles dir (templateTaskID template) files {}
    have hl' : (scanFiles dir (templateTaskID template) files).matchedFiles = l := by
      simpa [scanFiles] using hl
    rw [hl']
    cases l with
    | nil => exact absurd rfl (hnil hex')
    | cons first rest =>
      obtain ⟨e, he, ht, hp⟩ := hmem first (List.mem_cons_self _ _)
      exact ⟨first, rfl, hp ▸ fromEntry e he ht⟩

/-- Witness of C4: with `T1_video.mp4` and `other.mp4` in the directory,
resolving for `T1` returns `T1_video.mp4`. -/
theorem findActualFile_returns_task_file_witness :
    (findActualFile "./downloads" (systemWith resolutionListing 3000 true true)
        t1Template).result.toOption = some "downloads/T1_video.mp4" ∧
    ∃ path, (findActualFile "./downloads" (systemWith resolutionListing 3000 true true)
        t1Template).result = Except.ok path ∧
      strings.HasPrefix (filepath.Base path) ("T1" ++ "_") = true ∧
      ((∃ e ∈ resolutionListing, e.IsDir = false ∧ strings.HasPrefix e.Name "." = false ∧
          strings.HasPrefix e.Name ("T1" ++ "_") = true ∧
          path = filepath.Join "./downloads" e.Name) ∨
        path = filepath.Join "./downloads" ("T1" ++ "_merged.mp4")) :=
  ⟨by decide,
   findActualFile_returns_task_file "./downloads" t1Template "T1"
     (systemWith resolutionListing 3000 true true) resolutionListing rfl (by decide)
     (by decide) (by decide) (by decide)⟩

/-- C5: when the listing holds a merged candidate (a task file ending in `.mp4`
whose name has no `.f`), `findActualFile` returns the path of such an entry
and runs no remux command, whatever other entries are present. -/
theorem findActualFile_merged_wins (dir template taskID : String) (sys : System)
    (files : List DirEntry) (hread : sys.ReadDir = Except.ok files)
    (hid : templateTaskID template = taskID) (hne : taskID ≠ "")
    (hex : ∃ e ∈ files, MergedCandidate taskID e) :
    ∃ e ∈ files, MergedCandidate taskID e ∧
      (findActualFile dir sys template).result = Except.ok (filepath.Join dir e.Name) ∧
      (findActualFile dir sys template).commands = [] := by
  subst hid
  obtain ⟨e, he, hm, hp⟩ := (scan_mergedFile dir _ files).2 hex
  have h1 : (scanFiles dir (templateTaskID template) files).mergedFile ≠ "" := by
    rw [hp]
    exact filepath.Join_ne_empty dir e.Name hm.1.name_ne_empty
  refine ⟨e, he, hm, ?_⟩
  rw [findActualFile_scan dir template sys files hread hne]
  dsimp only
  rw [if_pos h1, hp]
  exact ⟨rfl, rfl⟩

/-- Witness of C5: the merged `T1_video.mp4` wins over the two separate
streams, and nothing is remuxed. -/
theorem findActualFile_merged_wins_witness :
    (findActualFile "./downloads" (systemWith mergedListing 4000 true true)
        t1Template).result.toOption = some "downloads/T1_video.mp4" ∧
    ∃ e ∈ mergedListing, MergedCandidate "T1" e ∧
      (findActualFile "./downloads" (systemWith mergedListing 4000 true true)
        t1Template).result = Except.ok (filepath.Join "./downloads" e.Name) ∧
      (findActualFile "./downloads" (systemWith mergedListing 4000 true true)
        t1Template).commands = [] :=
  ⟨by decide,
   findActualFile_merged_wins "./downloads" t1Template "T1"
     (systemWith mergedListing 4000 true true) mergedListing rfl (by decide) (by decide)
     (by decide)⟩

theorem Chars.startsWith_f_append (a b : List Char) (hb : Chars.startsWith b ['f'] = false) :
    Chars.startsWith (a ++ b) ['f'] = Chars.startsWith a ['f'] := by
  cases a with
  | nil => simpa [Chars.startsWith] using hb
  | cons x a => simp [Chars.startsWith]

/-- Appending text that neither contains `.f` nor starts with `f` does not
create an occurrence of `.f`. -/
theorem Chars.contains_dotf_append (a b : List Char)
    (hb : Chars.contains b ['.', 'f'] = false) (hb1 : Chars.startsWith b ['f'] = false) :
    Chars.contains (a ++ b) ['.', 'f'] = Chars.contains a ['.', 'f'] := by
  induction a with
  | nil =>
    simp only [List.nil_append, hb]
    rfl
  | cons c a ih =>
    show Chars.contains (c :: (a ++ b)) ['.', 'f'] = Chars.contains (c :: a) ['.', 'f']
    simp only [Chars.contains, Chars.startsWith, ih, Chars.startsWith_f_append a b hb1]

theorem mergedName_no_marker (taskID : String)
    (h : strings.Contains taskID ".f" = false) :
    strings.Contains (taskID ++ "_merged.mp4") ".f" = false := by
  unfold strings.Contains at *
  have hd : (taskID ++ "_merged.mp4").data = taskID.data ++ "_merged.mp4".data := by simp
  rw [hd]
  have := Chars.contains_dotf_append taskID.data "_merged.mp4".data (by decide) (by decide)
  exact this.trans h

theorem mergedName_not_audio (taskID : String) :
    strings.HasSuffix (taskID ++ "_merged.mp4") ".m4a" = false ∧
    strings.HasSuffix (taskID ++ "_merged.mp4") ".aac" = false ∧
    strings.HasSuffix (taskID ++ "_merged.mp4") ".mp3" = false := by
  have hd : (taskID ++ "_merged.mp4").data.reverse =
      '4' :: 'p' :: 'm' :: '.' :: ("_merged".data.reverse ++ taskID.data.reverse) := by
    simp
  unfold strings.HasSuffix
  rw [hd]
  refine ⟨?_, ?_, ?_⟩ <;> rfl

/-- C6: with no merged candidate, a separate-video candidate and an audio
candidate, `ffmpeg` on the path and a successful remux run, `findActualFile`
returns `OutputDir/<taskID>_merged.mp4`, the output of the one remux command
it ran on the two partial files; that path is not the path of any audio
candidate, nor (when the task ID itself does not contain `.f`) of any
separate-video candidate. -/
theorem findActualFile_remux_merges (dir template taskID : String) (sys : System)
    (files : List DirEntry) (hread : sys.ReadDir = Except.ok files)
    (hid : templateTaskID template = taskID) (hne : taskID ≠ "")
    (hnames : ∀ e ∈ files, '/' ∉ e.Name.data)
    (hnom : ∀ e ∈ files, ¬ MergedCandidate taskID e)
    (hv : ∃ e ∈ files, VideoCandidate taskID e)
    (ha : ∃ e ∈ files, AudioCandidate taskID e)
    (hff : sys.LookPathFfmpeg = true)
    (hrun : sys.Run (remuxArgs (scanFiles dir taskID files).videoFile
      (scanFiles dir taskID files).audioFile
      (filepath.Join dir (taskID ++ "_merged.mp4"))) = true) :
    (findActualFile dir sys template).result =
      Except.ok (filepath.Join dir (taskID ++ "_merged.mp4")) ∧
    (findActualFile dir sys template).commands =
      [remuxArgs (scanFiles dir taskID files).videoFile (scanFiles dir taskID files).audioFile
        (filepath.Join dir (taskID ++ "_merged.mp4"))] ∧
    (∀ e ∈ files, AudioCandidate taskID e →
      filepath.Join dir e.Name ≠ filepath.Join dir (taskID ++ "_merged.mp4")) ∧
    (strings.Contains taskID ".f" = false → ∀ e ∈ files, VideoCandidate taskID e →
      filepath.Join dir e.Name ≠ filepath.Join dir (taskID ++ "_merged.mp4")) := by
  subst hid
  have h1 : ¬ (scanFiles dir (templateTaskID template) files).mergedFile ≠ "" := by
    rw [(scan_mergedFile dir _ files).1 hnom]
    exact fun h => h rfl
  obtain ⟨ev, hev, hvc, hvp⟩ := (scan_videoFile dir _ files).2 hv
  obtain ⟨ea, hea, hac, hap⟩ := (scan_audioFile dir _ files).2 ha
  have h2 : (scanFiles dir (templateTaskID template) files).videoFile ≠ "" ∧
      (scanFiles dir (templateTaskID template) files).audioFile ≠ "" := by
    rw [hvp, hap]
    exact ⟨filepath.Join_ne_empty dir _ hvc.1.name_ne_empty,
      filepath.Join_ne_empty dir _ hac.1.name_ne_empty⟩
  have hslash : '/' ∉ (templateTaskID template).data := (hvc.1.valid (hnames ev hev)).2
  have hmv := (mergedName_valid _ hslash).1
  have hbase := (filepath.Base_Join dir _ hmv).1
  refine ⟨?_, ?_, ?_, ?_⟩
  · rw [findActualFile_scan dir template sys files hread hne]
    dsimp only
    rw [if_neg h1, if_pos h2, hff, hrun]
    rfl
  · rw [findActualFile_scan dir template sys files hread hne]
    dsimp only
    rw [if_neg h1, if_pos h2, hff, hrun]
    rfl
  · intro e he hae heq
    have hname : e.Name = templateTaskID template ++ "_merged.mp4" := by
      have := congrArg filepath.Base heq
      rwa [(filepath.Base_Join dir _ (hae.1.valid (hnames e he)).1).1, hbase] at this
    have hna := mergedName_not_audio (templateTaskID template)
    have hsuf := hae.2
    rw [hname, hna.1, hna.2.1, hna.2.2] at hsuf
    simp at hsuf
  · intro hnof e he hve heq
    have hname : e.Name = templateTaskID template ++ "_merged.mp4" := by
      have := congrArg filepath.Base heq
      rwa [(filepath.Base_Join dir _ (hve.1.valid (hnames e he)).1).1, hbase] at this
    have hc := hve.2.2
    rw [hname, mergedName_no_marker _ hnof] at hc
    exact Bool.noConfusion hc

/-- Witness of C6: `T1_video.f100.mp4` and `T1_audio.m4a` with a working remux
tool give `T1_merged.mp4`. -/
theorem findActualFile_remux_merges_witness :
    (findActualFile "./downloads" (systemWith splitListing 3000 true true)
        t1Template).result = Except.ok (filepath.Join "./downloads" ("T1" ++ "_merged.mp4")) ∧
    filepath.Join "./downloads" ("T1" ++ "_merged.mp4") = "downloads/T1_merged.mp4" :=
  ⟨(findActualFile_remux_merges "./downloads" t1Template "T1"
      (systemWith splitListing 3000 true true) splitListing rfl (by decide) (by decide)
      (by decide) (by decide) (by decide) (by decide) rfl rfl).1,
   by decide⟩

/-- C7: with no merged candidate, a separate-video candidate and an audio
candidate, when `ffmpeg` is not on the path or the remux run exits with an
error, `findActualFile` returns the video candidate's path and no error. -/
theorem findActualFile_remux_failure (dir template taskID : String) (sys : System)
    (files : List DirEntry) (hread : sys.ReadDir = Except.ok files)
    (hid : templateTaskID template = taskID) (hne : taskID ≠ "")
    (hnom : ∀ e ∈ files, ¬ MergedCandidate taskID e)
    (hv : ∃ e ∈ files, VideoCandidate taskID e)
    (ha : ∃ e ∈ files, AudioCandidate taskID e)
    (hfail : sys.LookPathFfmpeg = false ∨
      sys.Run (remuxArgs (scanFiles dir taskID files).videoFile
        (scanFiles dir taskID files).audioFile
        (filepath.Join dir (taskID ++ "_merged.mp4"))) = false) :
    (findActualFile dir sys template).result =
      Except.ok (scanFiles dir taskID files).videoFile ∧
    ∃ e ∈ files, VideoCandidate taskID e ∧
      (scanFiles dir taskID files).videoFile = filepath.Join dir e.Name := by
  subst hid
  have h1 : ¬ (scanFiles dir (templateTaskID template) files).mergedFile ≠ "" := by
    rw [(scan_mergedFile dir _ files).1 hnom]
    exact fun h => h rfl
  obtain ⟨ev, hev, hvc, hvp⟩ := (scan_videoFile dir _ files).2 hv
  obtain ⟨ea, hea, hac, hap⟩ := (scan_audioFile dir _ files).2 ha
  have h2 : (scanFiles dir (templateTaskID template) files).videoFile ≠ "" ∧
      (scanFiles dir (templateTaskID template) files).audioFile ≠ "" := by
    rw [hvp, hap]
    exact ⟨filepath.Join_ne_empty dir _ hvc.1.name_ne_empty,
      filepath.Join_ne_empty dir _ hac.1.name_ne_empty⟩
  refine ⟨?_, ev, hev, hvc, hvp⟩
  rw [findActualFile_scan dir template sys files hread hne]
  dsimp only
  rw [if_neg h1, if_pos h2]
  by_cases hff : sys.LookPathFfmpeg = true
  · rcases hfail with hf | hf
    · rw [hf] at hff; exact absurd hff (by decide)
    · rw [hff, hf]; rfl
  · have hff' : sys.LookPathFfmpeg = false := by simpa using hff
    rw [hff']
    rfl

/-- Witness of C7: the remux tool is installed but its run fails; the video
stream `T1_video.f100.mp4` is returned. -/
theorem findActualFile_remux_failure_witness :
    (findActualFile "./downloads" (systemWith splitListing 3000 true false)
        t1Template).result =
      Except.ok (scanFiles "./downloads" "T1" splitListing).videoFile ∧
    (scanFiles "./downloads" "T1" splitListing).videoFile = "downloads/T1_video.f100.mp4" :=
  ⟨(findActualFile_remux_failure "./downloads" t1Template "T1"
      (systemWith splitListing 3000 true false) splitListing rfl (by decide) (by decide)
      (by decide) (by decide) (by decide) (Or.inr rfl)).1,
   by decide⟩

/-! ## `findLatestFile` -/

theorem latestStep_keep (st : Latest) (e : DirEntry) (t : Time) (hp : PlainFile e)
    (ht : e.ModTime = some t) (hlt : st.latestTime < t) :
    latestStep st e = { latestFile := some (e.Name, t), latestTime := t } := by
  obtain ⟨hd, hs, hh⟩ := hp
  simp [latestStep, hd, hs, hh, ht, Time.After, hlt]

theorem latestStep_skip (st : Latest) (e : DirEntry)
    (h : ¬ PlainFile e ∨ e.ModTime = none ∨ ∃ t, e.ModTime = some t ∧ t ≤ st.latestTime) :
    latestStep st e = st := by
  unfold latestStep
  by_cases hd : e.IsDir = true
  · simp [hd]
  · by_cases hs : systemFiles e.Name = true
    · simp [hd, hs]
    · by_cases hh : strings.HasPrefix e.Name "." = true
      · simp [hd, hs, hh]
      · have hp : PlainFile e := ⟨by simpa using hd, by simpa using hs, by simpa using hh⟩
        rcases h with h | h | ⟨t, ht, hle⟩
        · exact absurd hp h
        · simp [hd, hs, hh, h]
        · have : ¬ st.latestTime < t := not_lt.mpr hle
          simp [hd, hs, hh, ht, Time.After, this]

theorem latestStep_inv (seen : List DirEntry) (st : Latest) (e : DirEntry)
    (h : LatestInv seen st) : LatestInv (seen ++ [e]) (latestStep st e) := by
  obtain ⟨hfile, hmax⟩ := h
  by_cases hp : PlainFile e
  · cases ht : e.ModTime with
    | none =>
      rw [latestStep_skip st e (Or.inr (Or.inl ht))]
      refine ⟨?_, ?_⟩
      · cases hlf : st.latestFile with
        | none => rw [hlf] at hfile; simpa using hfile
        | some p =>
          obtain ⟨name, t⟩ := p
          rw [hlf] at hfile
          obtain ⟨h1, e1, he1, h2⟩ := hfile
          exact ⟨h1, e1, List.mem_append_left _ he1, h2⟩
      · intro e1 he1 hp1 t1 ht1
        rcases List.mem_append.1 he1 with he1 | he1
        · exact hmax e1 he1 hp1 t1 ht1
        · rw [List.mem_singleton.1 he1, ht] at ht1
          exact Option.noConfusion ht1
    | some t =>
      by_cases hlt : st.latestTime < t
      · rw [latestStep_keep st e t hp ht hlt]
        refine ⟨⟨rfl, e, by simp, hp, ht, rfl⟩, ?_⟩
        intro e1 he1 hp1 t1 ht1
        rcases List.mem_append.1 he1 with he1 | he1
        · exact le_trans (hmax e1 he1 hp1 t1 ht1) (le_of_lt hlt)
        · rw [List.mem_singleton.1 he1, ht] at ht1
          exact le_of_eq (Option.some.inj ht1).symm
      · rw [latestStep_skip st e (Or.inr (Or.inr ⟨t, ht, not_lt.mp hlt⟩))]
        refine ⟨?_, ?_⟩
        · cases hlf : st.latestFile with
          | none => rw [hlf] at hfile; simpa using hfile
          | some p =>
            obtain ⟨name, t0⟩ := p
            rw [hlf] at hfile
            obtain ⟨h1, e1, he1, h2⟩ := hfile
            exact ⟨h1, e1, List.mem_append_left _ he1, h2⟩
        · intro e1 he1 hp1 t1 ht1
          rcases List.mem_append.1 he1 with he1 | he1
          · exact hmax e1 he1 hp1 t1 ht1
          · rw [List.mem_singleton.1 he1, ht] at ht1
            rw [← Option.some.inj ht1]
            exact not_lt.mp hlt
  · rw [latestStep_skip st e (Or.inl hp)]
    refine ⟨?_, ?_⟩
    · cases hlf : st.latestFile with
      | none => rw [hlf] at hfile; simpa using hfile
      | some p =>
        obtain ⟨name, t0⟩ := p
        rw [hlf] at hfile
        obtain ⟨h1, e1, he1, h2⟩ := hfile
        exact ⟨h1, e1, List.mem_append_left _ he1, h2⟩
    · intro e1 he1 hp1 t1 ht1
      rcases List.mem_append.1 he1 with he1 | he1
      · exact hmax e1 he1 hp1 t1 ht1
      · rw [List.mem_singleton.1 he1] at hp1
        exact absurd hp1 hp

theorem latest_fold_inv (files : List DirEntry) :
    ∀ (seen : List DirEntry) (st : Latest), LatestInv seen st →
      LatestInv (seen ++ files) (files.foldl latestStep st) := by
  induction files with
  | nil => intro seen st h; simpa using h
  | cons e rest ih =>
    intro seen st h
    have := ih (seen ++ [e]) (latestStep st e) (latestStep_inv seen st e h)
    simpa using this

/-- What a successful `findLatestFile` returns: the path of a plain file whose
modification time is not more than five minutes before the clock reading and
not earlier than that of any plain file of the listing. -/
theorem findLatestFile_ok (dir : String) (sys : System) (files : List DirEntry)
    (hread : sys.ReadDir = Except.ok files) (path : String)
    (h : findLatestFile dir sys = Except.ok path) :
    ∃ e ∈ files, PlainFile e ∧ ∃ t, e.ModTime = some t ∧ sys.Now - 5 * Minute ≤ t ∧
      path = filepath.Join dir e.Name ∧
      ∀ e1 ∈ files, PlainFile e1 → ∀ t1, e1.ModTime = some t1 → t1 ≤ t := by
  have hinv := latest_fold_inv files [] {} ⟨rfl, by simp⟩
  simp only [List.nil_append] at hinv
  unfold findLatestFile at h
  rw [hread] at h
  dsimp only at h
  cases hlf : (files.foldl latestStep {}).latestFile with
  | none => rw [hlf] at h; exact Except.noConfusion h
  | some p =>
    obtain ⟨name, t⟩ := p
    rw [hlf] at h
    dsimp only at h
    obtain ⟨hfile, hmax⟩ := hinv
    rw [hlf] at hfile
    obtain ⟨ht, e, he, hp, hmt, hname⟩ := hfile
    by_cases hb : Time.Before t (sys.Now + (-5 * Minute)) = true
    · rw [if_pos hb] at h; exact Except.noConfusion h
    · rw [if_neg hb] at h
      have hfresh : sys.Now - 5 * Minute ≤ t := by
        simp only [Time.Before, decide_eq_true_eq, not_lt] at hb
        linarith
      refine ⟨e, he, hp, t, hmt, hfresh, ?_, ?_⟩
      · rw [hname]; exact (Except.ok.inj h).symm
      · intro e1 he1 hp1 t1 ht1
        rw [ht]
        exact hmax e1 he1 hp1 t1 ht1

/-- When every plain file of the listing is more than five minutes old,
`findLatestFile` returns an error. -/
theorem findLatestFile_stale (dir : String) (sys : System) (files : List DirEntry)
    (hread : sys.ReadDir = Except.ok files)
    (hstale : ∀ e ∈ files, PlainFile e → ∀ t, e.ModTime = some t → t < sys.Now - 5 * Minute) :
    ∃ msg, findLatestFile dir sys = Except.error msg := by
  cases hres : findLatestFile dir sys with
  | error msg => exact ⟨msg, rfl⟩
  | ok path =>
    obtain ⟨e, he, hp, t, hmt, hfresh, _⟩ := findLatestFile_ok dir sys files hread path hres
    exact absurd (hstale e he hp t hmt) (not_lt.mpr hfresh)

/-- Without a task file in the listing the scan of `findActualFile` keeps
nothing. -/
theorem scanFiles_none (dir taskID : String) (files : List DirEntry)
    (h : ∀ e ∈ files, ¬ TaskFile taskID e) : scanFiles dir taskID files = {} := by
  unfold scanFiles
  generalize ({} : Scan) = st
  induction files generalizing st with
  | nil => rfl
  | cons e rest ih =>
    rw [List.foldl_cons, scanStep_other dir taskID st e (h e (List.mem_cons_self _ _))]
    exact ih (fun e1 he1 => h e1 (List.mem_cons_of_mem _ he1)) st

/-- Without a task file in the listing `findActualFile` is `findLatestFile`. -/
theorem findActualFile_fallback (dir template : String) (sys : System) (files : List DirEntry)
    (hread : sys.ReadDir = Except.ok files)
    (hnone : ∀ e ∈ files, strings.HasPrefix e.Name (templateTaskID template ++ "_") = false) :
    findActualFile dir sys template = { result := findLatestFile dir sys } := by
  by_cases hne : templateTaskID template = ""
  · unfold findActualFile
    simp only [hne, if_true]
  · have hscan : scanFiles dir (templateTaskID template) files = {} :=
      scanFiles_none dir _ files (fun e he ht => by
        have := ht.2.2
        rw [hnone e he] at this
        exact Bool.noConfusion this)
    rw [findActualFile_scan dir template sys files hread hne]
    dsimp only
    rw [hscan]
    rfl

/-- C8: when no entry of the listing starts with `<taskID>_`, `findActualFile`
returns an error and no path if every non-noise file was last modified more
than five minutes before the clock reading (or there is none); and any path it
returns is that of a non-noise file modified no earlier than five minutes
before the clock reading. -/
theorem findActualFile_stale_fallback (dir template : String) (sys : System)
    (files : List DirEntry) (hread : sys.ReadDir = Except.ok files)
    (hnone : ∀ e ∈ files,
      strings.HasPrefix e.Name (templateTaskID template ++ "_") = false) :
    ((∀ e ∈ files, PlainFile e → ∀ t, e.ModTime = some t → t < sys.Now - 5 * Minute) →
      ∃ msg, (findActualFile dir sys template).result = Except.error msg) ∧
    (∀ path, (findActualFile dir sys template).result = Except.ok path →
      ∃ e ∈ files, PlainFile e ∧ ∃ t, e.ModTime = some t ∧ sys.Now - 5 * Minute ≤ t ∧
        path = filepath.Join dir e.Name) := by
  rw [findActualFile_fallback dir template sys files hread hnone]
  refine ⟨fun hstale => findLatestFile_stale dir sys files hread hstale, ?_⟩
  intro path hres
  obtain ⟨e, he, hp, t, hmt, hfresh, hpath, _⟩ := findLatestFile_ok dir sys files hread path hres
  exact ⟨e, he, hp, t, hmt, hfresh, hpath⟩

/-- Witness of C8: the only candidate was modified six minutes ago, and
resolution fails. -/
theorem findActualFile_stale_fallback_witness :
    (∀ e ∈ staleListing, strings.HasPrefix e.Name (templateTaskID t1Template ++ "_") = false) ∧
    (∀ e ∈ staleListing, PlainFile e → ∀ t, e.ModTime = some t →
      t < (systemWith staleListing (1000 + 6 * Minute) true true).Now - 5 * Minute) ∧
    ∃ msg, (findActualFile "./downloads" (systemWith staleListing (1000 + 6 * Minute) true true)
      t1Template).result = Except.error msg :=
  ⟨by decide, by
    intro e he _ t ht
    rcases List.mem_singleton.1 he with rfl
    have : t = 1000 := (Option.some.inj ht).symm
    subst this
    decide,
   (findActualFile_stale_fallback "./downloads" t1Template
      (systemWith staleListing (1000 + 6 * Minute) true true) staleListing rfl
      (by decide)).1 (by
        intro e he _ t ht
        rcases List.mem_singleton.1 he with rfl
        have : t = 1000 := (Option.some.inj ht).symm
        subst this
        decide)⟩

/-- C9: whenever `findLatestFile` returns a path, it is `OutputDir` joined with
the name of an entry that is not a directory, is none of `.DS_Store`,
`Thumbs.db`, `.gitignore`, does not start with `.`, and whose modification
time is not earlier than that of any other such entry. -/
theorem findLatestFile_most_recent (dir : String) (sys : System) (files : List DirEntry)
    (hread : sys.ReadDir = Except.ok files) (path : String)
    (h : findLatestFile dir sys = Except.ok path) :
    ∃ e ∈ files, e.IsDir = false ∧ systemFiles e.Name = false ∧
      strings.HasPrefix e.Name "." = false ∧ path = filepath.Join dir e.Name ∧
      ∃ t, e.ModTime = some t ∧
        ∀ e1 ∈ files, e1.IsDir = false → systemFiles e1.Name = false →
          strings.HasPrefix e1.Name "." = false → ∀ t1, e1.ModTime = some t1 → t1 ≤ t := by
  obtain ⟨e, he, hp, t, hmt, _, hpath, hmax⟩ := findLatestFile_ok dir sys files hread path h
  exact ⟨e, he, hp.1, hp.2.1, hp.2.2, hpath, t, hmt,
    fun e1 he1 h1 h2 h3 t1 ht1 => hmax e1 he1 ⟨h1, h2, h3⟩ t1 ht1⟩

/-- Witness of C9: of `T1_video.mp4` (older) and `other.mp4` (newer), the newer
file is returned. -/
theorem findLatestFile_most_recent_witness :
    findLatestFile "./downloads" (systemWith resolutionListing 3000 true true) =
      Except.ok "downloads/other.mp4" ∧
    ∃ e ∈ resolutionListing, e.IsDir = false ∧ systemFiles e.Name = false ∧
      strings.HasPrefix e.Name "." = false ∧
      "downloads/other.mp4" = filepath.Join "./downloads" e.Name ∧
      ∃ t, e.ModTime = some t ∧
        ∀ e1 ∈ resolutionListing, e1.IsDir = false → systemFiles e1.Name = false →
          strings.HasPrefix e1.Name "." = false → ∀ t1, e1.ModTime = some t1 → t1 ≤ t :=
  ⟨rfl,
   findLatestFile_most_recent "./downloads" (systemWith resolutionListing 3000 true true)
     resolutionListing rfl "downloads/other.mp4" rfl⟩

/-! ## `DownloadBilibili` -/

/-- The manual remux step never fails: it yields the merged output when the
remux succeeds and the video file otherwise. -/
theorem manualMerge_result (cfg : Config) (sys : System) (req : DownloadRequest)
    (obs : Observed) :
    (manualMerge cfg sys req obs).result =
      Except.ok (if RemuxSucceeds sys obs.videoFile obs.audioFile
          (filepath.Join cfg.OutputDir (req.TaskID ++ "_merged.mp4"))
        then filepath.Join cfg.OutputDir (req.TaskID ++ "_merged.mp4")
        else obs.videoFile) := by
  by_cases hs : RemuxSucceeds sys obs.videoFile obs.audioFile
      (filepath.Join cfg.OutputDir (req.TaskID ++ "_merged.mp4"))
  · rw [if_pos hs]
    obtain ⟨h1, h2, h3, h4, h5⟩ := hs
    simp [manualMerge, mergeVideoAndAudio, h1, h2, h3, h4, h5]
  · rw [if_neg hs]
    unfold RemuxSucceeds at hs
    unfold manualMerge mergeVideoAndAudio
    dsimp only
    cases h1 : sys.Stat obs.videoFile with
    | some e1 => simp
    | none =>
      cases h2 : sys.Stat obs.audioFile with
      | some e2 => simp
      | none =>
        cases h3 : sys.LookPathFfmpeg with
        | false => simp
        | true =>
          cases h4 : sys.Run (mergeArgs obs.videoFile obs.audioFile
              (filepath.Join cfg.OutputDir (req.TaskID ++ "_merged.mp4"))) with
          | false => simp
          | true =>
            cases h5 : sys.StatAfterRun
                (filepath.Join cfg.OutputDir (req.TaskID ++ "_merged.mp4")) with
            | some e5 => simp
            | none => exact absurd ⟨h1, h2, h3, h4, h5⟩ hs

theorem announce_videoFile (obs : Observed) (line marker : String) :
    (announce obs line marker).videoFile = obs.videoFile ∨
    ((strings.Contains line marker = true ∧
        ∃ before after rest, strings.SplitN2 line marker = before :: after :: rest ∧
          (announce obs line marker).videoFile = strings.TrimSpace after) ∧
      strings.HasSuffix (announce obs line marker).videoFile ".mp4" = true) := by
  unfold announce
  by_cases hc : strings.Contains line marker = true
  · rw [if_pos hc]
    cases hs : strings.SplitN2 line marker with
    | nil => left; rfl
    | cons before tl =>
      cases tl with
      | nil => left; rfl
      | cons after rest =>
        dsimp only
        by_cases h1 : strings.HasSuffix (strings.TrimSpace after) ".mp4" = true
        · right
          rw [if_pos h1]
          exact ⟨⟨hc, before, after, rest, rfl, rfl⟩, h1⟩
        · left
          rw [if_neg h1]
          split <;> rfl
  · left
    rw [if_neg hc]

theorem observeLine_videoFile (obs : Observed) (l : Stream × String) :
    (observeLine obs l).videoFile = obs.videoFile ∨
    (destinationOf l = some (observeLine obs l).videoFile ∧
      strings.HasSuffix (observeLine obs l).videoFile ".mp4" = true) := by
  obtain ⟨stream, line⟩ := l
  cases stream with
  | stdout =>
    rcases announce_videoFile { obs with stdoutOutput := obs.stdoutOutput ++ line ++ "\n" }
      line "Destination:" with h | ⟨⟨hc, before, after, rest, hs, hv⟩, hsuf⟩
    · left; exact h
    · right
      refine ⟨?_, hsuf⟩
      simp only [destinationOf, hc, if_true, hs]
      exact congrArg some hv.symm
  | stderr =>
    rcases announce_videoFile { obs with stderrOutput := obs.stderrOutput ++ line ++ "\n" }
      line "[download] Destination:" with h | ⟨⟨hc, before, after, rest, hs, hv⟩, hsuf⟩
    · left; exact h
    · right
      refine ⟨?_, hsuf⟩
      simp only [destinationOf, hc, if_true, hs]
      exact congrArg some hv.symm

/-- The video file the readers end with is a destination one of the lines
announced, and ends in `.mp4`. -/
theorem observed_videoFile (lines : List (Stream × String)) :
    ∀ obs : Observed, (lines.foldl observeLine obs).videoFile = obs.videoFile ∨
      ∃ l ∈ lines, destinationOf l = some (lines.foldl observeLine obs).videoFile ∧
        strings.HasSuffix (lines.foldl observeLine obs).videoFile ".mp4" = true := by
  induction lines with
  | nil => intro obs; left; rfl
  | cons l rest ih =>
    intro obs
    rw [List.foldl_cons]
    rcases ih (observeLine obs l) with h | ⟨l1, hl1, h⟩
    · rcases observeLine_videoFile obs l with h1 | h1
      · left; rw [h, h1]
      · right
        refine ⟨l, List.mem_cons_self _ _, ?_⟩
        rw [h]
        exact h1
    · right
      exact ⟨l1, List.mem_cons_of_mem _ hl1, h⟩

/-- C10: when the transfer process of `DownloadBilibili` exits with an error
after a video destination and an audio destination were announced, the result
carries no error; its path is `OutputDir/<TaskID>_merged.mp4` when the manual
remux succeeds and the video path otherwise, which is a destination one of
the lines announced and ends in `.mp4`. -/
theorem DownloadBilibili_partial_success (cfg : Config) (sys : System) (run : ProcessRun)
    (req : DownloadRequest) (err : String)
    (hpath : cfg.YtDlpPath ≠ "") (hstat : sys.Stat cfg.YtDlpPath = none)
    (hout : run.StdoutPipe = none) (herr : run.StderrPipe = none) (hstart : run.Start = none)
    (hwait : run.Wait = some err)
    (hv : (run.lines.foldl observeLine {}).videoFile ≠ "")
    (ha : (run.lines.foldl observeLine {}).audioFile ≠ "") :
    (DownloadBilibili cfg sys run req).result =
      Except.ok (if RemuxSucceeds sys (run.lines.foldl observeLine {}).videoFile
          (run.lines.foldl observeLine {}).audioFile
          (filepath.Join cfg.OutputDir (req.TaskID ++ "_merged.mp4"))
        then filepath.Join cfg.OutputDir (req.TaskID ++ "_merged.mp4")
        else (run.lines.foldl observeLine {}).videoFile) ∧
    ∃ l ∈ run.lines, destinationOf l = some (run.lines.foldl observeLine {}).videoFile ∧
      strings.HasSuffix (run.lines.foldl observeLine {}).videoFile ".mp4" = true := by
  constructor
  · unfold DownloadBilibili
    rw [if_neg hpath, hstat]
    simp only [Option.isSome_none, Bool.false_eq_true, if_false, hout, herr, hstart, hwait]
    rw [if_pos ⟨hv, ha⟩]
    exact manualMerge_result cfg sys req _
  · rcases observed_videoFile run.lines {} with h | h
    · exact absurd h hv
    · exact h

/-- Witness of C10: both destinations are announced, the process exits with
status 1; with a working remux the merged path is returned, with a failing
remux run the announced video path. -/
theorem DownloadBilibili_partial_success_witness :
    (DownloadBilibili { YtDlpPath := "/usr/bin/yt-dlp", OutputDir := "./downloads" }
        (systemWith [] 0 true true) failedTwoStreamRun
        { URL := "https://www.bilibili.com/video/BV1", TaskID := "T1" }).result =
      Except.ok "downloads/T1_merged.mp4" ∧
    (DownloadBilibili { YtDlpPath := "/usr/bin/yt-dlp", OutputDir := "./downloads" }
        (systemWith [] 0 true false) failedTwoStreamRun
        { URL := "https://www.bilibili.com/video/BV1", TaskID := "T1" }).result =
      Except.ok "downloads/T1_clip.f100.mp4" :=
  ⟨(DownloadBilibili_partial_success
      { YtDlpPath := "/usr/bin/yt-dlp", OutputDir := "./downloads" }
      (systemWith [] 0 true true) failedTwoStreamRun
      { URL := "https://www.bilibili.com/video/BV1", TaskID := "T1" } "exit status 1"
      (by decide) rfl rfl rfl rfl rfl (by decide) (by decide)).1.trans rfl,
   (DownloadBilibili_partial_success
      { YtDlpPath := "/usr/bin/yt-dlp", OutputDir := "./downloads" }
      (systemWith [] 0 true false) failedTwoStreamRun
      { URL := "https://www.bilibili.com/video/BV1", TaskID := "T1" } "exit status 1"
      (by decide) rfl rfl rfl rfl rfl (by decide) (by decide)).1.trans rfl⟩

/-! ## The task state machine -/

theorem Service.status_eq_some (s : Service) (id : String) (a : DownloadStatus) :
    s.status id = some a ↔
      s.downloads id = true ∧ ∃ d, s.records id = some d ∧ d.Status = a := by
  unfold Service.status Service.task
  by_cases h : s.downloads id = true
  · cases hr : s.records id with
    | none => simp [h]
    | some d => simp [h]
  · simp [h]

theorem Service.broadcastProgress_fields (s : Service) (id : String) :
    (s.broadcastProgress id).records = s.records ∧
    (s.broadcastProgress id).downloads = s.downloads ∧
    (s.broadcastProgress id).downloadCh = s.downloadCh ∧
    (s.broadcastProgress id).workers = s.workers ∧
    (s.broadcastProgress id).requests = s.requests ∧
    (s.broadcastProgress id).callbacks = s.callbacks := by
  unfold Service.broadcastProgress
  cases s.records id <;> simp

theorem progressCallback_status (id : String) (st : CallbackState) (now : Time)
    (progress : DownloadResponse) :
    (progressCallback id st now progress).download.Status = st.download.Status := by
  unfold progressCallback
  split <;> rfl

theorem finishDownload_status (sys : System) (id : String) (download : DownloadResponse)
    (result : Except String String) (now : Time) :
    (finishDownload sys id download result now).Status = StatusCompleted ∨
    (finishDownload sys id download result now).Status = StatusFailed := by
  unfold finishDownload
  cases result with
  | error err => right; rfl
  | ok actualFile =>
    dsimp only
    cases sys.Stat actualFile with
    | some fileErr => right; rfl
    | none => left; rfl

theorem mem_filter_ne (l : List String) (id k : String) :
    k ∈ l.filter (fun x => x != id) ↔ k ∈ l ∧ k ≠ id := by
  simp [List.mem_filter]

/-- One step keeps the pipeline invariant and changes the status of a
registered task only along `StatusChange` (the douyin branch apart). -/
theorem Service.step_spec (s s' : Service) (op : Op) (hinv : s.Inv)
    (hstep : s.step op = some s') (hop : op.isDouyinDone = false) :
    s'.Inv ∧ ∀ id a b, s.status id = some a → s'.status id = some b →
      a = b ∨ StatusChange a b := by
  obtain ⟨hdisj, hq, hw, hst⟩ := hinv
  cases op with
  | CreateDownload id req now =>
    simp only [Service.step] at hstep
    by_cases hfresh : (s.records id).isSome = true
    · rw [if_pos hfresh] at hstep; exact Option.noConfusion hstep
    · rw [if_neg hfresh] at hstep
      have hs' := (Option.some.inj hstep).symm
      have hnone : s.records id = none := by
        cases h : s.records id with
        | none => rfl
        | some d => rw [h] at hfresh; exact absurd rfl hfresh
      have hnw : id ∉ s.workers := fun h => hfresh (hw id h)
      have hnq : id ∉ s.downloadCh := fun h => hfresh (hq id h)
      subst hs'
      refine ⟨⟨?_, ?_, ?_, ?_⟩, ?_⟩
      · intro k hk
        rcases List.mem_append.1 hk with hk | hk
        · exact hdisj k hk
        · rw [List.mem_singleton.1 hk]; exact hnw
      · intro k hk
        by_cases hki : k = id
        · simp [hki]
        · rcases List.mem_append.1 hk with hk | hk
          · simpa [hki] using hq k hk
          · exact absurd (List.mem_singleton.1 hk) hki
      · intro k hk
        by_cases hki : k = id
        · simp [hki]
        · simpa [hki] using hw k hk
      · intro k d hreg hrec
        by_cases hki : k = id
        · subst hki
          simp only [if_true, Option.some.injEq] at hrec
          subst hrec
          exact ⟨fun _ => Or.inl rfl, fun h => absurd h hnw, fun h => absurd (by simp) h⟩
        · simp only [hki, if_false] at hreg hrec
          obtain ⟨h1, h2, h3⟩ := hst k d hreg hrec
          refine ⟨fun h => h1 ?_, h2, fun h => h3 (fun hk => h (List.mem_append_left _ hk))⟩
          rcases List.mem_append.1 h with h | h
          · exact h
          · exact absurd (List.mem_singleton.1 h) hki
      · intro k a b ha hb
        rw [Service.status_eq_some] at ha hb
        obtain ⟨_, d, hd, hda⟩ := ha
        obtain ⟨_, d', hd', hdb⟩ := hb
        by_cases hki : k = id
        · rw [hki, hnone] at hd; exact Option.noConfusion hd
        · simp only [hki, if_false] at hd'
          rw [hd] at hd'
          left; rw [← hda, ← hdb, Option.some.inj hd']
  | CancelDownload id now =>
    simp only [Service.step] at hstep
    by_cases hreg : s.downloads id = true
    · rw [if_pos hreg] at hstep
      have hs' := (Option.some.inj hstep).symm
      subst hs'
      refine ⟨⟨hdisj, ?_, ?_, ?_⟩, ?_⟩
      · intro k hk
        have := hq k hk
        by_cases hki : k = id
        · rw [hki] at this
          simp [Service.write, hki, this]
        · simpa [Service.write, hki] using this
      · intro k hk
        have := hw k hk
        by_cases hki : k = id
        · rw [hki] at this
          simp [Service.write, hki, this]
        · simpa [Service.write, hki] using this
      · intro k d hreg' hrec
        by_cases hki : k = id
        · subst hki
          simp only [Service.write, if_true] at hrec
          cases hr : s.records k with
          | none => rw [hr] at hrec; exact Option.noConfusion hrec
          | some d0 =>
            rw [hr] at hrec
            have hd := (Option.some.inj hrec).symm
            subst hd
            exact ⟨fun _ => Or.inr rfl, fun _ => Or.inr rfl, fun _ _ => Or.inr (Or.inr rfl)⟩
        · simp only [Service.write, hki, if_false] at hrec
          exact hst k d hreg' hrec
      · intro k a b ha hb
        rw [Service.status_eq_some] at ha hb
        obtain ⟨_, d, hd, hda⟩ := ha
        obtain ⟨_, d', hd', hdb⟩ := hb
        by_cases hki : k = id
        · subst hki
          simp only [Service.write, if_true, hd, Option.map_some'] at hd'
          have := (Option.some.inj hd').symm
          subst this
          right; right; right; left
          exact hdb.symm
        · simp only [Service.write, hki, if_false] at hd'
          rw [hd] at hd'
          left; rw [← hda, ← hdb, Option.some.inj hd']
    · rw [if_neg hreg] at hstep
      have hs' := (Option.some.inj hstep).symm
      subst hs'
      refine ⟨⟨hdisj, hq, hw, hst⟩, ?_⟩
      intro k a b ha hb
      rw [ha] at hb
      exact Or.inl (Option.some.inj hb)
  | ClearDownloads =>
    simp only [Service.step] at hstep
    have hs' := (Option.some.inj hstep).symm
    subst hs'
    refine ⟨⟨hdisj, hq, hw, ?_⟩, ?_⟩
    · intro k d hreg; exact absurd hreg (by simp)
    · intro k a b _ hb
      rw [Service.status_eq_some] at hb
      exact absurd hb.1 (by simp)
  | douyinDone id resp now => exact absurd hop (by simp [Op.isDouyinDone])
  | processDownload id now =>
    simp only [Service.step] at hstep
    by_cases hc : id ∈ s.downloadCh ∧ s.workers.length < 10
    · rw [if_pos hc] at hstep
      have hidq := hc.1
      by_cases hreg : s.downloads id = true
      · simp only [hreg, if_true] at hstep
        have hs' := (Option.some.inj hstep).symm
        obtain ⟨hb1, hb2, hb3, hb4, _, _⟩ := Service.broadcastProgress_fields
          (Service.write { s with downloadCh := s.downloadCh.filter (fun k => k != id) } id
            (fun d => { d with Status := StatusDownloading, Updated := now })) id
        have hrec : s'.records = fun k =>
            if k = id then (s.records k).map
              (fun d => { d with Status := StatusDownloading, Updated := now })
            else s.records k := by rw [hs']; simp only [hb1]; rfl
        have hdown : s'.downloads = s.downloads := by rw [hs']; simp only [hb2]; rfl
        have hch : s'.downloadCh = s.downloadCh.filter (fun k => k != id) := by
          rw [hs']; simp only [hb3]; rfl
        have hwk : s'.workers = s.workers ++ [id] := by rw [hs']; simp only [hb4]; rfl
        refine ⟨⟨?_, ?_, ?_, ?_⟩, ?_⟩
        · intro k hk
          rw [hch, mem_filter_ne] at hk
          rw [hwk]
          intro hkw
          rcases List.mem_append.1 hkw with hkw | hkw
          · exact hdisj k hk.1 hkw
          · exact hk.2 (List.mem_singleton.1 hkw)
        · intro k hk
          rw [hch, mem_filter_ne] at hk
          rw [hrec]
          simpa [hk.2] using hq k hk.1
        · intro k hk
          rw [hwk] at hk
          rw [hrec]
          by_cases hki : k = id
          · have := hq id hidq
            simp [hki, this]
          · rcases List.mem_append.1 hk with hk | hk
            · simpa [hki] using hw k hk
            · exact absurd (List.mem_singleton.1 hk) hki
        · intro k d hreg' hrec'
          rw [hrec] at hrec'
          rw [hch, hwk]
          by_cases hki : k = id
          · subst hki
            simp only [if_true] at hrec'
            cases hr : s.records k with
            | none => rw [hr] at hrec'; exact Option.noConfusion hrec'
            | some d0 =>
              rw [hr] at hrec'
              have hd := (Option.some.inj hrec').symm
              subst hd
              refine ⟨fun h => absurd rfl ((mem_filter_ne _ _ _).1 h).2,
                fun _ => Or.inl rfl, fun _ h => absurd (by simp) h⟩
          · simp only [hki, if_false] at hrec'
            rw [hdown] at hreg'
            obtain ⟨h1, h2, h3⟩ := hst k d hreg' hrec'
            refine ⟨fun h => h1 ((mem_filter_ne _ _ _).1 h).1, fun h => h2 ?_,
              fun hnq hnw => h3 (fun hk => hnq ((mem_filter_ne _ _ _).2 ⟨hk, hki⟩))
                (fun hk => hnw (List.mem_append_left _ hk))⟩
            rcases List.mem_append.1 h with h | h
            · exact h
            · exact absurd (List.mem_singleton.1 h) hki
        · intro k a b ha hb
          rw [Service.status_eq_some] at ha hb
          obtain ⟨hka, d, hd, hda⟩ := ha
          obtain ⟨_, d', hd', hdb⟩ := hb
          rw [hrec] at hd'
          by_cases hki : k = id
          · subst hki
            simp only [if_true, hd, Option.map_some'] at hd'
            have := (Option.some.inj hd').symm
            subst this
            right
            rcases (hst k d hka hd).1 hidq with h | h
            · exact Or.inl ⟨hda ▸ h, hdb.symm⟩
            · exact Or.inr (Or.inr (Or.inr ⟨hda ▸ h, Or.inl hdb.symm⟩))
          · simp only [hki, if_false] at hd'
            rw [hd] at hd'
            left; rw [← hda, ← hdb, Option.some.inj hd']
      · simp only [hreg, if_false] at hstep
        have hs' := (Option.some.inj hstep).symm
        subst hs'
        refine ⟨⟨?_, ?_, hw, ?_⟩, ?_⟩
        · intro k hk
          exact hdisj k ((mem_filter_ne _ _ _).1 hk).1
        · intro k hk
          exact hq k ((mem_filter_ne _ _ _).1 hk).1
        · intro k d hreg' hrec'
          have hki : k ≠ id := fun e => hreg (e ▸ hreg')
          obtain ⟨h1, h2, h3⟩ := hst k d hreg' hrec'
          exact ⟨fun h => h1 ((mem_filter_ne _ _ _).1 h).1, h2,
            fun hnq hnw => h3 (fun hk => hnq ((mem_filter_ne _ _ _).2 ⟨hk, hki⟩)) hnw⟩
        · intro k a b ha hb
          have : (Service.status { s with
              downloadCh := s.downloadCh.filter (fun k => k != id) } k) = s.status k := rfl
          rw [this, ha] at hb
          exact Or.inl (Option.some.inj hb)
    · rw [if_neg hc] at hstep; exact Option.noConfusion hstep
  | progress id sample now =>
    simp only [Service.step] at hstep
    by_cases hc : id ∈ s.workers
    · rw [if_pos hc] at hstep
      cases hr : s.records id with
      | none => rw [hr] at hstep; exact Option.noConfusion hstep
      | some download =>
        rw [hr] at hstep
        have hs' := (Option.some.inj hstep).symm
        subst hs'
        have hsame := progressCallback_status id
          { lastProgressTime := (s.callbacks id).lastProgressTime,
            lastProgress := (s.callbacks id).lastProgress,
            download := download, broadcasts := s.broadcasts } now sample
        refine ⟨⟨hdisj, ?_, ?_, ?_⟩, ?_⟩
        · intro k hk
          by_cases hki : k = id
          · simp [hki]
          · simpa [hki] using hq k hk
        · intro k hk
          by_cases hki : k = id
          · simp [hki]
          · simpa [hki] using hw k hk
        · intro k d hreg' hrec'
          by_cases hki : k = id
          · subst hki
            simp only [if_true, Option.some.injEq] at hrec'
            subst hrec'
            rw [hsame]
            exact hst k download hreg' hr
          · simp only [hki, if_false] at hrec'
            exact hst k d hreg' hrec'
        · intro k a b ha hb
          rw [Service.status_eq_some] at ha hb
          obtain ⟨_, d, hd, hda⟩ := ha
          obtain ⟨_, d', hd', hdb⟩ := hb
          by_cases hki : k = id
          · subst hki
            simp only [if_true, Option.some.injEq] at hd'
            subst hd'
            rw [hr] at hd
            left; rw [← hda, ← hdb, hsame, ← Option.some.inj hd]
          · simp only [hki, if_false] at hd'
            rw [hd] at hd'
            left; rw [← hda, ← hdb, Option.some.inj hd']
    · rw [if_neg hc] at hstep; exact Option.noConfusion hstep
  | finish id sys result now =>
    simp only [Service.step] at hstep
    by_cases hc : id ∈ s.workers
    · rw [if_pos hc] at hstep
      have hs' := (Option.some.inj hstep).symm
      obtain ⟨hb1, hb2, hb3, hb4, _, _⟩ := Service.broadcastProgress_fields
        (Service.write s id (fun d => finishDownload sys id d result now)) id
      have hrec : s'.records = fun k =>
          if k = id then (s.records k).map (fun d => finishDownload sys id d result now)
          else s.records k := by rw [hs']; simp only [hb1]; rfl
      have hdown : s'.downloads = s.downloads := by rw [hs']; simp only [hb2]; rfl
      have hch : s'.downloadCh = s.downloadCh := by rw [hs']; simp only [hb3]; rfl
      have hwk : s'.workers = s.workers.filter (fun k => k != id) := by
        rw [hs']; simp only [hb4]; rfl
      have hnq : id ∉ s.downloadCh := fun h => hdisj id h hc
      refine ⟨⟨?_, ?_, ?_, ?_⟩, ?_⟩
      · intro k hk
        rw [hch] at hk
        rw [hwk]
        exact fun h => hdisj k hk ((mem_filter_ne _ _ _).1 h).1
      · intro k hk
        rw [hch] at hk
        rw [hrec]
        by_cases hki : k = id
        · exact absurd (hki ▸ hk) hnq
        · simpa [hki] using hq k hk
      · intro k hk
        rw [hwk, mem_filter_ne] at hk
        rw [hrec]
        simpa [hk.2] using hw k hk.1
      · intro k d hreg' hrec'
        rw [hrec] at hrec'
        rw [hch, hwk]
        by_cases hki : k = id
        · subst hki
          simp only [if_true] at hrec'
          cases hr : s.records k with
          | none => rw [hr] at hrec'; exact Option.noConfusion hrec'
          | some d0 =>
            rw [hr] at hrec'
            have hd := (Option.some.inj hrec').symm
            subst hd
            refine ⟨fun h => absurd h hnq, fun h => absurd rfl ((mem_filter_ne _ _ _).1 h).2,
              fun _ _ => ?_⟩
            rcases finishDownload_status sys k d0 result now with h | h
            · exact Or.inl h
            · exact Or.inr (Or.inl h)
        · simp only [hki, if_false] at hrec'
          rw [hdown] at hreg'
          obtain ⟨h1, h2, h3⟩ := hst k d hreg' hrec'
          exact ⟨h1, fun h => h2 ((mem_filter_ne _ _ _).1 h).1,
            fun hnq' hnw => h3 hnq' (fun hk => hnw ((mem_filter_ne _ _ _).2 ⟨hk, hki⟩))⟩
      · intro k a b ha hb
        rw [Service.status_eq_some] at ha hb
        obtain ⟨hka, d, hd, hda⟩ := ha
        obtain ⟨_, d', hd', hdb⟩ := hb
        rw [hrec] at hd'
        by_cases hki : k = id
        · subst hki
          simp only [if_true, hd, Option.map_some'] at hd'
          have := (Option.some.inj hd').symm
          subst this
          right
          have hfin : b = StatusCompleted ∨ b = StatusFailed := by
            rw [← hdb]; exact finishDownload_status sys k d result now
          rcases (hst k d hka hd).2.1 hc with h | h
          · exact Or.inr (Or.inl ⟨hda ▸ h, hfin⟩)
          · refine Or.inr (Or.inr (Or.inr ⟨hda ▸ h, ?_⟩))
            rcases hfin with h' | h'
            · exact Or.inr (Or.inl h')
            · exact Or.inr (Or.inr h')
        · simp only [hki, if_false] at hd'
          rw [hd] at hd'
          left; rw [← hda, ← hdb, Option.some.inj hd']
    · rw [if_neg hc] at hstep; exact Option.noConfusion hstep

theorem NewService_inv : NewService.Inv := by
  refine ⟨?_, ?_, ?_, ?_⟩
  · intro id h; exact absurd h (by simp [NewService])
  · intro id h; exact absurd h (by simp [NewService])
  · intro id h; exact absurd h (by simp [NewService])
  · intro id d h; exact absurd h (by simp [NewService])

/-- Every state reached without the douyin branch satisfies the pipeline
invariant. -/
theorem Service.run_inv (ops : List Op) :
    ∀ s0 s : Service, s0.Inv → (∀ o ∈ ops, o.isDouyinDone = false) →
      s0.run ops = some s → s.Inv := by
  induction ops with
  | nil =>
    intro s0 s h _ hrun
    simp only [Service.run] at hrun
    exact (Option.some.inj hrun) ▸ h
  | cons op ops ih =>
    intro s0 s h hgen hrun
    simp only [Service.run] at hrun
    cases hs : s0.step op with
    | none => rw [hs] at hrun; exact Option.noConfusion hrun
    | some s1 =>
      rw [hs] at hrun
      exact ih s1 s (Service.step_spec s0 s1 op h hs (hgen op (List.mem_cons_self _ _))).1
        (fun o ho => hgen o (List.mem_cons_of_mem _ ho)) hrun

/-- C2, as stated, fails: a task cancelled while it waits in the channel is
still picked up by a worker, which sets it to `downloading` and then to
`completed`; the terminal status `cancelled` is not kept. -/
theorem cancelled_status_overwritten :
    (NewService.run (cancelledRun.take 2)).bind (fun s => s.status "t1") =
      some StatusCancelled ∧
    (NewService.run (cancelledRun.take 3)).bind (fun s => s.status "t1") =
      some StatusDownloading ∧
    (NewService.run cancelledRun).bind (fun s => s.status "t1") = some StatusCompleted := by
  decide

/-- C2 (amended): in every run of the service that does not go through the
douyin branch of `processDownload`, a step changes the status of a registered
task only from `pending` to `downloading`, from `downloading` to `completed`
or `failed`, from anything to `cancelled`, or from `cancelled` on to
`downloading`, `completed` or `failed`. So a completed or failed task keeps
its status unless it is cancelled, and no task moves back to `pending`. -/
theorem status_changes_allowed (ops : List Op) (op : Op) (s s' : Service)
    (hgen : ∀ o ∈ ops ++ [op], o.isDouyinDone = false)
    (hrun : NewService.run ops = some s) (hstep : s.step op = some s')
    (id : String) (a b : DownloadStatus)
    (ha : s.status id = some a) (hb : s'.status id = some b) :
    (a = b ∨ StatusChange a b) ∧
    (a = StatusCompleted ∨ a = StatusFailed → b = a ∨ b = StatusCancelled) ∧
    (b = StatusPending → a = StatusPending) := by
  have hinv : s.Inv := Service.run_inv ops NewService s NewService_inv
    (fun o ho => hgen o (List.mem_append_left _ ho)) hrun
  have hmain := (Service.step_spec s s' op hinv hstep
    (hgen op (List.mem_append_right _ (List.mem_singleton_self _)))).2 id a b ha hb
  refine ⟨hmain, ?_, ?_⟩
  · intro hterm
    rcases hmain with h | h
    · exact Or.inl h.symm
    · rcases h with ⟨h1, _⟩ | ⟨h1, _⟩ | h | ⟨h1, _⟩
      · rcases hterm with h2 | h2 <;> (rw [h1] at h2; exact absurd h2 (by decide))
      · rcases hterm with h2 | h2 <;> (rw [h1] at h2; exact absurd h2 (by decide))
      · exact Or.inr h
      · rcases hterm with h2 | h2 <;> (rw [h1] at h2; exact absurd h2 (by decide))
  · intro hpend
    rcases hmain with h | h
    · rw [h]; exact hpend
    · rcases h with ⟨_, h2⟩ | ⟨_, h2⟩ | h2 | ⟨_, h2⟩
      · rw [h2] at hpend; exact absurd hpend (by decide)
      · rcases h2 with h2 | h2 <;> (rw [h2] at hpend; exact absurd hpend (by decide))
      · rw [h2] at hpend; exact absurd hpend (by decide)
      · rcases h2 with h2 | h2 | h2 <;> (rw [h2] at hpend; exact absurd hpend (by decide))

/-- Witness of C2 (amended): in the run above, the worker's first step moves
the cancelled task to `downloading`, one of the listed changes. -/
theorem status_changes_allowed_witness :
    (∀ o ∈ cancelledRun.take 2 ++ [Op.processDownload "t1" 30], o.isDouyinDone = false) ∧
    (StatusCancelled = StatusDownloading ∨ StatusChange StatusCancelled StatusDownloading) :=
  ⟨by decide,
   (status_changes_allowed (cancelledRun.take 2) (Op.processDownload "t1" 30)
      ((NewService.run (cancelledRun.take 2)).get (by decide))
      ((NewService.run (cancelledRun.take 3)).get (by decide))
      (by decide) (by simp) (by
        have h3 : NewService.run (cancelledRun.take 3) =
            ((NewService.run (cancelledRun.take 2)).get (by decide)).step
              (Op.processDownload "t1" 30) := rfl
        rw [← h3]; simp)
      "t1" StatusCancelled StatusDownloading (by decide) (by decide)).1⟩

/-! ## The task ID of a template -/

theorem Chars.cut_underscore (t r : List Char) (h : '_' ∉ t) :
    Chars.cut (t ++ '_' :: r) ['_'] = some (t, r) := by
  induction t with
  | nil => simp [Chars.cut, Chars.startsWith]
  | cons c t ih =>
    have hc : c ≠ '_' := fun e => h (by simp [e])
    have ht : '_' ∉ t := fun e => h (List.mem_cons_of_mem _ e)
    show Chars.cut (c :: (t ++ '_' :: r)) ['_'] = some (c :: t, r)
    simp [Chars.cut, Chars.startsWith, hc, ih ht]

/-- For a task ID without `_`, the task ID `findActualFile` reads off a
template with base name `<taskID>_<rest>` is that task ID. -/
theorem templateTaskID_of_base (template taskID rest : String)
    (hbase : filepath.Base template = taskID ++ "_" ++ rest) (hid : '_' ∉ taskID.data) :
    templateTaskID template = taskID := by
  unfold templateTaskID strings.SplitN2
  have hd : (filepath.Base template).data = taskID.data ++ '_' :: rest.data := by
    rw [hbase]; simp
  have hsep : ("_" : String).data = ['_'] := rfl
  rw [hd, hsep, Chars.cut_underscore _ _ hid]

/-! ## The error of a failed transfer -/

theorem Chars.contains_of_startsWith (s p : List Char) (h : Chars.startsWith s p = true) :
    Chars.contains s p = true := by
  cases s with
  | nil => simpa [Chars.contains] using h
  | cons c s => simp [Chars.contains, h]

theorem Chars.contains_infix (a b c : List Char) : Chars.contains (a ++ (b ++ c)) b = true := by
  induction a with
  | nil => exact Chars.contains_of_startsWith _ _ ((Chars.startsWith_iff _ _).2 ⟨c, rfl⟩)
  | cons x a ih =>
    show Chars.contains (x :: (a ++ (b ++ c))) b = true
    simp [Chars.contains, ih]

theorem strings.Contains_infix (a b c : String) : strings.Contains (a ++ b ++ c) b = true := by
  unfold strings.Contains
  rw [String.data_append, String.data_append, List.append_assoc]
  exact Chars.contains_infix _ _ _

theorem strings.Contains_suffix (a b : String) : strings.Contains (a ++ b) b = true := by
  have h := strings.Contains_infix a b ""
  simpa using h

theorem fmt.doPrintf_plain (fuel : Nat) (s : List Char) (h : '%' ∉ s) :
    fmt.doPrintf (fuel + 1) s = s := by
  have hall : ∀ c ∈ s, (c != '%') = true := by
    intro c hc
    simp only [bne_iff_ne, ne_eq]
    intro hce
    exact h (hce ▸ hc)
  have hd : s.dropWhile (fun c => c != '%') = [] := List.dropWhile_eq_nil_iff.2 hall
  have ht : s.takeWhile (fun c => c != '%') = s := List.takeWhile_eq_self_iff.2 hall
  simp only [fmt.doPrintf, hd, ht]

theorem fmt.Errorf_plain (format : String) (h : '%' ∉ format.data) :
    fmt.Errorf format = format := by
  unfold fmt.Errorf
  rw [fmt.doPrintf_plain _ _ h]

/-- A progress line used as a format string: the formatter takes ` o` after the
`%` for a flag and a verb without operand. -/
theorem fmt.Errorf_progress_line :
    fmt.Errorf "[download]  45.3% of 10.00MiB" = "[download]  45.3%!o(MISSING)f 10.00MiB" := by
  decide

theorem errMsg_contains (cfg : Config) (args : List String) (err : String) (obs : Observed) :
    strings.Contains (errMsg cfg args err obs) obs.stdoutOutput = true ∧
    strings.Contains (errMsg cfg args err obs) obs.stderrOutput = true := by
  constructor
  · unfold errMsg
    have h := strings.Contains_infix
      ("下载失败: " ++ err ++ "\n命令: " ++ cfg.YtDlpPath ++ " " ++ formatArgs args ++
        "\n标准输出:\n") obs.stdoutOutput ("\n错误输出:\n" ++ obs.stderrOutput)
    simpa [String.append_assoc] using h
  · exact strings.Contains_suffix _ _

/-- C11, counterexample: a transfer of `DownloadBilibili` that exits with
status 1 after one line on each stream, no destination announced, and whose
standard error mentions cookies. The error returned is the login hint with
the exit error; it contains neither the captured standard output nor the
captured standard error. -/
theorem DownloadBilibili_cookies_error_omits_output :
    cookiesRun.Wait = some "exit status 1" ∧
    (cookiesRun.lines.foldl observeLine {}).videoFile = "" ∧
    (cookiesRun.lines.foldl observeLine {}).stdoutOutput = "[BiliBili] Extracting URL\n" ∧
    (cookiesRun.lines.foldl observeLine {}).stderrOutput = "ERROR: Fresh cookies are needed\n" ∧
    (DownloadBilibili { YtDlpPath := "/usr/bin/yt-dlp", OutputDir := "./downloads" }
        (systemWith [] 0 true true) cookiesRun
        { URL := "https://www.bilibili.com/video/BV1", TaskID := "T1" }).result =
      Except.error
        "下载抖音视频需要登录信息。请尝试通过浏览器下载或使用移动端分享的链接。错误信息: exit status 1" ∧
    strings.Contains
        "下载抖音视频需要登录信息。请尝试通过浏览器下载或使用移动端分享的链接。错误信息: exit status 1"
        "[BiliBili] Extracting URL\n" = false ∧
    strings.Contains
        "下载抖音视频需要登录信息。请尝试通过浏览器下载或使用移动端分享的链接。错误信息: exit status 1"
        "ERROR: Fresh cookies are needed\n" = false :=
  ⟨rfl, rfl, rfl, rfl, rfl, by decide, by decide⟩

/-- C11, amended: the transfer process was started and exits with an error.
`Download`, for a URL it handles itself, returns an error and no path; so
does `DownloadBilibili` unless both a video and an audio destination were
observed. In `DownloadBilibili`, when the captured standard error contains
`cookies`, the error is the login hint followed by the exit error. In every
other case the error is built by `fmt.Errorf` from a message text that
contains the complete captured standard output and standard error, and it
equals that text whenever the text holds no `%`. -/
theorem failed_transfer_error (cfg : Config) (sys : System) (run : ProcessRun)
    (DownloadDouyin : DownloadRequest → Resolution) (req : DownloadRequest) (err : String)
    (hpath : cfg.YtDlpPath ≠ "") (hstat : sys.Stat cfg.YtDlpPath = none)
    (hout : run.StdoutPipe = none) (herr : run.StderrPipe = none) (hstart : run.Start = none)
    (hwait : run.Wait = some err) :
    (strings.Contains req.URL "bilibili.com" = false →
      (strings.Contains req.URL "douyin.com" || strings.Contains req.URL "v.douyin.com") = false →
      (Download cfg sys run DownloadDouyin req).result = Except.error (fmt.Errorf
        (errMsg cfg (downloadArgs cfg sys req) err (run.lines.foldl noteLine {}))) ∧
      strings.Contains (errMsg cfg (downloadArgs cfg sys req) err (run.lines.foldl noteLine {}))
        (run.lines.foldl noteLine {}).stdoutOutput = true ∧
      strings.Contains (errMsg cfg (downloadArgs cfg sys req) err (run.lines.foldl noteLine {}))
        (run.lines.foldl noteLine {}).stderrOutput = true ∧
      ('%' ∉ (errMsg cfg (downloadArgs cfg sys req) err (run.lines.foldl noteLine {})).data →
        (Download cfg sys run DownloadDouyin req).result = Except.error
          (errMsg cfg (downloadArgs cfg sys req) err (run.lines.foldl noteLine {})))) ∧
    (¬ ((run.lines.foldl observeLine {}).videoFile ≠ "" ∧
        (run.lines.foldl observeLine {}).audioFile ≠ "") →
      (strings.Contains (run.lines.foldl observeLine {}).stderrOutput "cookies" = true →
        (DownloadBilibili cfg sys run req).result = Except.error
          ("下载抖音视频需要登录信息。请尝试通过浏览器下载或使用移动端分享的链接。错误信息: " ++ err)) ∧
      (strings.Contains (run.lines.foldl observeLine {}).stderrOutput "cookies" = false →
        strings.Contains (run.lines.foldl observeLine {}).stderrOutput "Fresh cookies" = false →
        (DownloadBilibili cfg sys run req).result = Except.error (fmt.Errorf
          (errMsg cfg (bilibiliArgs cfg sys req) err (run.lines.foldl observeLine {}))) ∧
        strings.Contains
          (errMsg cfg (bilibiliArgs cfg sys req) err (run.lines.foldl observeLine {}))
          (run.lines.foldl observeLine {}).stdoutOutput = true ∧
        strings.Contains
          (errMsg cfg (bilibiliArgs cfg sys req) err (run.lines.foldl observeLine {}))
          (run.lines.foldl observeLine {}).stderrOutput = true ∧
        ('%' ∉ (errMsg cfg (bilibiliArgs cfg sys req) err
            (run.lines.foldl observeLine {})).data →
          (DownloadBilibili cfg sys run req).result = Except.error
            (errMsg cfg (bilibiliArgs cfg sys req) err (run.lines.foldl observeLine {}))))) := by
  constructor
  · intro hb hd
    have hres : (Download cfg sys run DownloadDouyin req).result = Except.error (fmt.Errorf
        (errMsg cfg (downloadArgs cfg sys req) err (run.lines.foldl noteLine {}))) := by
      unfold Download
      rw [if_neg (by simp [hb]), if_neg (by simp only [hd]; exact Bool.false_ne_true),
        if_neg hpath, hstat]
      simp only [Option.isSome_none, Bool.false_eq_true, if_false, hout, herr, hstart, hwait]
    refine ⟨hres, (errMsg_contains _ _ _ _).1, (errMsg_contains _ _ _ _).2, ?_⟩
    intro hp
    rw [hres, fmt.Errorf_plain _ hp]
  · intro hva
    have hunf : (DownloadBilibili cfg sys run req).result =
        (if strings.Contains (run.lines.foldl observeLine {}).stderrOutput "cookies" ||
            strings.Contains (run.lines.foldl observeLine {}).stderrOutput "Fresh cookies" then
          Except.error
            ("下载抖音视频需要登录信息。请尝试通过浏览器下载或使用移动端分享的链接。错误信息: " ++ err)
        else Except.error (fmt.Errorf
          (errMsg cfg (bilibiliArgs cfg sys req) err (run.lines.foldl observeLine {})))) := by
      unfold DownloadBilibili
      rw [if_neg hpath, hstat]
      simp only [Option.isSome_none, Bool.false_eq_true, if_false, hout, herr, hstart, hwait]
      rw [if_neg hva]
      split
      · rfl
      · rfl
    constructor
    · intro hc
      rw [hunf, hc]
      rfl
    · intro hc hf
      have hres : (DownloadBilibili cfg sys run req).result = Except.error (fmt.Errorf
          (errMsg cfg (bilibiliArgs cfg sys req) err (run.lines.foldl observeLine {}))) := by
        rw [hunf, hc, hf]
        rfl
      refine ⟨hres, (errMsg_contains _ _ _ _).1, (errMsg_contains _ _ _ _).2, ?_⟩
      intro hp
      rw [hres, fmt.Errorf_plain _ hp]

set_option maxRecDepth 100000 in
/-- Witness of C11 (amended): a transfer with an output path free of `%` that
exits with status 1 gives the message text itself, with both captured outputs
in it; a transfer of `DownloadBilibili` whose standard error mentions cookies
gives the login hint. -/
theorem failed_transfer_error_witness :
    (Download { YtDlpPath := "/usr/bin/yt-dlp", OutputDir := "./downloads" }
        (systemWith [] 0 true true) failedRun (fun _ => { result := Except.error "" })
        { URL := "https://example.com/v", TaskID := "T1", Output := "downloads/clip.mp4" }).result =
      Except.error "下载失败: exit status 1\n命令: /usr/bin/yt-dlp [--no-playlist --user-agent Mozilla/5.0 (Macintosh; Intel Mac OS X 10_15_7) AppleWebKit/537.36 (KHTML, like Gecko) Chrome/120.0.0.0 Safari/537.36 --no-warnings -v --newline -o downloads/T1_clip.mp4 https://example.com/v]\n标准输出:\n[download] Destination: downloads/T1_clip.mp4\n\n错误输出:\nERROR: unable to download video data\n" ∧
    (DownloadBilibili { YtDlpPath := "/usr/bin/yt-dlp", OutputDir := "./downloads" }
        (systemWith [] 0 true true) cookiesRun
        { URL := "https://www.bilibili.com/video/BV1", TaskID := "T1" }).result =
      Except.error
        "下载抖音视频需要登录信息。请尝试通过浏览器下载或使用移动端分享的链接。错误信息: exit status 1" :=
  ⟨((failed_transfer_error { YtDlpPath := "/usr/bin/yt-dlp", OutputDir := "./downloads" }
      (systemWith [] 0 true true) failedRun (fun _ => { result := Except.error "" })
      { URL := "https://example.com/v", TaskID := "T1", Output := "downloads/clip.mp4" }
      "exit status 1" (by decide) rfl rfl rfl rfl rfl).1 (by decide) (by decide)).2.2.2
      (by decide) |>.trans rfl,
   ((failed_transfer_error { YtDlpPath := "/usr/bin/yt-dlp", OutputDir := "./downloads" }
      (systemWith [] 0 true true) cookiesRun (fun _ => { result := Except.error "" })
      { URL := "https://www.bilibili.com/video/BV1", TaskID := "T1" }
      "exit status 1" (by decide) rfl rfl rfl rfl rfl).2 (by decide)).1 (by decide)⟩

/-! ## The path `Download` returns after a silent transfer -/

theorem Chars.contains_nil (s : List Char) : Chars.contains s [] = true := by
  cases s <;> simp [Chars.contains, Chars.startsWith]

theorem Chars.contains_iff (s t : List Char) :
    Chars.contains s t = true ↔ ∃ a r, s = a ++ (t ++ r) := by
  constructor
  · intro h
    induction s with
    | nil =>
      obtain ⟨r, hr⟩ := (Chars.startsWith_iff _ _).1 (by simpa [Chars.contains] using h)
      exact ⟨[], r, hr⟩
    | cons c s ih =>
      simp only [Chars.contains, Bool.or_eq_true] at h
      rcases h with h | h
      · obtain ⟨r, hr⟩ := (Chars.startsWith_iff _ _).1 h
        exact ⟨[], r, hr⟩
      · obtain ⟨a, r, har⟩ := ih h
        exact ⟨c :: a, r, by rw [har]; rfl⟩
  · rintro ⟨a, r, rfl⟩
    exact Chars.contains_infix a t r

theorem Chars.contains_mem (s t : List Char) (h : Chars.contains s t = true) :
    ∀ c ∈ t, c ∈ s := by
  obtain ⟨a, r, rfl⟩ := (Chars.contains_iff _ _).1 h
  intro c hc
  simp [hc]

theorem Chars.contains_length (s t : List Char) (h : Chars.contains s t = true) :
    t.length ≤ s.length := by
  obtain ⟨a, r, rfl⟩ := (Chars.contains_iff _ _).1 h
  simp only [List.length_append]
  omega

/-- A text inside `.`, `..` or `/` is empty or one of these three. -/
theorem Chars.contains_special (s t : List Char)
    (hs : s = ['.'] ∨ s = ['.', '.'] ∨ s = ['/']) (h : Chars.contains s t = true) :
    t = [] ∨ t = ['.'] ∨ t = ['.', '.'] ∨ t = ['/'] := by
  have hm := Chars.contains_mem s t h
  have hl := Chars.contains_length s t h
  match t, hm, hl with
  | [], _, _ => exact Or.inl rfl
  | [x], hm, _ =>
    have hx := hm x (List.mem_cons_self _ _)
    rcases hs with hs | hs | hs <;> rw [hs] at hx <;> simp at hx <;> rw [hx] <;> simp
  | [x, y], hm, hl =>
    have hx := hm x (List.mem_cons_self _ _)
    have hy := hm y (List.mem_cons_of_mem _ (List.mem_cons_self _ _))
    rcases hs with hs | hs | hs
    · rw [hs] at hl; simp at hl
    · rw [hs] at hx hy; simp at hx hy; rw [hx, hy]; simp
    · rw [hs] at hl; simp at hl
  | _ :: _ :: _ :: _, _, hl =>
    rcases hs with hs | hs | hs <;> rw [hs] at hl <;> simp at hl

namespace filepath

/-- The base name of a path is `.`, `/`, or a non-empty text without slash. -/
theorem baseChars_cases (p : List Char) :
    baseChars p = ['.'] ∨ baseChars p = ['/'] ∨ (baseChars p ≠ [] ∧ '/' ∉ baseChars p) := by
  by_cases hp : p = []
  · left; simp [baseChars, hp]
  · cases hd : p.reverse.dropWhile (fun c => c == '/') with
    | nil =>
      right; left
      simp [baseChars, hp, hd]
    | cons c m =>
      right; right
      have hc : (c == '/') = false := by
        have := List.head_dropWhile_not (fun c => c == '/') p.reverse
          (by rw [hd]; exact List.cons_ne_nil _ _)
        simpa [hd] using this
      have hb : baseChars p = ((c :: m).takeWhile (fun c => c != '/')).reverse := by
        simp [baseChars, hp, hd]
      rw [hb]
      constructor
      · have hc2 : (c != '/') = true := by simpa [bne] using hc
        rw [List.takeWhile_cons, if_pos hc2]
        simp
      · intro hmem
        have := List.mem_takeWhile_imp (List.mem_reverse.1 hmem)
        simp at this

theorem cleanChars_trailing_slash (p : List Char) (hp : p ≠ []) :
    cleanChars (p ++ ['/']) = cleanChars p := by
  have hh : (p ++ ['/']).head? = p.head? := by
    cases p with
    | nil => exact absurd rfl hp
    | cons c p => rfl
  have hs : splitSlash (p ++ ['/']) = splitSlash p ++ [[]] := by
    have := splitSlash_append p []
    simpa [splitSlash] using this
  unfold cleanChars
  rw [if_neg (by simp), if_neg hp, hh, hs, cleanComps_append]
  simp [cleanComps]

theorem Join_trailing_slash (dir name : String) (hn : name ≠ "") :
    Join dir (name ++ "/") = Join dir name := by
  have hn2 : name ++ "/" ≠ "" := by
    intro e
    have := congrArg String.data e
    simp at this
  unfold Join
  by_cases hd : dir = ""
  · simp only [hd, ne_eq, not_true_eq_false, if_false, hn, hn2, not_false_eq_true, if_true,
      Clean]
    have hd0 : name.data ≠ [] := fun e => hn (String.ext e)
    have := cleanChars_trailing_slash name.data hd0
    rw [← this]
    simp
  · simp only [ne_eq, hd, not_false_eq_true, if_true, Clean]
    have := cleanChars_trailing_slash (dir.data ++ '/' :: name.data) (by simp)
    rw [← this]
    simp

end filepath

theorem strings.Contains_empty (s t : String) (h : t = "") : strings.Contains s t = true := by
  rw [h]
  exact Chars.contains_nil _

theorem strings.Contains_of_HasPrefix (s p r : String) (h : strings.HasPrefix s (p ++ r) = true) :
    strings.Contains s p = true := by
  obtain ⟨q, hq⟩ := (strings.HasPrefix_iff _ _).1 h
  refine (Chars.contains_iff _ _).2 ⟨[], r.data ++ q, ?_⟩
  rw [hq, String.data_append]
  simp

/-- A name `<taskID>_<x>` without slash is a valid file name. -/
theorem prefixed_valid (t x : String) (ht : '/' ∉ t.data) (hx : '/' ∉ x.data) :
    ValidName (t ++ "_" ++ x) := by
  have hd : (t ++ "_" ++ x).data = t.data ++ '_' :: x.data := by
    simp [String.data_append]
  have hu : '_' ∈ (t ++ "_" ++ x).data := by rw [hd]; simp
  refine ⟨?_, ?_, ?_, ?_⟩
  · intro e; rw [e] at hu; simp at hu
  · rw [hd]
    intro hm
    rcases List.mem_append.1 hm with h | h
    · exact ht h
    · rcases List.mem_cons.1 h with h | h
      · exact absurd h (by decide)
      · exact hx h
  · intro e; rw [e] at hu; simp at hu
  · intro e; rw [e] at hu; simp at hu

/-- The base name of `Join dir (<taskID>_<x>)` starts with `<taskID>_` when the
task ID holds no slash and `x` is the base name of some path. -/
theorem Base_Join_prefixed (dir t : String) (p : List Char) (ht : '/' ∉ t.data) :
    strings.HasPrefix (filepath.Base (filepath.Join dir (t ++ "_" ++ String.mk (filepath.baseChars p))))
      (t ++ "_") = true := by
  have hvalid : ∀ x : String, '/' ∉ x.data →
      strings.HasPrefix (filepath.Base (filepath.Join dir (t ++ "_" ++ x))) (t ++ "_") = true := by
    intro x hx
    rw [(filepath.Base_Join dir _ (prefixed_valid t x ht hx)).1]
    exact strings.HasPrefix_append _ _
  rcases filepath.baseChars_cases p with h | h | h
  · rw [h]; exact hvalid _ (by simp)
  · rw [h]
    have e : t ++ "_" ++ String.mk ['/'] = (t ++ "_" ++ "") ++ "/" := by
      apply String.ext; simp [String.data_append]
    have hne : t ++ "_" ++ "" ≠ "" := by
      intro e2
      have := congrArg String.data e2
      simp [String.data_append] at this
    rw [e, filepath.Join_trailing_slash _ _ hne]
    exact hvalid "" (by simp)
  · exact hvalid _ h.2

/-- The text after `%s` in the format of the default template, formatted with
no operand left: each `%(` becomes `%!((MISSING)`. -/
theorem fmt.Sprintf_template :
    fmt.Sprintf "_%(title)s.%(ext)s" = "_%!((MISSING)title)s.%!((MISSING)ext)s" := by
  decide

/-- The base name of the output template starts with `<TaskID>_` when the
task ID holds no slash. -/
theorem outputTemplate_base (cfg : Config) (req : DownloadRequest) (ht : '/' ∉ req.TaskID.data) :
    strings.HasPrefix (filepath.Base (outputTemplate cfg req)) (req.TaskID ++ "_") = true := by
  unfold outputTemplate
  by_cases ho : req.Output = ""
  · rw [if_neg (by simp [ho]), fmt.Sprintf_template]
    have e : req.TaskID ++ "_%!((MISSING)title)s.%!((MISSING)ext)s" =
        req.TaskID ++ "_" ++ "%!((MISSING)title)s.%!((MISSING)ext)s" := by
      rw [String.append_assoc]
      rfl
    rw [e, (filepath.Base_Join cfg.OutputDir _
      (prefixed_valid req.TaskID "%!((MISSING)title)s.%!((MISSING)ext)s" ht (by decide))).1]
    exact strings.HasPrefix_append _ _
  · rw [if_pos ho]
    exact Base_Join_prefixed _ _ _ ht

/-- The last step of `Download` keeps the task ID in the base name: the
checked path, the same name under the output directory, and the output
template all have a base name that contains it. -/
theorem accessiblePath_base (cfg : Config) (sys : System) (req : DownloadRequest)
    (found : String)
    (hid : req.TaskID ≠ "." ∧ req.TaskID ≠ ".." ∧ req.TaskID ≠ "/")
    (hc : strings.Contains (filepath.Base found) req.TaskID = true) :
    strings.Contains (filepath.Base (accessiblePath cfg sys req found)) req.TaskID = true := by
  by_cases he : req.TaskID = ""
  · exact strings.Contains_empty _ _ he
  · have hspecial : ¬ ((filepath.Base found).data = ['.'] ∨ (filepath.Base found).data = ['.', '.'] ∨
        (filepath.Base found).data = ['/']) := by
      intro hs
      rcases Chars.contains_special _ _ hs hc with h | h | h | h
      · exact he (String.ext h)
      · exact hid.1 (String.ext h)
      · exact hid.2.1 (String.ext h)
      · exact hid.2.2 (String.ext h)
    have hvalid : ValidName (filepath.Base found) := by
      rcases filepath.baseChars_cases found.data with h | h | h
      · exact absurd (Or.inl h) hspecial
      · exact absurd (Or.inr (Or.inr h)) hspecial
      · exact ⟨h.1, h.2, fun e => hspecial (Or.inl e), fun e => hspecial (Or.inr (Or.inl e))⟩
    have ht : '/' ∉ req.TaskID.data := fun hm => hvalid.2.1 (Chars.contains_mem _ _ hc _ hm)
    unfold accessiblePath
    cases sys.Stat found with
    | none => exact hc
    | some e1 =>
      cases h2 : sys.Stat (filepath.Join cfg.OutputDir (filepath.Base found)) with
      | none =>
        simp only [h2]
        rw [(filepath.Base_Join _ _ hvalid).1]
        exact hc
      | some e2 =>
        simp only [h2]
        exact strings.Contains_of_HasPrefix _ _ _ (outputTemplate_base cfg req ht)

/-- C12: a transfer of `Download` (for a URL it handles itself) exits with
status zero and no line announced a destination. Then the path is looked up
with `findActualFile`: its error makes `Download` return an error, and so does
a found file whose base name does not contain the task ID. Every path returned
without error comes from a found file that passed this check, and its base
name contains the task ID (for a task ID other than `.`, `..` and `/`). -/
theorem Download_recovered_path (cfg : Config) (sys : System) (run : ProcessRun)
    (DownloadDouyin : DownloadRequest → Resolution) (req : DownloadRequest)
    (hb : strings.Contains req.URL "bilibili.com" = false)
    (hd : (strings.Contains req.URL "douyin.com" || strings.Contains req.URL "v.douyin.com") =
      false)
    (hpath : cfg.YtDlpPath ≠ "") (hstat : sys.Stat cfg.YtDlpPath = none)
    (hout : run.StdoutPipe = none) (herr : run.StderrPipe = none) (hstart : run.Start = none)
    (hwait : run.Wait = none)
    (hsilent : (run.lines.foldl noteLine {}).actualFilePath = "")
    (hid : req.TaskID ≠ "." ∧ req.TaskID ≠ ".." ∧ req.TaskID ≠ "/") :
    (∀ e, (findActualFile cfg.OutputDir sys (outputTemplate cfg req)).result = Except.error e →
      (Download cfg sys run DownloadDouyin req).result =
        Except.error ("下载可能失败，无法找到下载的文件: " ++ e)) ∧
    (∀ found,
      (findActualFile cfg.OutputDir sys (outputTemplate cfg req)).result = Except.ok found →
      strings.Contains (filepath.Base found) req.TaskID = false →
      (Download cfg sys run DownloadDouyin req).result =
        Except.error "下载失败，找到的文件与当前任务不匹配") ∧
    (∀ p, (Download cfg sys run DownloadDouyin req).result = Except.ok p →
      (∃ found,
        (findActualFile cfg.OutputDir sys (outputTemplate cfg req)).result = Except.ok found ∧
        strings.Contains (filepath.Base found) req.TaskID = true ∧
        p = accessiblePath cfg sys req found) ∧
      strings.Contains (filepath.Base p) req.TaskID = true) := by
  have hres : (Download cfg sys run DownloadDouyin req).result =
      (match (findActualFile cfg.OutputDir sys (outputTemplate cfg req)).result with
        | Except.error e => Except.error ("下载可能失败，无法找到下载的文件: " ++ e)
        | Except.ok found =>
          if strings.Contains (filepath.Base found) req.TaskID = true then
            Except.ok (accessiblePath cfg sys req found)
          else Except.error "下载失败，找到的文件与当前任务不匹配") := by
    unfold Download
    rw [if_neg (by simp [hb]), if_neg (by simp only [hd]; exact Bool.false_ne_true),
      if_neg hpath, hstat]
    simp only [Option.isSome_none, Bool.false_eq_true, if_false, hout, herr, hstart, hwait,
      hsilent, if_true]
    cases hf : (findActualFile cfg.OutputDir sys (outputTemplate cfg req)).result with
    | error e => rfl
    | ok found =>
      by_cases hc : strings.Contains (filepath.Base found) req.TaskID = true
      · simp [hc]
      · simp [hc]
  refine ⟨?_, ?_, ?_⟩
  · intro e he
    rw [hres, he]
  · intro found hf hc
    rw [hres, hf]
    simp [hc]
  · intro p hp
    rw [hres] at hp
    cases hf : (findActualFile cfg.OutputDir sys (outputTemplate cfg req)).result with
    | error e =>
      rw [hf] at hp
      exact Except.noConfusion hp
    | ok found =>
      rw [hf] at hp
      by_cases hc : strings.Contains (filepath.Base found) req.TaskID = true
      · simp only [hc, if_true] at hp
        have hp2 : accessiblePath cfg sys req found = p := Except.ok.inj hp
        refine ⟨⟨found, rfl, hc, hp2.symm⟩, ?_⟩
        rw [← hp2]
        exact accessiblePath_base cfg sys req found hid hc
      · simp only [hc] at hp
        exact Except.noConfusion hp

/-- Witness of C12: the transfer of task `T1` prints no destination and the
directory holds `T1_video.mp4`; that file is returned. -/
theorem Download_recovered_path_witness :
    (Download { YtDlpPath := "/usr/bin/yt-dlp", OutputDir := "./downloads" }
        (systemWith resolutionListing 0 true true) silentRun
        (fun _ => { result := Except.error "" })
        { URL := "https://example.com/v", TaskID := "T1" }).result =
      Except.ok "downloads/T1_video.mp4" ∧
    strings.Contains (filepath.Base "downloads/T1_video.mp4") "T1" = true :=
  ⟨rfl, ((Download_recovered_path { YtDlpPath := "/usr/bin/yt-dlp", OutputDir := "./downloads" }
      (systemWith resolutionListing 0 true true) silentRun
      (fun _ => { result := Except.error "" })
      { URL := "https://example.com/v", TaskID := "T1" } (by decide) (by decide) (by decide)
      rfl rfl rfl rfl rfl rfl (by decide)).2.2 "downloads/T1_video.mp4" rfl).2⟩

/-- C13: the argument lists of `Download` and `DownloadBilibili` end in `-o`,
the output template and the URL. For a task ID without slash the base name of
the template starts with `<TaskID>_`; when the request names an output path
the template is `Join(Dir(Output), <TaskID>_ ++ Base(Output))`. -/
theorem outputTemplate_prefixed (cfg : Config) (sys : System) (req : DownloadRequest)
    (ht : '/' ∉ req.TaskID.data) :
    (∃ pre, downloadArgs cfg sys req = pre ++ ["-o", outputTemplate cfg req, req.URL]) ∧
    (∃ pre, bilibiliArgs cfg sys req = pre ++ ["-o", outputTemplate cfg req, req.URL]) ∧
    strings.HasPrefix (filepath.Base (outputTemplate cfg req)) (req.TaskID ++ "_") = true ∧
    (req.Output ≠ "" → outputTemplate cfg req =
      filepath.Join (filepath.Dir req.Output) (req.TaskID ++ "_" ++ filepath.Base req.Output)) := by
  refine ⟨?_, ?_, outputTemplate_base cfg req ht, ?_⟩
  · unfold downloadArgs
    exact ⟨_, List.append_assoc _ _ _⟩
  · unfold bilibiliArgs
    exact ⟨_, List.append_assoc _ _ _⟩
  · intro ho
    unfold outputTemplate
    rw [if_pos ho]

/-- Witness of C13: task `T1` with the output path `videos/clip.mp4` gets the
template `videos/T1_clip.mp4`. -/
theorem outputTemplate_prefixed_witness :
    outputTemplate { YtDlpPath := "/usr/bin/yt-dlp", OutputDir := "./downloads" }
      { URL := "https://example.com/v", TaskID := "T1", Output := "videos/clip.mp4" } =
      "videos/T1_clip.mp4" ∧
    strings.HasPrefix (filepath.Base "videos/T1_clip.mp4") "T1_" = true :=
  ⟨rfl, (outputTemplate_prefixed { YtDlpPath := "/usr/bin/yt-dlp", OutputDir := "./downloads" }
      (systemWith [] 0 true true)
      { URL := "https://example.com/v", TaskID := "T1", Output := "videos/clip.mp4" }
      (by decide)).2.2.1⟩

/-! ## The outcome a worker records -/

theorem String.append_ne_empty_left (a b : String) (h : a ≠ "") : a ++ b ≠ "" := by
  intro e
  have h1 := congrArg String.data e
  rw [String.data_append] at h1
  have h2 : a.data = [] := (List.append_eq_nil.1 h1).1
  exact h (String.ext h2)

/-- C15: the worker of task `id` gets `result` from the transfer driver and
`processYtdlpDownload` writes the outcome to the task record. The record is
then `failed` or `completed`. For an error of the driver it is `failed` with
that error text; for a returned path that `os.Stat` does not find it is
`failed` with a non-empty error text; otherwise it is `completed` with
progress 100 and the final path (after the rename attempt and the sibling
remux) as file, whatever `os.Rename` answers. -/
theorem processYtdlpDownload_outcome (s : Service) (id : String) (sys : System)
    (result : Except String String) (now : Time) (download : DownloadResponse)
    (hworker : id ∈ s.workers) (hrecord : s.records id = some download) :
    ∃ s1 d, s.step (Op.finish id sys result now) = some s1 ∧ s1.records id = some d ∧
      (d.Status = StatusFailed ∨ d.Status = StatusCompleted) ∧
      (∀ err, result = Except.error err → d.Status = StatusFailed ∧ d.Error = err) ∧
      (∀ actualFile fileErr, result = Except.ok actualFile →
        sys.Stat actualFile = some fileErr → d.Status = StatusFailed ∧ d.Error ≠ "") ∧
      (∀ actualFile, result = Except.ok actualFile → sys.Stat actualFile = none →
        d.Status = StatusCompleted ∧ d.Progress = 100 ∧
        d.File = mergeSibling sys id (normalizeName sys id actualFile) ∧
        d.Status ≠ StatusFailed) := by
  have hstep : ∃ s1, s.step (Op.finish id sys result now) = some s1 ∧
      s1.records id = some (finishDownload sys id download result now) := by
    simp only [Service.step, if_pos hworker]
    refine ⟨_, rfl, ?_⟩
    have hb := (Service.broadcastProgress_fields
      (s.write id (fun d => finishDownload sys id d result now)) id).1
    show (Service.broadcastProgress
      (s.write id (fun d => finishDownload sys id d result now)) id).records id = _
    rw [hb]
    simp [Service.write, hrecord]
  obtain ⟨s1, h1, h2⟩ := hstep
  refine ⟨s1, _, h1, h2, ?_, ?_, ?_, ?_⟩
  · exact (finishDownload_status sys id download result now).symm
  · intro err he
    subst he
    exact ⟨rfl, rfl⟩
  · intro actualFile fileErr he hs
    subst he
    simp only [finishDownload, hs]
    exact ⟨trivial, String.append_ne_empty_left _ _ (by decide)⟩
  · intro actualFile he hs
    subst he
    simp only [finishDownload, hs]
    exact ⟨trivial, trivial, trivial, by decide⟩

/-- Witness of C15: the driver returns a path that exists and whose base name
lacks the task ID, and `os.Rename` fails; the task is completed with the
unrenamed path. -/
theorem processYtdlpDownload_outcome_witness :
    ∃ s1 d, busyService.step
        (Op.finish "t1" noRenameSystem (Except.ok "downloads/clip.mp4") 40) = some s1 ∧
      s1.records "t1" = some d ∧ d.Status = StatusCompleted ∧ d.Progress = 100 ∧
      d.File = "downloads/clip.mp4" := by
  obtain ⟨s1, d, h1, h2, _, _, _, h3⟩ := processYtdlpDownload_outcome busyService "t1"
    noRenameSystem (Except.ok "downloads/clip.mp4") 40
    { ID := "t1", Status := StatusDownloading, Updated := 30 } (by decide) rfl
  obtain ⟨h4, h5, h6, _⟩ := h3 "downloads/clip.mp4" rfl rfl
  exact ⟨s1, d, h1, h2, h4, h5, h6.trans (by decide)⟩

/-! ## Admission and clearing -/

/-- C16: `CreateDownload` for a well-formed request, with a newly generated
identifier under which no record exists. The registry gains the task under
that identifier, with status `pending`, progress 0 and empty error text; the
reply is status 200 with that task; every other identifier keeps the task it
had (or none). -/
theorem CreateDownload_adds_task (s : Service) (id : String) (req : DownloadRequest)
    (now : Time) (hfresh : s.records id = none) :
    s.task id = none ∧
    ∃ s1 d, s.CreateDownload id req now = some (s1, 200, d) ∧
      s1.task id = some d ∧
      d.ID = id ∧ d.Status = StatusPending ∧ d.Progress = 0 ∧ d.Error = "" ∧
      ∀ k, k ≠ id → s1.task k = s.task k := by
  constructor
  · unfold Service.task
    rw [hfresh]
    simp
  · simp only [Service.CreateDownload, Service.step, hfresh, Option.isSome_none,
      Bool.false_eq_true, if_false]
    refine ⟨_, _, rfl, ?_, rfl, rfl, rfl, rfl, ?_⟩
    · simp [Service.task]
    · intro k hk
      simp [Service.task, hk]

/-- Witness of C16: the first task of a new service. -/
theorem CreateDownload_adds_task_witness :
    ∃ s1 d, NewService.CreateDownload "t1" { URL := "https://example.com/x" } 10 =
        some (s1, 200, d) ∧
      s1.task "t1" = some d ∧ d.Status = StatusPending ∧ d.Progress = 0 ∧ d.Error = "" := by
  obtain ⟨_, s1, d, h1, h2, _, h3, h4, h5, _⟩ :=
    CreateDownload_adds_task NewService "t1" { URL := "https://example.com/x" } 10 rfl
  exact ⟨s1, d, h1, h2, h3, h4, h5⟩

/-- C17: `ClearDownloads` leaves a registry without tasks and replies with
status 200; it is the step `ClearDownloads` of the service; applied to its own
result it returns the same state and the same reply. -/
theorem ClearDownloads_idempotent (s : Service) :
    (∀ k, s.ClearDownloads.1.task k = none) ∧
    s.ClearDownloads.2 = (200, "已清空所有下载记录") ∧
    s.step Op.ClearDownloads = some s.ClearDownloads.1 ∧
    s.ClearDownloads.1.ClearDownloads = s.ClearDownloads :=
  ⟨fun _ => rfl, rfl, rfl, rfl⟩

/-! ## Delivery to the observers -/

theorem deliver_fold {Conn : Type} [DecidableEq Conn]
    (WriteJSON : Conn → ProgressMessage → Bool) (message : ProgressMessage)
    (l : List Conn) (st : Delivery Conn) :
    (l.foldl (deliverStep WriteJSON message) st).writes =
      st.writes ++ l.map (fun c => (c, message)) ∧
    (l.foldl (deliverStep WriteJSON message) st).wsClients =
      st.wsClients.filter (fun c => c ∉ l ∨ WriteJSON c message = true) := by
  induction l generalizing st with
  | nil => simp
  | cons c l ih =>
    rw [List.foldl_cons]
    obtain ⟨h1, h2⟩ := ih (deliverStep WriteJSON message st c)
    have hsw : (deliverStep WriteJSON message st c).writes = st.writes ++ [(c, message)] := by
      unfold deliverStep
      split
      · rfl
      · rfl
    have hsc : (deliverStep WriteJSON message st c).wsClients =
        st.wsClients.filter (fun x => x ≠ c ∨ WriteJSON c message = true) := by
      unfold deliverStep
      cases hw : WriteJSON c message with
      | true => simp
      | false => simp
    rw [h1, h2, hsw, hsc, List.filter_filter]
    constructor
    · simp
    · apply List.filter_congr
      intro x _
      by_cases hx : x = c
      · subst hx
        cases hw : WriteJSON x message <;> simp
      · simp [hx]

/-- C18: the loop of `broadcastProgress` over an observer set. The writes it
attempts are one per observer, in the order of the loop and each with the
message built from the task record, so every observer of the set gets exactly
one write and nobody else gets any; the set that remains holds exactly the
observers whose write succeeded. -/
theorem broadcastProgress_delivery {Conn : Type} [DecidableEq Conn]
    (WriteJSON : Conn → ProgressMessage → Bool) (id : String) (download : DownloadResponse)
    (wsClients : List Conn) (hset : wsClients.Nodup) :
    (deliver WriteJSON id download wsClients).writes =
      wsClients.map (fun c => (c, progressMessage id download)) ∧
    (∀ c, ((deliver WriteJSON id download wsClients).writes.map Prod.fst).count c =
      if c ∈ wsClients then 1 else 0) ∧
    (∀ c, c ∈ (deliver WriteJSON id download wsClients).wsClients ↔
      c ∈ wsClients ∧ WriteJSON c (progressMessage id download) = true) ∧
    (deliver WriteJSON id download wsClients).wsClients.Nodup := by
  obtain ⟨h1, h2⟩ := deliver_fold WriteJSON (progressMessage id download) wsClients
    { wsClients := wsClients }
  have hw : (deliver WriteJSON id download wsClients).writes =
      wsClients.map (fun c => (c, progressMessage id download)) := by
    unfold deliver
    rw [h1]
    rfl
  have hc : (deliver WriteJSON id download wsClients).wsClients =
      wsClients.filter (fun c => c ∉ wsClients ∨ WriteJSON c (progressMessage id download) = true) := by
    unfold deliver
    rw [h2]
  refine ⟨hw, ?_, ?_, ?_⟩
  · intro c
    rw [hw, List.map_map]
    have : (Prod.fst ∘ fun c => (c, progressMessage id download)) = (fun c : Conn => c) := rfl
    rw [this, List.map_id']
    by_cases hmem : c ∈ wsClients
    · rw [if_pos hmem]
      exact List.count_eq_one_of_mem hset hmem
    · rw [if_neg hmem]
      exact List.count_eq_zero_of_not_mem hmem
  · intro c
    rw [hc, List.mem_filter]
    constructor
    · rintro ⟨hm, hx⟩
      refine ⟨hm, ?_⟩
      simp only [decide_eq_true_eq] at hx
      rcases hx with hx | hx
      · exact absurd hm hx
      · exact hx
    · rintro ⟨hm, hx⟩
      exact ⟨hm, by simp [hx]⟩
  · rw [hc]
    exact hset.filter _

/-- Witness of C18: three observers, the write to the second one fails; all
three get the message once and the first and third remain. -/
theorem broadcastProgress_delivery_witness :
    (deliver (fun (c : Nat) _ => c ≠ 2) "t1" { ID := "t1", Progress := 50 } [1, 2, 3]).writes =
      [1, 2, 3].map (fun c => (c, progressMessage "t1" { ID := "t1", Progress := 50 })) ∧
    ∀ c, c ∈ (deliver (fun (c : Nat) _ => c ≠ 2) "t1" { ID := "t1", Progress := 50 }
        [1, 2, 3]).wsClients ↔ c ∈ [1, 2, 3] ∧ decide (c ≠ 2) = true :=
  ⟨(broadcastProgress_delivery (fun (c : Nat) _ => c ≠ 2) "t1" { ID := "t1", Progress := 50 }
      [1, 2, 3] (by decide)).1,
   (broadcastProgress_delivery (fun (c : Nat) _ => c ≠ 2) "t1" { ID := "t1", Progress := 50 }
      [1, 2, 3] (by decide)).2.2.1⟩

/-! ## The order of waiting in the transfer drivers -/

theorem Driver.step_keeps_inv (d d1 : Driver) (a : Act) (hinv : d.Inv) (h : d.step a = some d1) :
    d1.Inv := by
  obtain ⟨h1, h2, h3⟩ := hinv
  cases a with
  | write =>
    simp only [Driver.step] at h
    cases hw : d.toWrite with
    | nil => rw [hw] at h; exact Option.noConfusion h
    | cons x rest =>
      rw [hw] at h
      have e := (Option.some.inj h).symm
      subst e
      exact ⟨h1, h2, h3⟩
  | exit =>
    simp only [Driver.step] at h
    split at h
    · have e := (Option.some.inj h).symm
      subst e
      refine ⟨h1, fun hp => ⟨rfl, (h2 hp).2⟩, h3⟩
    · exact Option.noConfusion h
  | read st =>
    simp only [Driver.step] at h
    split at h
    · cases hp : d.pipe st with
      | nil => rw [hp] at h; exact Option.noConfusion h
      | cons line rest =>
        rw [hp] at h
        have e := (Option.some.inj h).symm
        subst e
        exact ⟨h1, h2, h3⟩
    · exact Option.noConfusion h
  | stop st =>
    simp only [Driver.step] at h
    split at h
    · have e := (Option.some.inj h).symm
      subst e
      refine ⟨fun hp => ?_, h2, h3⟩
      obtain ⟨ha, hb⟩ := h1 hp
      constructor
      · show (if Stream.stdout = st then true else d.done Stream.stdout) = true
        split
        · rfl
        · exact ha
      · show (if Stream.stderr = st then true else d.done Stream.stderr) = true
        split
        · rfl
        · exact hb
    · exact Option.noConfusion h
  | caller =>
    simp only [Driver.step] at h
    cases hpc : d.pc with
    | awaitExit =>
      rw [hpc] at h
      simp only at h
      split at h
      · rename_i hex
        have e := (Option.some.inj h).symm
        subst e
        exact ⟨fun hp => Pc.noConfusion hp, fun _ => ⟨hex, rfl⟩, fun _ hp => Pc.noConfusion hp⟩
      · exact Option.noConfusion h
    | joinReaders =>
      rw [hpc] at h
      simp only at h
      split at h
      · rename_i hdone
        have e := (Option.some.inj h).symm
        subst e
        refine ⟨fun _ => hdone, fun _ => h2 (by rw [hpc]; exact Pc.noConfusion),
          fun _ hp => Pc.noConfusion hp⟩
      · exact Option.noConfusion h
    | returned =>
      rw [hpc] at h
      exact Option.noConfusion h

theorem Driver.run_keeps_inv (acts : List Act) :
    ∀ d d1 : Driver, d.Inv → d.run acts = some d1 → d1.Inv := by
  induction acts with
  | nil =>
    intro d d1 hinv h
    have e := (Option.some.inj h).symm
    subst e
    exact hinv
  | cons a acts ih =>
    intro d d1 hinv h
    simp only [Driver.run] at h
    cases hs : d.step a with
    | none => rw [hs] at h; exact Option.noConfusion h
    | some d2 =>
      rw [hs] at h
      exact ih d2 d1 (Driver.step_keeps_inv d d2 a hinv hs) h

/-- The drivers never return before both readers have finished: in every
course of a transfer, a caller that is past `wg.Wait()` has both readers
returned, and it went through `cmd.Wait()` first. -/
theorem Driver.returns_after_readers (toWrite : List (Stream × String)) (acts : List Act)
    (d : Driver) (h : Driver.run { toWrite := toWrite } acts = some d)
    (hpc : d.pc = Pc.returned) :
    d.done Stream.stdout = true ∧ d.done Stream.stderr = true ∧ d.exited = true ∧
      d.closed = true := by
  have hinv : Driver.Inv { toWrite := toWrite } :=
    ⟨fun hp => Pc.noConfusion hp, fun hp => absurd rfl hp, fun hc => Bool.noConfusion hc⟩
  obtain ⟨h1, h2, _⟩ := Driver.run_keeps_inv acts _ d hinv h
  have h3 := h2 (by rw [hpc]; exact Pc.noConfusion)
  exact ⟨(h1 hpc).1, (h1 hpc).2, h3.1, h3.2⟩

/-- C19: the exit status is awaited before the readers are joined. In the
transfer `hastyActs` the process writes a destination line and exits; the
caller leaves `cmd.Wait()`, which closes the pipes, while no reader has
returned and the line is still in the pipe; both readers then stop, the caller
leaves `wg.Wait()`, and the line was never handled. -/
theorem driver_awaits_exit_before_join :
    (hastyStart.run (hastyActs.take 3)).map
        (fun d => (decide (d.pc = Pc.joinReaders), d.closed, d.done Stream.stdout,
          d.done Stream.stderr, d.pipe Stream.stdout)) =
      some (true, true, false, false, ["[download] Destination: downloads/T1_clip.mp4"]) ∧
    (hastyStart.run hastyActs).map
        (fun d => (decide (d.pc = Pc.returned), d.done Stream.stdout, d.done Stream.stderr,
          d.seen)) =
      some (true, true, true, []) := by
  constructor
  · rfl
  · rfl

/-! ## Extraction failures -/

theorem strings.Contains_of_Contains_append (s a b : String)
    (h : strings.Contains s (a ++ b) = true) : strings.Contains s b = true := by
  obtain ⟨x, r, hx⟩ := (Chars.contains_iff _ _).1 h
  refine (Chars.contains_iff _ _).2 ⟨x ++ a.data, r, ?_⟩
  rw [hx, String.data_append]
  simp

theorem convertDouyinUrl_douyin (url : String)
    (h : strings.Contains url "douyin.com" = true) :
    strings.Contains (convertDouyinUrl url) "douyin.com" = true := by
  unfold convertDouyinUrl
  split
  · exact h
  · split
    · split
      · exact strings.Contains_infix "https://www." "douyin.com" _
      · exact h
    · exact h

theorem douyin_of_short (url : String) (h : strings.Contains url "v.douyin.com" = true) :
    strings.Contains url "douyin.com" = true :=
  strings.Contains_of_Contains_append url "v." "douyin.com" h

theorem extractionUrl_douyin (url : String) (h : strings.Contains url "douyin.com" = true) :
    strings.Contains (extractionUrl url) "douyin.com" = true := by
  unfold extractionUrl
  split
  · exact h
  · split
    · exact h
    · split
      · exact convertDouyinUrl_douyin url h
      · exact h

/-- The variable `url` at the failure branch holds `douyin.com` exactly when
the URL of the call does, and is that URL when it does not. -/
theorem extractionUrl_preUrl (url : String) :
    (strings.Contains url "douyin.com" = true →
      strings.Contains (extractionUrl (preUrl url)) "douyin.com" = true) ∧
    (strings.Contains url "douyin.com" = false → extractionUrl (preUrl url) = url) := by
  constructor
  · intro h
    apply extractionUrl_douyin
    unfold preUrl
    rw [h]
    exact convertDouyinUrl_douyin url h
  · intro h
    have hv : strings.Contains url "v.douyin.com" = false := by
      cases hc : strings.Contains url "v.douyin.com" with
      | false => rfl
      | true => rw [douyin_of_short url hc] at h; exact Bool.noConfusion h
    have hp : preUrl url = url := by
      unfold preUrl
      rw [h, hv]
      rfl
    rw [hp]
    unfold extractionUrl
    rw [h, hv]
    simp

theorem GetVideoInfo_reaches_extraction (cfg : Config) (env : Extractor) (url : String)
    (h : directReturns env url = false) :
    GetVideoInfo cfg env url = runExtraction cfg env (preUrl url) := by
  unfold GetVideoInfo preUrl
  by_cases hd : (strings.Contains url "douyin.com" || strings.Contains url "v.douyin.com") = true
  · rw [if_pos hd, if_pos hd]
    unfold directReturns at h
    rw [hd, Bool.true_and, Bool.or_eq_false_iff] at h
    obtain ⟨h1, h2⟩ := h
    have hn : ¬ ((env.getDouyinRealUrl (convertDouyinUrl url)).2.2 = none ∧
        (env.getDouyinRealUrl (convertDouyinUrl url)).1 ≠ "") := by
      rintro ⟨he, hv⟩
      rw [he] at h1
      simp [hv] at h1
    simp only []
    rw [if_neg hn, h2]
    simp
  · rw [if_neg hd, if_neg hd]

theorem failureInfo_fields (url err errMsg : String) :
    (failureInfo url err errMsg).CanDownload = false ∧
    (failureInfo url err errMsg).SpecialNote ≠ "" ∧
    (failureInfo url err errMsg).Solutions ≠ [] ∧
    (failureInfo url err errMsg).ErrorType =
      (if strings.Contains errMsg "douyin" || strings.Contains url "douyin.com" then
        "douyin_access"
      else if strings.Contains errMsg "bilibili" || strings.Contains url "bilibili.com" then
        "bilibili_access"
      else "general_error") := by
  unfold failureInfo
  by_cases h1 : (strings.Contains errMsg "douyin" || strings.Contains url "douyin.com") = true
  · simp only [h1, if_true]
    exact ⟨by trivial, by decide, by simp, by trivial⟩
  · by_cases h2 :
      (strings.Contains errMsg "bilibili" || strings.Contains url "bilibili.com") = true
    · simp only [h1, h2, if_true, if_false]
      exact ⟨by trivial, by decide, by simp, by trivial⟩
    · simp only [h1, h2, if_false]
      exact ⟨by trivial, by decide, by simp, by trivial⟩

/-- C20: `GetVideoInfo` reaches the extraction process (the tool is configured
and present, the douyin pre-branch does not return) and the process fails
with captured standard error `stderr`. Then a descriptor is returned with
`CanDownload` false, a special note, a non-empty list of solutions and the
error type `douyin_access` when `stderr` contains `douyin` or the URL contains
`douyin.com`, else `bilibili_access` when `stderr` contains `bilibili` or the
URL contains `bilibili.com`, else `general_error`; and the error returned with
it has a message that contains `stderr`. -/
theorem GetVideoInfo_failed_extraction (cfg : Config) (env : Extractor) (url err stderr : String)
    (hpath : cfg.YtDlpPath ≠ "") (hstat : env.Stat cfg.YtDlpPath = none)
    (hdirect : directReturns env url = false)
    (hfail : env.Output (extractionArgs cfg (preUrl url)) = Except.error (err, stderr)) :
    ∃ info message, GetVideoInfo cfg env url = (some info, some message) ∧
      info.CanDownload = false ∧ info.SpecialNote ≠ "" ∧ info.Solutions ≠ [] ∧
      info.ErrorType =
        (if strings.Contains stderr "douyin" || strings.Contains url "douyin.com" then
          "douyin_access"
        else if strings.Contains stderr "bilibili" || strings.Contains url "bilibili.com" then
          "bilibili_access"
        else "general_error") ∧
      message = "获取视频信息失败: " ++ err ++ ", stderr: " ++ stderr ∧
      strings.Contains message stderr = true := by
  have hres : GetVideoInfo cfg env url =
      (some (failureInfo (extractionUrl (preUrl url)) err stderr),
        some ("获取视频信息失败: " ++ err ++ ", stderr: " ++ stderr)) := by
    rw [GetVideoInfo_reaches_extraction cfg env url hdirect]
    unfold runExtraction
    rw [if_neg hpath, hstat, hfail]
    rfl
  obtain ⟨h1, h2, h3, h4⟩ := failureInfo_fields (extractionUrl (preUrl url)) err stderr
  refine ⟨_, _, hres, h1, h2, h3, ?_, rfl, strings.Contains_suffix _ _⟩
  rw [h4]
  cases hd : strings.Contains url "douyin.com" with
  | true =>
    rw [(extractionUrl_preUrl url).1 hd]
    simp
  | false =>
    rw [(extractionUrl_preUrl url).2 hd, hd]

/-- Witness of C20: the extraction of a page of another host fails and the
standard error names `bilibili`; the descriptor has the error type
`bilibili_access` and the error carries the standard error. -/
theorem GetVideoInfo_failed_extraction_witness :
    ∃ info, GetVideoInfo { YtDlpPath := "/usr/bin/yt-dlp", OutputDir := "./downloads" }
        (failingExtractor "ERROR: [bilibili] 412") "https://example.com/v" =
        (some info, some "获取视频信息失败: exit status 1, stderr: ERROR: [bilibili] 412") ∧
      info.CanDownload = false ∧ info.ErrorType = "bilibili_access" := by
  obtain ⟨info, message, h1, h2, _, _, h3, h4, _⟩ := GetVideoInfo_failed_extraction
    { YtDlpPath := "/usr/bin/yt-dlp", OutputDir := "./downloads" }
    (failingExtractor "ERROR: [bilibili] 412") "https://example.com/v" "exit status 1"
    "ERROR: [bilibili] 412" (by decide) rfl (by decide) rfl
  refine ⟨info, ?_, h2, h3.trans (by decide)⟩
  rw [h1, h4]
  rfl

/-! ## `parseProgress` and the grammar of progress lines -/

namespace Grammar

open regexp

theorem starThen_skips (p : Char → Bool) (k : List Char → Nat → Option (List Nat))
    (hk : ∀ s pos, k (s.dropWhile p) (pos + (s.takeWhile p).length) = none → k s pos = none) :
    ∀ s pos, starThen p k s pos = k (s.dropWhile p) (pos + (s.takeWhile p).length) := by
  intro s
  induction s with
  | nil => intro pos; simp [starThen]
  | cons c s ih =>
    intro pos
    by_cases hc : p c = true
    · have hd : (c :: s).dropWhile p = s.dropWhile p := by simp [List.dropWhile, hc]
      have ht : ((c :: s).takeWhile p).length = (s.takeWhile p).length + 1 := by
        simp [List.takeWhile, hc]
      have hpos : pos + 1 + (s.takeWhile p).length = pos + ((s.takeWhile p).length + 1) := by
        omega
      have hstep : starThen p k (c :: s) pos =
          (match starThen p k s (pos + 1) with
            | some r => some r
            | none => k (c :: s) pos) := by
        simp [starThen, hc]
      rw [hstep, ih (pos + 1), hd, ht, hpos]
      cases hr : k (s.dropWhile p) (pos + ((s.takeWhile p).length + 1)) with
      | some r => rfl
      | none =>
        have := hk (c :: s) pos (by rw [hd, ht]; exact hr)
        simpa using this
    · have hd : (c :: s).dropWhile p = c :: s := by simp [List.dropWhile, hc]
      have ht : ((c :: s).takeWhile p).length = 0 := by simp [List.takeWhile, hc]
      rw [hd, ht]
      simp [starThen, hc]

/-- For items that are `Det`, the backtracking matcher and the reader that
never goes back give the same result. -/
theorem matchHere_eq_matchAt (items : List Item) (hdet : Det items) :
    ∀ s pos, matchHere items s pos = matchAt items s pos := by
  induction items with
  | nil => intro s pos; rfl
  | cons it rest ih =>
    cases it with
    | mark =>
      intro s pos
      simp only [matchHere, matchAt]
      rw [ih hdet]
    | cls p q =>
      cases q with
      | one =>
        intro s pos
        cases s with
        | nil => rfl
        | cons c s1 =>
          simp only [matchHere, matchAt]
          rw [ih hdet]
      | opt =>
        obtain ⟨hopt, hrest⟩ := hdet
        intro s pos
        cases s with
        | nil =>
          simp only [matchHere, matchAt]
          exact ih hrest [] pos
        | cons c s1 =>
          simp only [matchHere, matchAt]
          rw [ih hrest s1 (pos + 1), ih hrest (c :: s1) pos]
          by_cases hc : p c = true
          · simp only [hc, if_true]
            cases hr : matchAt rest s1 (pos + 1) with
            | some r => rfl
            | none => exact hopt c s1 pos hc hr
          · simp only [hc]
            rfl
      | star =>
        obtain ⟨hskip, hrest⟩ := hdet
        intro s pos
        have hk : (fun s1 pos1 => matchHere rest s1 pos1) = matchAt rest := by
          funext s1 pos1
          exact ih hrest s1 pos1
        simp only [matchHere, matchAt]
        rw [hk]
        exact starThen_skips p (matchAt rest) hskip s pos
      | plus =>
        obtain ⟨hskip, hrest⟩ := hdet
        intro s pos
        have hk : (fun s1 pos1 => matchHere rest s1 pos1) = matchAt rest := by
          funext s1 pos1
          exact ih hrest s1 pos1
        cases s with
        | nil => rfl
        | cons c s1 =>
          simp only [matchHere, matchAt]
          rw [hk]
          by_cases hc : p c = true
          · simp only [hc, if_true]
            exact starThen_skips p (matchAt rest) hskip s1 (pos + 1)
          · simp only [hc]
            rfl

theorem find_eq_find (items : List Item) (hdet : Det items) :
    ∀ s pos, regexp.find items s pos = Grammar.find items s pos := by
  intro s
  induction s with
  | nil =>
    intro pos
    simp only [regexp.find, Grammar.find]
    exact matchHere_eq_matchAt items hdet [] pos
  | cons c s ih =>
    intro pos
    simp only [regexp.find, Grammar.find]
    rw [matchHere_eq_matchAt items hdet (c :: s) pos, ih (pos + 1)]

end Grammar

namespace Grammar

open regexp

theorem dropWhile_twice (p : Char → Bool) (s : List Char) :
    (s.dropWhile p).dropWhile p = s.dropWhile p ∧ (s.dropWhile p).takeWhile p = [] := by
  induction s with
  | nil => simp
  | cons c s ih =>
    by_cases hc : p c = true
    · have hd : (c :: s).dropWhile p = s.dropWhile p := by simp [List.dropWhile, hc]
      rw [hd]
      exact ih
    · have hd : (c :: s).dropWhile p = c :: s := by simp [List.dropWhile, hc]
      rw [hd]
      simp [List.dropWhile, List.takeWhile, hc]

theorem skips_of_rejects (items : List Item) (p : Char → Bool) (h : Rejects items p) :
    Skips items p := by
  intro s pos hnone
  cases s with
  | nil => simpa using hnone
  | cons c s1 =>
    by_cases hc : p c = true
    · exact h c s1 pos hc
    · have hd : (c :: s1).dropWhile p = c :: s1 := by simp [List.dropWhile, hc]
      have ht : ((c :: s1).takeWhile p).length = 0 := by simp [List.takeWhile, hc]
      rw [hd, ht] at hnone
      exact hnone

theorem rejects_mark (rest : List Item) (p : Char → Bool) (h : Rejects rest p) :
    Rejects (Item.mark :: rest) p := by
  intro c s pos hc
  simp only [matchAt, h c s pos hc]
  rfl

theorem rejects_one (rest : List Item) (p q : Char → Bool)
    (hpq : ∀ c, p c = true → q c = false) : Rejects (Item.cls q Quant.one :: rest) p := by
  intro c s pos hc
  simp [matchAt, hpq c hc]

theorem rejects_plus (rest : List Item) (p q : Char → Bool)
    (hpq : ∀ c, p c = true → q c = false) : Rejects (Item.cls q Quant.plus :: rest) p := by
  intro c s pos hc
  simp [matchAt, hpq c hc]

theorem rejects_opt (rest : List Item) (p q : Char → Bool)
    (hpq : ∀ c, p c = true → q c = false) (h : Rejects rest p) :
    Rejects (Item.cls q Quant.opt :: rest) p := by
  intro c s pos hc
  simp [matchAt, hpq c hc, h c s pos hc]

theorem rejects_star (rest : List Item) (p q : Char → Bool)
    (hpq : ∀ c, p c = true → q c = false) (h : Rejects rest p) :
    Rejects (Item.cls q Quant.star :: rest) p := by
  intro c s pos hc
  simp [matchAt, List.dropWhile, List.takeWhile, hpq c hc, h c s pos hc]

/-- A class that excludes the character `x` is disjoint from the class of
`x`, in both directions. -/
theorem class_char (p : Char → Bool) (x : Char) (hx : p x = false) :
    (∀ c, p c = true → (c == x) = false) ∧ (∀ c, (c == x) = true → p c = false) := by
  constructor
  · intro c hp
    cases h : c == x with
    | false => rfl
    | true =>
      have e : c = x := by simpa using h
      rw [e, hx] at hp
      exact Bool.noConfusion hp
  · intro c h
    have e : c = x := by simpa using h
    rw [e]
    exact hx

theorem class_kmg (p : Char → Bool) (hK : p 'K' = false) (hM : p 'M' = false)
    (hG : p 'G' = false) :
    (∀ c, p c = true → (c == 'K' || c == 'M' || c == 'G') = false) ∧
    (∀ c, (c == 'K' || c == 'M' || c == 'G') = true → p c = false) := by
  constructor
  · intro c hp
    rw [(class_char p 'K' hK).1 c hp, (class_char p 'M' hM).1 c hp,
      (class_char p 'G' hG).1 c hp]
    rfl
  · intro c h
    simp only [Bool.or_eq_true] at h
    rcases h with (h | h) | h
    · exact (class_char p 'K' hK).2 c h
    · exact (class_char p 'M' hM).2 c h
    · exact (class_char p 'G' hG).2 c h

theorem space_not_digit : ∀ c, space c = true → digit c = false := by
  intro c h
  simp only [space, Bool.or_eq_true, beq_iff_eq] at h
  rcases h with (((h | h) | h) | h) | h
  · rw [h]; rfl
  · rw [h]; rfl
  · simp [digit, h]
  · rw [h]; rfl
  · rw [h]; rfl

theorem digit_not_space : ∀ c, digit c = true → space c = false := by
  intro c h
  cases hs : space c with
  | false => rfl
  | true =>
    rw [space_not_digit c hs] at h
    exact Bool.noConfusion h

/-- The items after a numeral may be anything that cannot start with a digit
or a dot: then the numeral is read without going back. -/
theorem det_number (K : List Item) (hK : Det K) (hdigit : Rejects K digit)
    (hdot : Rejects K (fun c => c == '.')) : Det (number ++ K) := by
  have hstar : ∀ (s : List Char) (pos : Nat),
      matchAt (Item.cls digit Quant.star :: K) (s.dropWhile digit) pos =
      matchAt K (s.dropWhile digit) pos := by
    intro s pos
    simp only [matchAt]
    rw [(dropWhile_twice digit s).1, (dropWhile_twice digit s).2]
    rfl
  refine ⟨?_, ?_, skips_of_rejects K digit hdigit, hK⟩
  · show Skips (Item.cls (fun c => c == '.') Quant.opt :: Item.cls digit Quant.star :: K) digit
    intro s pos hnone
    cases s with
    | nil => simpa using hnone
    | cons c s1 =>
      by_cases hc : digit c = true
      · have hcd : (c == '.') = false := (class_char digit '.' (by decide)).1 c hc
        have hgoal : matchAt (Item.cls (fun c => c == '.') Quant.opt ::
            Item.cls digit Quant.star :: K) (c :: s1) pos =
            matchAt K ((c :: s1).dropWhile digit)
              (pos + ((c :: s1).takeWhile digit).length) := by
          simp only [matchAt, hcd]
          rfl
        rw [hgoal]
        cases hD : (c :: s1).dropWhile digit with
        | nil =>
          rw [hD] at hnone
          simpa [matchAt] using hnone
        | cons x r =>
          by_cases hx : (x == '.') = true
          · exact hdot x r _ hx
          · have h1 := hstar (c :: s1) (pos + ((c :: s1).takeWhile digit).length)
            rw [hD] at h1 hnone
            rw [← h1]
            simpa [matchAt, hx] using hnone
      · have hd : (c :: s1).dropWhile digit = c :: s1 := by simp [List.dropWhile, hc]
        have ht : ((c :: s1).takeWhile digit).length = 0 := by simp [List.takeWhile, hc]
        rw [hd, ht] at hnone
        exact hnone
  · show ∀ (c : Char) (s : List Char) (pos : Nat), (c == '.') = true →
      matchAt (Item.cls digit Quant.star :: K) s (pos + 1) = none →
      matchAt (Item.cls digit Quant.star :: K) (c :: s) pos = none
    intro c s pos hc _
    exact rejects_star K (fun c => c == '.') digit
      (class_char digit '.' (by decide)).2 hdot c s pos hc

/-- The tail of a size (white space, an optional `K`, `M` or `G`, an optional
`i`, then `B`) is read without going back, and starts with neither a digit
nor a dot. -/
theorem det_unit (X : List Item) (hX : Det X) :
    Det (Item.cls space Quant.star ::
      Item.cls (fun c => c == 'K' || c == 'M' || c == 'G') Quant.opt ::
      Item.cls (fun c => c == 'i') Quant.opt :: lit 'B' :: X) ∧
    Rejects (Item.cls space Quant.star ::
      Item.cls (fun c => c == 'K' || c == 'M' || c == 'G') Quant.opt ::
      Item.cls (fun c => c == 'i') Quant.opt :: lit 'B' :: X) digit ∧
    Rejects (Item.cls space Quant.star ::
      Item.cls (fun c => c == 'K' || c == 'M' || c == 'G') Quant.opt ::
      Item.cls (fun c => c == 'i') Quant.opt :: lit 'B' :: X) (fun c => c == '.') := by
  have rB : ∀ p : Char → Bool, p 'B' = false → Rejects (lit 'B' :: X) p :=
    fun p hB => rejects_one X p _ (class_char p 'B' hB).1
  have ri : ∀ p : Char → Bool, p 'i' = false → p 'B' = false →
      Rejects (Item.cls (fun c => c == 'i') Quant.opt :: lit 'B' :: X) p :=
    fun p hi hB => rejects_opt _ p _ (class_char p 'i' hi).1 (rB p hB)
  have rk : ∀ p : Char → Bool, p 'K' = false → p 'M' = false → p 'G' = false →
      p 'i' = false → p 'B' = false →
      Rejects (Item.cls (fun c => c == 'K' || c == 'M' || c == 'G') Quant.opt ::
        Item.cls (fun c => c == 'i') Quant.opt :: lit 'B' :: X) p :=
    fun p hK hM hG hi hB => rejects_opt _ p _ (class_kmg p hK hM hG).1 (ri p hi hB)
  refine ⟨⟨?_, ?_, ?_, hX⟩, ?_, ?_⟩
  · exact skips_of_rejects _ space (rk space (by decide) (by decide) (by decide) (by decide)
      (by decide))
  · intro c s pos hc _
    have hc' : (c == 'K' || c == 'M' || c == 'G') = true := hc
    have hi : (c == 'i') = false :=
      (class_kmg (fun c => c == 'i') (by decide) (by decide) (by decide)).2 c hc'
    have hB : (c == 'B') = false :=
      (class_kmg (fun c => c == 'B') (by decide) (by decide) (by decide)).2 c hc'
    simp [matchAt, lit, hi, hB]
  · intro c s pos hc _
    have hc' : (c == 'i') = true := hc
    have hB : (c == 'B') = false := (class_char (fun c => c == 'B') 'i' (by decide)).2 c hc'
    simp [matchAt, lit, hB]
  · exact rejects_star _ digit space digit_not_space
      (rk digit (by decide) (by decide) (by decide) (by decide) (by decide))
  · exact rejects_star _ (fun c => c == '.') space (class_char space '.' (by decide)).2
      (rk (fun c => c == '.') (by decide) (by decide) (by decide) (by decide) (by decide))

/-- A size followed by items that are read without going back. -/
theorem det_size (X : List Item) (hX : Det X) : Det (size ++ X) := by
  obtain ⟨h1, h2, h3⟩ := det_unit X hX
  exact det_number _ h1 h2 h3

theorem det_percent : Det ([Item.mark] ++ number ++ [Item.mark, lit '%']) := by
  show Det (number ++ [Item.mark, lit '%'])
  refine det_number _ trivial ?_ ?_
  · exact rejects_mark _ _ (rejects_one [] digit _ (class_char digit '%' (by decide)).1)
  · exact rejects_mark _ _
      (rejects_one [] (fun c => c == '.') _ (class_char (fun c => c == '%') '.' (by decide)).2)

theorem det_speed : Det ([Item.mark] ++ size ++ [lit '/', lit 's', Item.mark]) := by
  show Det (size ++ [lit '/', lit 's', Item.mark])
  exact det_size _ trivial

theorem det_eta : Det [lit 'E', lit 'T', lit 'A', Item.cls space Quant.plus, Item.mark,
    Item.cls digit Quant.plus, lit ':', Item.cls digit Quant.plus, Item.mark] := by
  refine ⟨?_, ?_, ?_, trivial⟩
  · exact skips_of_rejects _ space (rejects_mark _ _ (rejects_plus _ space digit space_not_digit))
  · exact skips_of_rejects _ digit (rejects_one _ digit _ (class_char digit ':' (by decide)).1)
  · intro s pos h
    simp [matchAt] at h

theorem det_sizes : Det ([Item.mark] ++ size ++
    [Item.mark, Item.cls space Quant.plus, lit 'o', lit 'f', Item.cls space Quant.plus,
      Item.mark] ++ size ++ [Item.mark]) := by
  show Det (size ++ (Item.mark :: Item.cls space Quant.plus :: lit 'o' :: lit 'f' ::
    Item.cls space Quant.plus :: Item.mark :: (size ++ [Item.mark])))
  refine det_size _ ⟨?_, ?_, det_size _ trivial⟩
  · exact skips_of_rejects _ space (rejects_one _ space _ (class_char space 'o' (by decide)).1)
  · exact skips_of_rejects _ space (rejects_mark _ _ (rejects_plus _ space digit space_not_digit))

end Grammar

/-- C14, counterexample: the line `12.%` has no substring of the form
`<digits>[.<digits>]%` (the character before `%` is a dot), so the percentage
should be 0; `parseProgress` returns 12, because its pattern `\d+\.?\d*` takes
a dot that no digit follows. -/
theorem parseProgress_trailing_dot :
    (parseProgress "12.%").Progress = 12 ∧ ¬ Grammar.ClaimPercent "12.%" := by
  constructor
  · decide!
  · rintro ⟨a, n, b, h, d1, d2, hd1, hdig1, hn⟩
    have hlast : ∃ m x, n = m ++ [x] ∧ regexp.digit x = true := by
      rcases hn with hn | ⟨hd2, hdig2, hn⟩
      · rcases List.eq_nil_or_concat d1 with h0 | ⟨m, x, hm⟩
        · exact absurd h0 hd1
        · rw [List.concat_eq_append] at hm
          exact ⟨m, x, by rw [hn, hm], hdig1 x (by rw [hm]; simp)⟩
      · rcases List.eq_nil_or_concat d2 with h0 | ⟨m, x, hm⟩
        · exact absurd h0 hd2
        · rw [List.concat_eq_append] at hm
          exact ⟨d1 ++ '.' :: m, x, by rw [hn, hm]; simp, hdig2 x (by rw [hm]; simp)⟩
    obtain ⟨m, x, hm, hx⟩ := hlast
    have h2 : ['1', '2', '.', '%'] = (a ++ m) ++ x :: '%' :: b := by
      have h3 : "12.%".data = ['1', '2', '.', '%'] := rfl
      rw [← h3, h, hm]
      simp
    generalize a ++ m = y at h2
    rcases y with _ | ⟨y1, _ | ⟨y2, _ | ⟨y3, _ | ⟨y4, y⟩⟩⟩⟩
    · simp at h2
    · simp at h2
    · simp at h2
      rw [← h2.2.2.1] at hx
      exact absurd hx (by decide)
    · simp at h2
    · simp at h2

theorem natOfDigits_fold (ds : List Char) : ∀ n : Nat,
    ds.foldl (fun n c => 10 * n + (c.toNat - '0'.toNat)) n =
      n * 10 ^ ds.length + Grammar.whole ds := by
  induction ds with
  | nil => intro n; simp [Grammar.whole]
  | cons c ds ih =>
    intro n
    rw [List.foldl_cons, ih, Grammar.whole, List.length_cons, pow_succ]
    ring

theorem natOfDigits_whole (ds : List Char) : natOfDigits ds = Grammar.whole ds := by
  unfold natOfDigits
  rw [natOfDigits_fold]
  simp

theorem natOfDigits_append (a b : List Char) :
    natOfDigits (a ++ b) = natOfDigits a * 10 ^ b.length + natOfDigits b := by
  unfold natOfDigits
  rw [List.foldl_append, natOfDigits_fold, natOfDigits_fold b 0]
  simp

theorem frac_whole (ds : List Char) :
    Grammar.frac ds = (Grammar.whole ds : ℚ) / 10 ^ ds.length := by
  induction ds with
  | nil => simp [Grammar.frac, Grammar.whole]
  | cons c ds ih =>
    rw [Grammar.frac, ih, Grammar.whole, List.length_cons]
    have h10 : (10 : ℚ) ^ ds.length ≠ 0 := by positivity
    push_cast
    rw [pow_succ]
    field_simp

/-- The two readings of a numeral give the same value: all the digits read
as one integer over a power of ten, and the integer part plus the fraction. -/
theorem mkRat_numeralValue (ip fp : List Char) :
    mkRat (natOfDigits (ip ++ fp)) (10 ^ fp.length) =
      (Grammar.whole ip : ℚ) + Grammar.frac fp := by
  rw [Rat.mkRat_eq_div, natOfDigits_append, frac_whole, natOfDigits_whole, natOfDigits_whole]
  have h10 : (10 : ℚ) ^ fp.length ≠ 0 := by positivity
  push_cast
  field_simp

theorem ParseFloat_numeralValue (n : String) :
    ParseFloat n =
      if (2 : ℚ) ^ 1024 - (2 : ℚ) ^ 970 ≤ Grammar.numeralValue n then none
      else some (float64.round (Grammar.numeralValue n)) := by
  unfold ParseFloat Grammar.numeralValue
  simp only [mkRat_numeralValue]

/-- C14, amended: for every line `parseProgress` returns what the grammar
gives when every repetition is read as long as possible: the percentage of
the first `<numeral>%`, the speed of the first `<size>/s`, the ETA of the
first `ETA<space><digits>:<digits>` and the two sizes of the first
`<size><space>of<space><size>`. The percentage of a numeral is the `float64`
that round-to-nearest-even gives for its value: `float64.round` gives that
`float64` and no other value qualifies. The sample line gives the `float64`
of 45.3, `1.20MiB/s`, `00:05` and no sizes; `99.` followed by seventeen nines
gives 100. -/
theorem parseProgress_grammar :
    (∀ line, parseProgress line = Grammar.parseProgress line) ∧
    (∀ x v : Rat, |x| < 2 ^ 1024 - 2 ^ 970 →
      (float64.Rounds x v ↔ v = float64.round x)) ∧
    parseProgress "[download]  45.3% of 10.00MiB at 1.20MiB/s ETA 00:05" =
      { Progress := float64.round (453 / 10), Speed := "1.20MiB/s", ETA := "00:05" } ∧
    float64.round (453 / 10) = 3187704111248179 / 70368744177664 ∧
    (parseProgress "99.99999999999999999%").Progress = 100 := by
  refine ⟨?_, ?_, ?_, ?_, ?_⟩
  · intro line
    unfold parseProgress Grammar.parseProgress
    simp only [Grammar.find_eq_find _ Grammar.det_percent,
      Grammar.find_eq_find _ Grammar.det_speed, Grammar.find_eq_find _ Grammar.det_eta,
      Grammar.find_eq_find _ Grammar.det_sizes, ParseFloat_numeralValue, Grammar.percentage]
    generalize Grammar.find ([regexp.Item.mark] ++ regexp.number ++
      [regexp.Item.mark, regexp.lit '%']) line.data 0 = r
    rcases r with _ | ⟨_ | ⟨a, _ | ⟨b, t⟩⟩⟩
    · rfl
    · rfl
    · rfl
    · by_cases h : (2 : ℚ) ^ 1024 - (2 : ℚ) ^ 970 ≤
          Grammar.numeralValue (regexp.slice line.data a b)
      · simp only [h, if_true]
      · simp only [h, if_false]
  · intro x v hx
    constructor
    · intro h
      exact float64.rounds_unique x v _ h (float64.round_rounds x hx)
    · intro h
      rw [h]
      exact float64.round_rounds x hx
  · decide!
  · decide!
  · decide!

/-- Witness of C14 (amended): 45.3 is within the range of `float64`, and the
percentage of the sample line is the `float64` that round-to-nearest-even
gives for it. -/
theorem parseProgress_grammar_witness :
    |(453 / 10 : ℚ)| < 2 ^ 1024 - 2 ^ 970 ∧
    float64.Rounds (453 / 10) (float64.round (453 / 10)) :=
  ⟨by rw [abs_of_pos (by norm_num)]; norm_num,
   (parseProgress_grammar.2.1 (453 / 10) (float64.round (453 / 10))
      (by rw [abs_of_pos (by norm_num)]; norm_num)).2 rfl⟩

/-! ## The descriptors of `GetVideoInfo` -/

theorem convertDouyinUrl_short (url : String) (h : strings.Contains url "v.douyin.com" = true) :
    convertDouyinUrl url = url := by
  unfold convertDouyinUrl
  rw [if_pos h]

/-- C21: a URL that contains `v.douyin.com` for which direct resolution gives
an error or no media URL. `GetVideoInfo` returns an error together with a
descriptor whose error type is `douyin_short_link`, which is none of the
error types of a failed extraction run, and whose list of solutions is not
empty. -/
theorem GetVideoInfo_short_link_failure (cfg : Config) (env : Extractor) (url : String)
    (hshort : strings.Contains url "v.douyin.com" = true)
    (hfail : ¬ ((env.getDouyinRealUrl url).2.2 = none ∧ (env.getDouyinRealUrl url).1 ≠ "")) :
    ∃ info message, GetVideoInfo cfg env url = (some info, some message) ∧
      info.ErrorType = "douyin_short_link" ∧ info.ErrorType ≠ "douyin_access" ∧
      info.ErrorType ≠ "bilibili_access" ∧ info.ErrorType ≠ "general_error" ∧
      info.Solutions ≠ [] ∧ info.CanDownload = false ∧
      message = "抖音短链接解析失败: " ++ (env.getDouyinRealUrl url).2.2.getD "<nil>" := by
  have hd : (strings.Contains url "douyin.com" || strings.Contains url "v.douyin.com") = true := by
    rw [hshort, Bool.or_true]
  have hres : GetVideoInfo cfg env url =
      (some { Title := "抖音视频",
              Formats := [{ FormatID := "best", Extension := "mp4", Resolution := "最佳质量" }],
              SpecialNote := "抖音短链接解析失败，请尝试以下方法：",
              ErrorType := "douyin_short_link",
              Solutions := ["使用完整的抖音视频链接（以www.douyin.com/video/开头）",
                "确保短链接格式正确且有效", "尝试使用抖音官方分享功能获取新的链接",
                "使用抖音APP内的复制链接功能获取链接"] },
       some ("抖音短链接解析失败: " ++ (env.getDouyinRealUrl url).2.2.getD "<nil>")) := by
    unfold GetVideoInfo
    rw [if_pos hd]
    simp only [convertDouyinUrl_short url hshort]
    rw [if_neg hfail, if_pos hshort]
  exact ⟨_, _, hres, rfl, by decide, by decide, by decide, by simp, rfl, rfl⟩

/-- Witness of C21: a short link whose direct resolution fails. -/
theorem GetVideoInfo_short_link_failure_witness :
    ∃ info, GetVideoInfo { YtDlpPath := "/usr/bin/yt-dlp", OutputDir := "./downloads" }
        (failingExtractor "") "https://v.douyin.com/abc/" =
        (some info, some "抖音短链接解析失败: direct resolution failed") ∧
      info.ErrorType = "douyin_short_link" ∧ info.Solutions ≠ [] := by
  obtain ⟨info, message, h1, h2, _, _, _, h3, _, h4⟩ := GetVideoInfo_short_link_failure
    { YtDlpPath := "/usr/bin/yt-dlp", OutputDir := "./downloads" }
    (failingExtractor "") "https://v.douyin.com/abc/" (by decide) (by decide)
  refine ⟨info, ?_, h2, h3⟩
  rw [h1, h4]
  rfl

theorem runExtraction_flag (cfg : Config) (env : Extractor) (url : String) (info : VideoInfo)
    (err : Option String) (h : runExtraction cfg env url = (some info, err)) :
    (info.CanDownload = true ↔ err = none) := by
  unfold runExtraction at h
  split at h
  · simp at h
  · split at h
    · simp at h
    · split at h
      · simp only [Prod.mk.injEq, Option.some.injEq] at h
        obtain ⟨h1, h2⟩ := h
        rw [← h1, ← h2, (failureInfo_fields _ _ _).1]
        simp
      · split at h
        · simp at h
        · split at h
          · simp at h
          · simp only [Prod.mk.injEq, Option.some.injEq] at h
            obtain ⟨h1, h2⟩ := h
            rw [← h1, ← h2]
            simp

/-- C23, counterexample: an extraction run that succeeds with a JSON object
without formats. The descriptor has an empty format list and `CanDownload`
true. -/
theorem GetVideoInfo_flag_without_formats :
    GetVideoInfo { YtDlpPath := "/usr/bin/yt-dlp", OutputDir := "./downloads" } bareExtractor
        "https://example.com/v" =
      (some { Title := "clip", Formats := [], CanDownload := true }, none) := by
  rfl

/-- C23, amended: a descriptor that `GetVideoInfo` returns together with an
error has `CanDownload` false; a descriptor it returns without error from the
extraction run (the douyin pre-branch did not return) has `CanDownload` true,
whatever its format list. -/
theorem GetVideoInfo_flag (cfg : Config) (env : Extractor) (url : String) (info : VideoInfo) :
    (∀ message, GetVideoInfo cfg env url = (some info, some message) →
      info.CanDownload = false) ∧
    (directReturns env url = false → GetVideoInfo cfg env url = (some info, none) →
      info.CanDownload = true) := by
  constructor
  · intro message h
    cases hd : directReturns env url with
    | false =>
      rw [GetVideoInfo_reaches_extraction cfg env url hd] at h
      have := runExtraction_flag cfg env _ info _ h
      cases hc : info.CanDownload with
      | false => rfl
      | true => exact absurd (this.1 hc) (by simp)
    | true =>
      unfold GetVideoInfo at h
      split at h
      · simp only [] at h
        split at h
        · simp at h
        · split at h
          · simp only [Prod.mk.injEq, Option.some.injEq] at h
            rw [← h.1]
          · exfalso
            rename_i h1 h2 h3
            unfold directReturns at hd
            rw [h1] at hd
            simp only [Bool.true_and, Bool.or_eq_true, Bool.and_eq_true] at hd
            rcases hd with hd | hd
            · apply h2
              refine ⟨?_, ?_⟩
              · simpa using hd.1
              · simpa using hd.2
            · exact h3 hd
      · exfalso
        rename_i h1
        unfold directReturns at hd
        simp only [Bool.and_eq_true] at hd
        exact h1 hd.1
  · intro hd h
    rw [GetVideoInfo_reaches_extraction cfg env url hd] at h
    exact (runExtraction_flag cfg env _ info _ h).2 rfl

/-- Witness of C23 (amended): the descriptor of a successful extraction run
without formats has `CanDownload` true. -/
theorem GetVideoInfo_flag_witness :
    ({ Title := "clip", Formats := [], CanDownload := true } : VideoInfo).CanDownload = true :=
  (GetVideoInfo_flag { YtDlpPath := "/usr/bin/yt-dlp", OutputDir := "./downloads" } bareExtractor
    "https://example.com/v" { Title := "clip", Formats := [], CanDownload := true }).2
    (by decide) rfl

/-! ## The arguments of the transfer process -/

theorem Follows.inl {a : List String} {f v : String} (b : List String) (h : Follows a f v) :
    Follows (a ++ b) f v := by
  obtain ⟨pre, post, rfl⟩ := h
  exact ⟨pre, post ++ b, by simp⟩

theorem Follows.inr {b : List String} {f v : String} (a : List String) (h : Follows b f v) :
    Follows (a ++ b) f v := by
  obtain ⟨pre, post, rfl⟩ := h
  exact ⟨a ++ pre, post, by simp⟩

theorem headerArgs_fold (headers : List (String × String)) :
    ∀ init : List String,
      headers.foldl (fun args kv => args ++ ["--add-header", kv.1 ++ ": " ++ kv.2]) init =
        init ++ headerArgs headers := by
  induction headers with
  | nil => intro init; simp [headerArgs]
  | cons kv rest ih =>
    intro init
    unfold headerArgs
    rw [List.foldl_cons, List.foldl_cons, ih, ih ([] ++ _)]
    simp

theorem headerArgs_follows (headers : List (String × String)) (kv : String × String)
    (h : kv ∈ headers) : Follows (headerArgs headers) "--add-header" (kv.1 ++ ": " ++ kv.2) := by
  induction headers with
  | nil => exact absurd h (List.not_mem_nil _)
  | cons x rest ih =>
    have e : headerArgs (x :: rest) = ["--add-header", x.1 ++ ": " ++ x.2] ++ headerArgs rest := by
      unfold headerArgs
      rw [List.foldl_cons, headerArgs_fold]
      rfl
    rw [e]
    rcases List.mem_cons.1 h with h | h
    · rw [h]
      exact ⟨[], headerArgs rest, rfl⟩
    · exact Follows.inr _ (ih h)

/-- A request to `DownloadBilibili` with a referer: the argument list holds no
`--referer`. -/
theorem bilibiliArgs_without_referer :
    "--referer" ∉ bilibiliArgs { YtDlpPath := "/usr/bin/yt-dlp", OutputDir := "./downloads" }
      (systemWith [] 0 true true)
      { URL := "https://www.bilibili.com/video/BV1", TaskID := "T1",
        Referer := "https://www.bilibili.com/" } := by
  decide

/-- The argument lists of `Download` and of `DownloadBilibili` hold `-v` and
`--newline`, `--add-header` followed by `<key>: <value>` for every custom
header of the request, and `--cookies` followed by the cookies when the
request has cookies; the list of `Download` also holds `--referer` followed
by the referer when the request has one. -/
theorem transfer_args (cfg : Config) (sys : System) (req : DownloadRequest) :
    ("-v" ∈ downloadArgs cfg sys req ∧ "--newline" ∈ downloadArgs cfg sys req ∧
      (∀ kv ∈ req.Headers, Follows (downloadArgs cfg sys req) "--add-header"
        (kv.1 ++ ": " ++ kv.2)) ∧
      (req.Cookies ≠ "" → Follows (downloadArgs cfg sys req) "--cookies" req.Cookies) ∧
      (req.Referer ≠ "" → Follows (downloadArgs cfg sys req) "--referer" req.Referer)) ∧
    ("-v" ∈ bilibiliArgs cfg sys req ∧ "--newline" ∈ bilibiliArgs cfg sys req ∧
      (∀ kv ∈ req.Headers, Follows (bilibiliArgs cfg sys req) "--add-header"
        (kv.1 ++ ": " ++ kv.2)) ∧
      (req.Cookies ≠ "" → Follows (bilibiliArgs cfg sys req) "--cookies" req.Cookies)) := by
  refine ⟨⟨?_, ?_, ?_, ?_, ?_⟩, ⟨?_, ?_, ?_, ?_⟩⟩
  · simp [downloadArgs]
  · simp [downloadArgs]
  · intro kv hkv
    unfold downloadArgs
    exact Follows.inl _ (Follows.inl _ (Follows.inl _ (Follows.inl _ (Follows.inl _
      (Follows.inl _ (Follows.inr _ (headerArgs_follows _ kv hkv)))))))
  · intro hc
    unfold downloadArgs
    refine Follows.inl _ (Follows.inl _ (Follows.inl _ (Follows.inl _ (Follows.inl _
      (Follows.inr _ ?_)))))
    rw [if_pos hc]
    exact ⟨[], [], rfl⟩
  · intro hr
    unfold downloadArgs
    refine Follows.inl _ (Follows.inl _ (Follows.inl _ (Follows.inl _ (Follows.inr _ ?_))))
    rw [if_pos hr]
    exact ⟨[], [], rfl⟩
  · simp [bilibiliArgs]
  · simp [bilibiliArgs]
  · intro kv hkv
    unfold bilibiliArgs
    exact Follows.inl _ (Follows.inl _ (Follows.inl _ (Follows.inl _ (Follows.inl _
      (Follows.inl _ (Follows.inr _ (headerArgs_follows _ kv hkv)))))))
  · intro hc
    unfold bilibiliArgs
    refine Follows.inl _ (Follows.inl _ (Follows.inl _ (Follows.inl _ (Follows.inl _
      (Follows.inl _ (Follows.inl _ (Follows.inr _ ?_)))))))
    rw [if_pos hc]
    exact ⟨[], [], rfl⟩

/-- A request with one custom header, cookies and a referer: the argument
list of `Download` holds the header and the referer. -/
theorem transfer_args_example :
    Follows (downloadArgs { YtDlpPath := "/usr/bin/yt-dlp", OutputDir := "./downloads" }
        (systemWith [] 0 true true)
        { URL := "https://example.com/v", TaskID := "T1", Headers := [("X-Token", "abc")],
          Cookies := "cookies.txt", Referer := "https://example.com/" })
      "--add-header" "X-Token: abc" ∧
    Follows (downloadArgs { YtDlpPath := "/usr/bin/yt-dlp", OutputDir := "./downloads" }
        (systemWith [] 0 true true)
        { URL := "https://example.com/v", TaskID := "T1", Headers := [("X-Token", "abc")],
          Cookies := "cookies.txt", Referer := "https://example.com/" })
      "--referer" "https://example.com/" :=
  ⟨(transfer_args { YtDlpPath := "/usr/bin/yt-dlp", OutputDir := "./downloads" }
      (systemWith [] 0 true true)
      { URL := "https://example.com/v", TaskID := "T1", Headers := [("X-Token", "abc")],
        Cookies := "cookies.txt", Referer := "https://example.com/" }).1.2.2.1
      ("X-Token", "abc") (by decide),
   (transfer_args { YtDlpPath := "/usr/bin/yt-dlp", OutputDir := "./downloads" }
      (systemWith [] 0 true true)
      { URL := "https://example.com/v", TaskID := "T1", Headers := [("X-Token", "abc")],
        Cookies := "cookies.txt", Referer := "https://example.com/" }).1.2.2.2.2 (by decide)⟩

/-- C24: `Download` passes `--referer` followed by the referer of the request
whenever the request has one, but `DownloadBilibili`, to which `Download`
hands every bilibili URL, does not read the referer at all: its argument list
is the one it builds for the same request without referer, and for a request
with the referer `https://www.bilibili.com/` it holds no `--referer`. -/
theorem DownloadBilibili_ignores_referer (cfg : Config) (sys : System) (req : DownloadRequest) :
    (req.Referer ≠ "" → Follows (downloadArgs cfg sys req) "--referer" req.Referer) ∧
    bilibiliArgs cfg sys req = bilibiliArgs cfg sys { req with Referer := "" } ∧
    "--referer" ∉ bilibiliArgs { YtDlpPath := "/usr/bin/yt-dlp", OutputDir := "./downloads" }
      (systemWith [] 0 true true)
      { URL := "https://www.bilibili.com/video/BV1", TaskID := "T1",
        Referer := "https://www.bilibili.com/" } := by
  refine ⟨?_, rfl, by decide⟩
  intro hr
  unfold downloadArgs
  refine Follows.inl _ (Follows.inl _ (Follows.inl _ (Follows.inl _ (Follows.inr _ ?_))))
  rw [if_pos hr]
  exact ⟨[], [], rfl⟩

/-- Witness of C24: a request for a bilibili URL with a referer. `Download`
would pass the referer; the list of `DownloadBilibili` is the same as without
referer. -/
theorem DownloadBilibili_ignores_referer_witness :
    Follows (downloadArgs { YtDlpPath := "/usr/bin/yt-dlp", OutputDir := "./downloads" }
        (systemWith [] 0 true true)
        { URL := "https://www.bilibili.com/video/BV1", TaskID := "T1",
          Referer := "https://www.bilibili.com/" })
      "--referer" "https://www.bilibili.com/" ∧
    bilibiliArgs { YtDlpPath := "/usr/bin/yt-dlp", OutputDir := "./downloads" }
        (systemWith [] 0 true true)
        { URL := "https://www.bilibili.com/video/BV1", TaskID := "T1",
          Referer := "https://www.bilibili.com/" } =
      bilibiliArgs { YtDlpPath := "/usr/bin/yt-dlp", OutputDir := "./downloads" }
        (systemWith [] 0 true true)
        { URL := "https://www.bilibili.com/video/BV1", TaskID := "T1" } :=
  ⟨(DownloadBilibili_ignores_referer { YtDlpPath := "/usr/bin/yt-dlp", OutputDir := "./downloads" }
      (systemWith [] 0 true true)
      { URL := "https://www.bilibili.com/video/BV1", TaskID := "T1",
        Referer := "https://www.bilibili.com/" }).1 (by decide),
   (DownloadBilibili_ignores_referer { YtDlpPath := "/usr/bin/yt-dlp", OutputDir := "./downloads" }
      (systemWith [] 0 true true)
      { URL := "https://www.bilibili.com/video/BV1", TaskID := "T1",
        Referer := "https://www.bilibili.com/" }).2.1⟩

/-! ## The path `Download` returns -/

theorem accessiblePath_cases (cfg : Config) (sys : System) (req : DownloadRequest)
    (actualFilePath : String) :
    sys.Stat (accessiblePath cfg sys req actualFilePath) = none ∨
    (accessiblePath cfg sys req actualFilePath = outputTemplate cfg req ∧
      sys.Stat actualFilePath ≠ none ∧
      sys.Stat (filepath.Join cfg.OutputDir (filepath.Base actualFilePath)) ≠ none) := by
  unfold accessiblePath
  cases h1 : sys.Stat actualFilePath with
  | none => left; exact h1
  | some e1 =>
    cases h2 : sys.Stat (filepath.Join cfg.OutputDir (filepath.Base actualFilePath)) with
    | none => left; simp [h2]
    | some e2 => right; simp [h2]

/-- C26, counterexample: the transfer announces `downloads/T1_clip.mp4` and
exits with status zero, but neither that path nor the same name under the
output directory is on disk. `Download` returns the output template without
error, and `os.Stat` fails on it. -/
theorem Download_returns_template :
    (Download { YtDlpPath := "/usr/bin/yt-dlp", OutputDir := "./downloads" } toolOnlySystem
        announcedRun (fun _ => { result := Except.error "" })
        { URL := "https://example.com/v", TaskID := "T1" }).result =
      Except.ok "downloads/T1_%!((MISSING)title)s.%!((MISSING)ext)s" ∧
    toolOnlySystem.Stat "downloads/T1_%!((MISSING)title)s.%!((MISSING)ext)s" =
      some "no such file or directory" := by
  constructor
  · rfl
  · rfl

/-- C26, amended: a path that `Download` returns without error, for a URL it
handles itself, is a path on which `os.Stat` succeeded, or it is the output
template, returned when `os.Stat` failed both on the path found and on its
base name under the output directory. -/
theorem Download_returned_path (cfg : Config) (sys : System) (run : ProcessRun)
    (DownloadDouyin : DownloadRequest → Resolution) (req : DownloadRequest) (p : String)
    (hb : strings.Contains req.URL "bilibili.com" = false)
    (hd : (strings.Contains req.URL "douyin.com" || strings.Contains req.URL "v.douyin.com") =
      false)
    (hok : (Download cfg sys run DownloadDouyin req).result = Except.ok p) :
    sys.Stat p = none ∨ p = outputTemplate cfg req := by
  have hacc : ∃ x, p = accessiblePath cfg sys req x := by
    unfold Download at hok
    rw [if_neg (by simp [hb]), if_neg (by simp only [hd]; exact Bool.false_ne_true)] at hok
    split at hok
    · exact Except.noConfusion hok
    · split at hok
      · exact Except.noConfusion hok
      · simp only [] at hok
        split at hok
        · exact Except.noConfusion hok
        · split at hok
          · exact Except.noConfusion hok
          · split at hok
            · exact Except.noConfusion hok
            · split at hok
              · exact Except.noConfusion hok
              · split at hok
                · split at hok
                  · exact Except.noConfusion hok
                  · split at hok
                    · exact Except.noConfusion hok
                    · exact ⟨_, (Except.ok.inj hok).symm⟩
                · exact ⟨_, (Except.ok.inj hok).symm⟩
  obtain ⟨x, rfl⟩ := hacc
  rcases accessiblePath_cases cfg sys req x with h | h
  · exact Or.inl h
  · exact Or.inr h.1

/-- Witness of C26 (amended): the announced file is on disk and is returned. -/
theorem Download_returned_path_witness :
    (systemWith [] 0 true true).Stat "downloads/T1_clip.mp4" = none ∨
    "downloads/T1_clip.mp4" =
      outputTemplate { YtDlpPath := "/usr/bin/yt-dlp", OutputDir := "./downloads" }
        { URL := "https://example.com/v", TaskID := "T1" } :=
  Download_returned_path { YtDlpPath := "/usr/bin/yt-dlp", OutputDir := "./downloads" }
    (systemWith [] 0 true true) announcedRun (fun _ => { result := Except.error "" })
    { URL := "https://example.com/v", TaskID := "T1" } "downloads/T1_clip.mp4"
    (by decide) (by decide) rfl

/-! ## The default output template and direct download -/

theorem String.append_left_cancel_data (t a b : String) (h : t ++ a = t ++ b) : a = b := by
  have h1 := congrArg String.data h
  rw [String.data_append, String.data_append] at h1
  exact String.ext (List.append_cancel_left h1)

/-- What the branch for an empty output path writes, for a task ID without
slash: `OutputDir/<TaskID>_%!((MISSING)title)s.%!((MISSING)ext)s`, the result
of formatting `%s_%(title)s.%(ext)s` with the task ID as only operand, and
not `OutputDir/<TaskID>_%(title)s.%(ext)s`. No caller of `Download` reaches
this branch. -/
theorem outputTemplate_empty_output (cfg : Config) (req : DownloadRequest)
    (ho : req.Output = "") (ht : '/' ∉ req.TaskID.data) :
    outputTemplate cfg req =
      filepath.Join cfg.OutputDir (req.TaskID ++ "_%!((MISSING)title)s.%!((MISSING)ext)s") ∧
    outputTemplate cfg req ≠ filepath.Join cfg.OutputDir (req.TaskID ++ "_%(title)s.%(ext)s") := by
  have h1 : outputTemplate cfg req =
      filepath.Join cfg.OutputDir (req.TaskID ++ "_%!((MISSING)title)s.%!((MISSING)ext)s") := by
    unfold outputTemplate
    rw [if_neg (by simp [ho]), fmt.Sprintf_template]
  refine ⟨h1, ?_⟩
  rw [h1]
  intro e
  have e1 : req.TaskID ++ "_%!((MISSING)title)s.%!((MISSING)ext)s" =
      req.TaskID ++ "_" ++ "%!((MISSING)title)s.%!((MISSING)ext)s" := by
    rw [String.append_assoc]; rfl
  have e2 : req.TaskID ++ "_%(title)s.%(ext)s" = req.TaskID ++ "_" ++ "%(title)s.%(ext)s" := by
    rw [String.append_assoc]; rfl
  have b1 := (filepath.Base_Join cfg.OutputDir _
    (prefixed_valid req.TaskID "%!((MISSING)title)s.%!((MISSING)ext)s" ht (by decide))).1
  have b2 := (filepath.Base_Join cfg.OutputDir _
    (prefixed_valid req.TaskID "%(title)s.%(ext)s" ht (by decide))).1
  rw [e1, e2] at e
  have e3 := congrArg filepath.Base e
  rw [b1, b2] at e3
  exact absurd (String.append_left_cancel_data _ _ _ e3) (by decide)

/-- C30, counterexample: task `T1` is created without output path.
`processYtdlpDownload` gives the request the output path
`downloads/T1_video.mp4` before it calls `Download`, so the template that
`Download` and `DownloadBilibili` pass to the external process is
`downloads/T1_T1_video.mp4`, not `downloads/T1_%(title)s.%(ext)s`. -/
theorem service_template_fixed_name :
    ({ URL := "https://example.com/v", TaskID := "T1" } : DownloadRequest).Output = "" ∧
    (prefixOutput "./downloads" "T1" { URL := "https://example.com/v", TaskID := "T1" }).Output =
      "downloads/T1_video.mp4" ∧
    (∃ pre, downloadArgs { YtDlpPath := "/usr/bin/yt-dlp", OutputDir := "./downloads" }
        (systemWith [] 0 true true)
        (prefixOutput "./downloads" "T1" { URL := "https://example.com/v", TaskID := "T1" }) =
      pre ++ ["-o", "downloads/T1_T1_video.mp4", "https://example.com/v"]) ∧
    (∃ pre, bilibiliArgs { YtDlpPath := "/usr/bin/yt-dlp", OutputDir := "./downloads" }
        (systemWith [] 0 true true)
        (prefixOutput "./downloads" "T1"
          { URL := "https://www.bilibili.com/video/BV1", TaskID := "T1" }) =
      pre ++ ["-o", "downloads/T1_T1_video.mp4", "https://www.bilibili.com/video/BV1"]) ∧
    "downloads/T1_T1_video.mp4" ≠ filepath.Join "./downloads" ("T1" ++ "_%(title)s.%(ext)s") := by
  refine ⟨rfl, by decide, ⟨_, by
    unfold downloadArgs
    exact List.append_assoc _ _ _⟩, ⟨_, by
    unfold bilibiliArgs
    exact List.append_assoc _ _ _⟩, by decide⟩

/-- C30, amended: a request never reaches `Download` with an empty output
path. `processYtdlpDownload` gives a request without output path the path
`OutputDir/<id>_video.mp4` (and one with output path that path with `<id>_`
before its base name), and `DirectDownload` asks for `TempDir/<uuid>.mp4`. So
the template that `Download` and `DownloadBilibili` pass to the external
process is the directory of the output path joined with `<TaskID>_` and its
base name; for a task created without output path the base name of the
template is `<id>_<id>_video.mp4`. -/
theorem outputTemplate_of_service (cfg : Config) (sys : System) (id tmpDir uuid format : String)
    (req : DownloadRequest) (hid : req.TaskID = id) (ht : '/' ∉ id.data) :
    (prefixOutput cfg.OutputDir id req).Output ≠ "" ∧
    (dlReq tmpDir uuid req.URL format).Output ≠ "" ∧
    outputTemplate cfg (prefixOutput cfg.OutputDir id req) =
      filepath.Join (filepath.Dir (prefixOutput cfg.OutputDir id req).Output)
        (id ++ "_" ++ filepath.Base (prefixOutput cfg.OutputDir id req).Output) ∧
    (∃ pre, downloadArgs cfg sys (prefixOutput cfg.OutputDir id req) =
      pre ++ ["-o", outputTemplate cfg (prefixOutput cfg.OutputDir id req), req.URL]) ∧
    (∃ pre, bilibiliArgs cfg sys (prefixOutput cfg.OutputDir id req) =
      pre ++ ["-o", outputTemplate cfg (prefixOutput cfg.OutputDir id req), req.URL]) ∧
    (req.Output = "" →
      (prefixOutput cfg.OutputDir id req).Output =
        filepath.Join cfg.OutputDir (id ++ "_video.mp4") ∧
      filepath.Base (outputTemplate cfg (prefixOutput cfg.OutputDir id req)) =
        id ++ "_" ++ (id ++ "_video.mp4")) := by
  have hne : ∀ x : String, id ++ x ≠ "" ∨ x = "" := by
    intro x
    by_cases hx : x = ""
    · exact Or.inr hx
    · left
      intro e
      have := congrArg String.data e
      rw [String.data_append] at this
      exact hx (String.ext (List.append_eq_nil.1 this).2)
  have hout : (prefixOutput cfg.OutputDir id req).Output ≠ "" := by
    unfold prefixOutput
    split_ifs with h
    · exact filepath.Join_ne_empty _ _ ((hne "_video.mp4").resolve_right (by decide))
    · refine filepath.Join_ne_empty _ _ ?_
      intro e
      have := congrArg String.data e
      simp [String.data_append] at this
  have htask : (prefixOutput cfg.OutputDir id req).TaskID = id := by
    unfold prefixOutput
    split_ifs <;> exact hid
  have hurl : (prefixOutput cfg.OutputDir id req).URL = req.URL := by
    unfold prefixOutput
    split_ifs <;> rfl
  have htpl : outputTemplate cfg (prefixOutput cfg.OutputDir id req) =
      filepath.Join (filepath.Dir (prefixOutput cfg.OutputDir id req).Output)
        (id ++ "_" ++ filepath.Base (prefixOutput cfg.OutputDir id req).Output) := by
    unfold outputTemplate
    rw [if_pos hout, htask]
  refine ⟨hout, ?_, htpl, ?_, ?_, ?_⟩
  · exact filepath.Join_ne_empty _ _ (by
      intro e
      have := congrArg String.data e
      simp [String.data_append] at this)
  · rw [← hurl]
    unfold downloadArgs
    exact ⟨_, List.append_assoc _ _ _⟩
  · rw [← hurl]
    unfold bilibiliArgs
    exact ⟨_, List.append_assoc _ _ _⟩
  · intro ho
    have hO : (prefixOutput cfg.OutputDir id req).Output =
        filepath.Join cfg.OutputDir (id ++ "_video.mp4") := by
      unfold prefixOutput
      rw [if_pos ho]
    refine ⟨hO, ?_⟩
    have e1 : id ++ "_video.mp4" = id ++ "_" ++ "video.mp4" := by
      rw [String.append_assoc]; rfl
    have v1 := prefixed_valid id "video.mp4" ht (by decide)
    have b1 := (filepath.Base_Join cfg.OutputDir _ v1).1
    have hslash : '/' ∉ (id ++ "_" ++ "video.mp4").data := by
      intro hm
      simp only [String.data_append, List.mem_append] at hm
      rcases hm with (hm | hm) | hm
      · exact ht hm
      · exact absurd hm (by decide)
      · exact absurd hm (by decide)
    have v2 := prefixed_valid id (id ++ "_" ++ "video.mp4") ht hslash
    rw [htpl, hO, e1, b1]
    exact (filepath.Base_Join _ _ v2).1

/-- Witness of C30 (amended): task `T1`, created without output path. -/
theorem outputTemplate_of_service_witness :
    filepath.Base (outputTemplate { YtDlpPath := "/usr/bin/yt-dlp", OutputDir := "./downloads" }
      (prefixOutput "./downloads" "T1" { URL := "https://example.com/v", TaskID := "T1" })) =
      "T1_T1_video.mp4" :=
  ((outputTemplate_of_service { YtDlpPath := "/usr/bin/yt-dlp", OutputDir := "./downloads" }
    (systemWith [] 0 true true) "T1" "/tmp" "u1" "best"
    { URL := "https://example.com/v", TaskID := "T1" } rfl (by decide)).2.2.2.2.2 rfl).2.trans rfl

theorem mp4_name_valid (uuid : String) (h : '/' ∉ uuid.data) : ValidName (uuid ++ ".mp4") := by
  have hd : (uuid ++ ".mp4").data = uuid.data ++ ['.', 'm', 'p', '4'] := by
    rw [String.data_append]
  have hm : 'm' ∈ (uuid ++ ".mp4").data := by rw [hd]; simp
  refine ⟨?_, ?_, ?_, ?_⟩
  · intro e; rw [e] at hm; simp at hm
  · rw [hd]
    intro hmem
    rcases List.mem_append.1 hmem with h1 | h1
    · exact h h1
    · exact absurd h1 (by decide)
  · intro e; rw [e] at hm; simp at hm
  · intro e; rw [e] at hm; simp at hm

/-- C29: a direct download whose transfer succeeds (the UUID holds no slash).
The file sent to the client is the one at `tmpDir/<uuid>.mp4`, whatever path
the driver returned; the output template that the driver gives to the
external process for this request has the base name `_<uuid>.mp4` and is a
different path. -/
theorem DirectDownload_sends_request_path (cfg : Config) (tmpDir uuid url format : String)
    (download : DownloadRequest → Except String String) (actualFile : String)
    (huuid : '/' ∉ uuid.data) (hurl : url ≠ "")
    (hok : download (dlReq tmpDir uuid url format) = Except.ok actualFile) :
    DirectDownload tmpDir uuid url format download =
      Except.ok (filepath.Join tmpDir (uuid ++ ".mp4")) ∧
    filepath.Base (outputTemplate cfg (dlReq tmpDir uuid url format)) = "_" ++ uuid ++ ".mp4" ∧
    filepath.Join tmpDir (uuid ++ ".mp4") ≠ outputTemplate cfg (dlReq tmpDir uuid url format) := by
  have hv := mp4_name_valid uuid huuid
  obtain ⟨hbase, hne⟩ := filepath.Base_Join tmpDir _ hv
  have htmpl : outputTemplate cfg (dlReq tmpDir uuid url format) =
      filepath.Join (filepath.Dir (filepath.Join tmpDir (uuid ++ ".mp4")))
        ("" ++ "_" ++ (uuid ++ ".mp4")) := by
    unfold outputTemplate dlReq
    simp only [ne_eq, hne, not_false_eq_true, if_true, hbase]
  have hb2 : filepath.Base (outputTemplate cfg (dlReq tmpDir uuid url format)) =
      "" ++ "_" ++ (uuid ++ ".mp4") := by
    rw [htmpl]
    exact (filepath.Base_Join _ _ (prefixed_valid "" (uuid ++ ".mp4") (by simp) hv.2.1)).1
  refine ⟨?_, ?_, ?_⟩
  · unfold DirectDownload
    rw [if_neg hurl]
    simp only [hok]
  · rw [hb2]
    apply String.ext
    simp [String.data_append]
  · intro e
    have e1 := congrArg filepath.Base e
    rw [hbase, hb2] at e1
    have e2 := congrArg (fun s : String => s.data.length) e1
    simp [String.data_append] at e2

/-- Witness of C29: a direct download into `/tmp`. -/
theorem DirectDownload_sends_request_path_witness :
    DirectDownload "/tmp" "u1" "https://example.com/v" "best"
        (fun _ => Except.ok "/tmp/_u1.mp4") = Except.ok "/tmp/u1.mp4" ∧
    outputTemplate { YtDlpPath := "/usr/bin/yt-dlp", OutputDir := "./downloads" }
      (dlReq "/tmp" "u1" "https://example.com/v" "best") = "/tmp/_u1.mp4" :=
  ⟨(DirectDownload_sends_request_path
      { YtDlpPath := "/usr/bin/yt-dlp", OutputDir := "./downloads" } "/tmp" "u1"
      "https://example.com/v" "best" (fun _ => Except.ok "/tmp/_u1.mp4") "/tmp/_u1.mp4"
      (by decide) (by decide) rfl).1.trans rfl, rfl⟩

/-! ## The task ID read off a template -/

theorem scan_matchedFiles_eq (dir taskID : String) (files : List DirEntry) :
    ∀ st : Scan, (files.foldl (scanStep dir taskID) st).matchedFiles =
      st.matchedFiles ++
        (files.filter (fun e => decide (TaskFile taskID e))).map
          (fun e => filepath.Join dir e.Name) := by
  induction files with
  | nil => intro st; simp
  | cons a rest ih =>
    intro st
    rw [List.foldl_cons, ih]
    by_cases h : TaskFile taskID a
    · rw [scanStep_task dir taskID st a h]
      simp [h]
    · rw [scanStep_other dir taskID st a h]
      simp [h]

/-- C28: for a task ID that is not empty and holds neither `_` nor `/`, and a
file name without `/`, the task ID that `findActualFile` reads off the
template `dir/<taskID>_<name>` is that task ID, also for the doubly prefixed
template `dir/<taskID>_<taskID>_<name>`; the files its scan treats as
matching are then exactly the entries that are no directory, not hidden, and
whose name starts with `<taskID>_`, in the order of the listing. -/
theorem findActualFile_recovers_taskID (OutputDir dir taskID name : String)
    (files : List DirEntry)
    (hne : taskID ≠ "") (hu : '_' ∉ taskID.data) (hs : '/' ∉ taskID.data)
    (hn : '/' ∉ name.data) :
    templateTaskID (filepath.Join dir (taskID ++ "_" ++ name)) = taskID ∧
    templateTaskID (filepath.Join dir (taskID ++ "_" ++ (taskID ++ "_" ++ name))) = taskID ∧
    (scanFiles OutputDir (templateTaskID (filepath.Join dir (taskID ++ "_" ++ name)))
        files).matchedFiles =
      (files.filter (fun e => decide (TaskFile taskID e))).map
        (fun e => filepath.Join OutputDir e.Name) ∧
    (scanFiles OutputDir
        (templateTaskID (filepath.Join dir (taskID ++ "_" ++ (taskID ++ "_" ++ name))))
        files).matchedFiles =
      (files.filter (fun e => decide (TaskFile taskID e))).map
        (fun e => filepath.Join OutputDir e.Name) ∧
    templateTaskID (filepath.Join dir (taskID ++ "_" ++ name)) ≠ "" := by
  have h1 : ∀ rest : String, '/' ∉ rest.data →
      templateTaskID (filepath.Join dir (taskID ++ "_" ++ rest)) = taskID := by
    intro rest hrest
    exact templateTaskID_of_base _ taskID rest
      (filepath.Base_Join dir _ (prefixed_valid taskID rest hs hrest)).1 hu
  have h2 : ∀ template, templateTaskID template = taskID →
      (scanFiles OutputDir (templateTaskID template) files).matchedFiles =
        (files.filter (fun e => decide (TaskFile taskID e))).map
          (fun e => filepath.Join OutputDir e.Name) := by
    intro template ht
    rw [ht]
    unfold scanFiles
    rw [scan_matchedFiles_eq]
    rfl
  have hd := h1 (taskID ++ "_" ++ name) (prefixed_valid taskID name hs hn).2.1
  refine ⟨h1 name hn, hd, h2 _ (h1 name hn), h2 _ hd, ?_⟩
  rw [h1 name hn]
  exact hne

/-- Witness of C28: the template of task `T1` in the service, doubly
prefixed, and a listing with one file of the task. -/
theorem findActualFile_recovers_taskID_witness :
    templateTaskID (filepath.Join "downloads" ("T1" ++ "_" ++ ("T1" ++ "_" ++ "video.mp4"))) =
      "T1" ∧
    (scanFiles "./downloads"
        (templateTaskID (filepath.Join "downloads" ("T1" ++ "_" ++ "video.mp4")))
        resolutionListing).matchedFiles = ["downloads/T1_video.mp4"] :=
  ⟨(findActualFile_recovers_taskID "./downloads" "downloads" "T1" "video.mp4" resolutionListing
      (by decide) (by decide) (by decide) (by decide)).2.1,
   (findActualFile_recovers_taskID "./downloads" "downloads" "T1" "video.mp4" resolutionListing
      (by decide) (by decide) (by decide) (by decide)).2.2.1.trans (by decide)⟩

/-! ## The file name offered by `DownloadFile` -/

theorem Chars.cut_prefix (p r : List Char) (hp : p ≠ []) :
    Chars.cut (p ++ r) p = some ([], r) := by
  cases hpr : p ++ r with
  | nil =>
    have := List.append_eq_nil.1 hpr
    exact absurd this.1 hp
  | cons c s =>
    have hs : Chars.startsWith (c :: s) p = true :=
      (Chars.startsWith_iff _ _).2 ⟨r, hpr.symm⟩
    simp only [Chars.cut, hs, if_true]
    rw [← hpr]
    simp

theorem Chars.startsWith_head_ne (c c0 : Char) (s sep : List Char) (h : c ≠ c0) :
    Chars.startsWith (c :: s) (c0 :: sep) = false := by
  simp [Chars.startsWith, h]

/-- A separator whose first character does not occur before it is found at
its first occurrence. -/
theorem Chars.cut_first (t r : List Char) (c0 : Char) (sep : List Char) (h : c0 ∉ t) :
    Chars.cut (t ++ (c0 :: sep) ++ r) (c0 :: sep) = some (t, r) := by
  induction t with
  | nil =>
    have := Chars.cut_prefix (c0 :: sep) r (List.cons_ne_nil _ _)
    simpa using this
  | cons c t ih =>
    have hc : c ≠ c0 := fun e => h (by simp [e])
    have ht : c0 ∉ t := fun e => h (List.mem_cons_of_mem _ e)
    show Chars.cut (c :: (t ++ (c0 :: sep) ++ r)) (c0 :: sep) = some (c :: t, r)
    simp only [Chars.cut, Chars.startsWith_head_ne c c0 _ sep hc, ih ht]
    simp

theorem Chars.cut_none (s : List Char) (c0 : Char) (sep : List Char) (h : c0 ∉ s) :
    Chars.cut s (c0 :: sep) = none := by
  induction s with
  | nil => simp [Chars.cut, Chars.startsWith]
  | cons c s ih =>
    have hc : c ≠ c0 := fun e => h (by simp [e])
    have hs : c0 ∉ s := fun e => h (List.mem_cons_of_mem _ e)
    simp only [Chars.cut, Chars.startsWith_head_ne c c0 _ sep hc, ih hs]
    simp

/-- The marker `.f` in `<t>.<e>`, where neither part holds a dot: it is there
exactly when `e` starts with `f`. -/
theorem Chars.cut_marker (t e : List Char) (ht : '.' ∉ t) (he : '.' ∉ e) :
    Chars.cut (t ++ '.' :: e) ['.', 'f'] =
      if Chars.startsWith e ['f'] then some (t, e.drop 1) else none := by
  induction t with
  | nil =>
    cases e with
    | nil => simp [Chars.cut, Chars.startsWith]
    | cons x e1 =>
      have he1 : '.' ∉ e1 := fun h => he (List.mem_cons_of_mem _ h)
      have hx : x ≠ '.' := fun h => he (by simp [h])
      by_cases hf : x = 'f'
      · simp [Chars.cut, Chars.startsWith, hf]
      · have hn := Chars.cut_none (x :: e1) '.' ['f'] he
        have hs : Chars.startsWith ('.' :: x :: e1) ['.', 'f'] = false := by
          simp [Chars.startsWith, hf]
        have hs2 : Chars.startsWith (x :: e1) ['f'] = false := by
          simp [Chars.startsWith, hf]
        have hstep : Chars.cut ('.' :: x :: e1) ['.', 'f'] =
            (if Chars.startsWith ('.' :: x :: e1) ['.', 'f'] then
              some ([], ('.' :: x :: e1).drop 2)
            else match Chars.cut (x :: e1) ['.', 'f'] with
              | some (a, b) => some ('.' :: a, b)
              | none => none) := rfl
        show Chars.cut ('.' :: x :: e1) ['.', 'f'] = _
        rw [hstep, hs, hn, hs2]
        rfl
  | cons c t ih =>
    have hc : c ≠ '.' := fun e1 => ht (by simp [e1])
    have ht1 : '.' ∉ t := fun e1 => ht (List.mem_cons_of_mem _ e1)
    show Chars.cut (c :: (t ++ '.' :: e)) ['.', 'f'] = _
    by_cases hsf : Chars.startsWith e ['f'] = true
    · simp [Chars.cut, Chars.startsWith_head_ne c '.' _ ['f'] hc, ih ht1, hsf]
    · simp [Chars.cut, Chars.startsWith_head_ne c '.' _ ['f'] hc, ih ht1, hsf]

theorem strings.Replace1_prefix (p r : String) (hp : p ≠ "") :
    strings.Replace1 (p ++ r) p "" = r := by
  unfold strings.Replace1
  have hp0 : p.data ≠ [] := fun e => hp (String.ext e)
  rw [String.data_append, Chars.cut_prefix _ _ hp0]
  simp

theorem strings.Replace1_absent (s old : String) (c0 : Char) (sep : List Char)
    (hold : old.data = c0 :: sep) (h : c0 ∉ s.data) : strings.Replace1 s old "" = s := by
  unfold strings.Replace1
  rw [hold, Chars.cut_none _ _ _ h]

theorem friendlyName_marker (id name digits ext : String)
    (hname : '.' ∉ name.data) (hdig : ∀ c ∈ digits.data, regexp.digit c = true)
    (hd0 : digits ≠ "") (hext : '.' ∉ ext.data)
    (hf : Chars.startsWith ext.data ['f'] = false) :
    friendlyName id (id ++ "_" ++ name ++ ".f" ++ digits ++ "." ++ ext) =
      strings.Replace1 (name ++ "." ++ ext) "_merged" "" := by
  have hdot : '.' ∉ digits.data := fun h => absurd (hdig _ h) (by decide)
  have e0 : id ++ "_" ++ name ++ ".f" ++ digits ++ "." ++ ext =
      (id ++ "_") ++ (name ++ ".f" ++ digits ++ "." ++ ext) := by
    simp only [String.append_assoc]
  have hid : id ++ "_" ≠ "" := by
    intro e
    have := congrArg String.data e
    simp [String.data_append] at this
  have hc1 : strings.Contains ((id ++ "_") ++ (name ++ ".f" ++ digits ++ "." ++ ext))
      (id ++ "_") = true :=
    Chars.contains_of_startsWith _ _ (strings.HasPrefix_append _ _)
  have hr1 := strings.Replace1_prefix (id ++ "_") (name ++ ".f" ++ digits ++ "." ++ ext) hid
  have hdata : (name ++ ".f" ++ digits ++ "." ++ ext).data =
      name.data ++ ('.' :: ['f']) ++ (digits.data ++ '.' :: ext.data) := by
    simp [String.data_append]
  have hc2 : strings.Contains (name ++ ".f" ++ digits ++ "." ++ ext) ".f" = true := by
    unfold strings.Contains
    rw [hdata, List.append_assoc]
    exact Chars.contains_infix _ _ _
  have hcut1 : Chars.cut (name ++ ".f" ++ digits ++ "." ++ ext).data ['.', 'f'] =
      some (name.data, digits.data ++ '.' :: ext.data) := by
    rw [hdata]
    exact Chars.cut_first _ _ '.' ['f'] hname
  have hcut2 : Chars.cut (digits.data ++ '.' :: ext.data) ['.', 'f'] = none := by
    rw [Chars.cut_marker _ _ hdot hext, hf]
    rfl
  have hcut3 : Chars.cut (digits.data ++ '.' :: ext.data) ['.'] =
      some (digits.data, ext.data) := by
    have := Chars.cut_first digits.data ext.data '.' [] hdot
    simpa using this
  have hd1 : digits.data ≠ [] := fun e => hd0 (String.ext e)
  have hfin : String.mk (name.data ++ '.' :: ext.data) = name ++ "." ++ ext := by
    apply String.ext
    simp [String.data_append]
  rw [e0]
  unfold friendlyName
  simp only [hc1, if_true, hr1, hc2, hcut1, hcut2, hcut3, hd1, ne_eq, not_false_eq_true, hfin]

theorem friendlyName_plain (id name ext : String)
    (hname : '.' ∉ name.data) (hext : '.' ∉ ext.data) :
    friendlyName id (id ++ "_" ++ name ++ "." ++ ext) =
      strings.Replace1 (name ++ "." ++ ext) "_merged" "" := by
  have e0 : id ++ "_" ++ name ++ "." ++ ext = (id ++ "_") ++ (name ++ "." ++ ext) := by
    simp only [String.append_assoc]
  have hid : id ++ "_" ≠ "" := by
    intro e
    have := congrArg String.data e
    simp [String.data_append] at this
  have hc1 : strings.Contains ((id ++ "_") ++ (name ++ "." ++ ext)) (id ++ "_") = true :=
    Chars.contains_of_startsWith _ _ (strings.HasPrefix_append _ _)
  have hr1 := strings.Replace1_prefix (id ++ "_") (name ++ "." ++ ext) hid
  have hdata : (name ++ "." ++ ext).data = name.data ++ '.' :: ext.data := by
    simp [String.data_append]
  have hcut1 := Chars.cut_marker name.data ext.data hname hext
  rw [e0]
  unfold friendlyName
  simp only [hc1, if_true, hr1, hdata, hcut1]
  by_cases hc2 : strings.Contains (name ++ "." ++ ext) ".f" = true
  · simp only [hc2, if_true]
    by_cases hsf : Chars.startsWith ext.data ['f'] = true
    · have hdrop : '.' ∉ ext.data.drop 1 := fun h => hext (List.mem_of_mem_drop h)
      simp only [hsf, if_true, Chars.cut_none _ '.' ['f'] hdrop, Chars.cut_none _ '.' [] hdrop]
    · simp only [hsf]
      rfl
  · simp only [hc2]
    rfl

theorem Base_of_HasBase (path base : String) (h : HasBase path base) (hv : ValidName base) :
    filepath.Base path = base ∧ path ≠ "" ∧ ∀ wd, filepath.Base (filepath.Join wd path) = base := by
  obtain ⟨h0, h1, h2, h3⟩ := hv
  have hb := filepath.baseChars_tail
  rcases h with h | ⟨dir, h⟩
  · have hp : path = base := String.ext h
    subst hp
    refine ⟨?_, fun e => h0 (by rw [e]), fun wd => (filepath.Base_Join wd _ ⟨h0, h1, h2, h3⟩).1⟩
    unfold filepath.Base
    rw [(hb [] _ h0 h1).2]
  · have hne : path ≠ "" := by
      intro e
      rw [e] at h
      simp at h
    refine ⟨?_, hne, ?_⟩
    · unfold filepath.Base
      rw [h, (hb dir _ h0 h1).1]
    · intro wd
      have hclean : ∀ d : List Char, filepath.baseChars (filepath.cleanChars (d ++ '/' :: base.data)) =
          base.data := by
        intro d
        rcases filepath.cleanChars_append_name d _ h0 h1 h2 h3 with hj | ⟨X, hj⟩
        · rw [hj, (hb [] _ h0 h1).2]
        · rw [hj, (hb X _ h0 h1).1]
      unfold filepath.Base filepath.Join filepath.Clean
      by_cases hw : wd = ""
      · simp only [hw, ne_eq, not_true_eq_false, if_false, hne, not_false_eq_true, if_true]
        rw [h, hclean dir]
      · simp only [ne_eq, hw, not_false_eq_true, if_true]
        rw [h]
        have := hclean (wd.data ++ '/' :: dir)
        simp only [List.append_assoc, List.cons_append] at this
        rw [this]

theorem DownloadFile_ok (s : Service) (id wd : String) (Stat : String → Option String)
    (download : DownloadResponse) (base : String)
    (htask : s.task id = some download) (hdone : download.Status = StatusCompleted)
    (hbase : HasBase download.File base) (hv : ValidName base)
    (hstat : Stat (absPathOf wd download.File) = none) :
    DownloadFile s id (Except.ok wd) Stat =
      Except.ok (absPathOf wd download.File, friendlyName id base) := by
  obtain ⟨hb1, hne, hb2⟩ := Base_of_HasBase _ _ hbase hv
  unfold DownloadFile
  simp only [htask, hdone, ne_eq, not_true_eq_false, if_false, hne]
  unfold absPathOf at hstat ⊢
  by_cases habs : filepath.IsAbs download.File = true
  · simp only [habs, if_true] at hstat ⊢
    simp only [hstat, hb1]
  · have habs2 : filepath.IsAbs download.File = false := by simpa using habs
    rw [habs2] at hstat ⊢
    simp only [Bool.false_eq_true, if_false] at hstat ⊢
    simp only [hstat, hb2 wd]

/-- C27, counterexample: the completed task `t1` has the file
`downloads/t1_my_merged.mp4`, of the form `<id>_<name>.<ext>` with the name
`my_merged`; `DownloadFile` offers `my.mp4`, not `my_merged.mp4`. -/
theorem DownloadFile_drops_merged :
    DownloadFile (doneService "downloads/t1_my_merged.mp4") "t1" (Except.ok "/srv/app")
        (fun _ => none) =
      Except.ok ("/srv/app/downloads/t1_my_merged.mp4", "my.mp4") ∧
    "t1_my_merged.mp4" = "t1" ++ "_" ++ "my_merged" ++ "." ++ "mp4" := by
  constructor
  · rfl
  · rfl

/-- C27, amended: the registry holds the completed task `id` (without slash in
the ID) and `os.Stat` finds its file; `name`, `digits` and `ext` hold neither
dot nor slash. When the file has the base name `<id>_<name>.f<digits>.<ext>`
with at least one digit and `ext` not starting with `f`, or the base name
`<id>_<name>.<ext>`, `DownloadFile` sends the file and offers the name
`<name>.<ext>` with its first `_merged` removed; that is `<name>.<ext>` itself
when `name` and `ext` hold no `_`. -/
theorem DownloadFile_offers (s : Service) (id wd : String) (Stat : String → Option String)
    (download : DownloadResponse) (name digits ext : String)
    (htask : s.task id = some download) (hdone : download.Status = StatusCompleted)
    (hstat : Stat (absPathOf wd download.File) = none)
    (hid : '/' ∉ id.data)
    (hname : '.' ∉ name.data ∧ '/' ∉ name.data) (hext : '.' ∉ ext.data ∧ '/' ∉ ext.data)
    (hdig : ∀ c ∈ digits.data, regexp.digit c = true) :
    (HasBase download.File (id ++ "_" ++ name ++ ".f" ++ digits ++ "." ++ ext) →
      digits ≠ "" → Chars.startsWith ext.data ['f'] = false →
      DownloadFile s id (Except.ok wd) Stat =
        Except.ok (absPathOf wd download.File,
          strings.Replace1 (name ++ "." ++ ext) "_merged" "")) ∧
    (HasBase download.File (id ++ "_" ++ name ++ "." ++ ext) →
      DownloadFile s id (Except.ok wd) Stat =
        Except.ok (absPathOf wd download.File,
          strings.Replace1 (name ++ "." ++ ext) "_merged" "")) ∧
    ('_' ∉ name.data → '_' ∉ ext.data →
      strings.Replace1 (name ++ "." ++ ext) "_merged" "" = name ++ "." ++ ext) := by
  have hds : '/' ∉ digits.data := fun h => absurd (hdig _ h) (by decide)
  refine ⟨?_, ?_, ?_⟩
  · intro hbase hd0 hf
    have hv : ValidName (id ++ "_" ++ name ++ ".f" ++ digits ++ "." ++ ext) := by
      have e : id ++ "_" ++ name ++ ".f" ++ digits ++ "." ++ ext =
          id ++ "_" ++ (name ++ ".f" ++ digits ++ "." ++ ext) := by
        simp only [String.append_assoc]
      rw [e]
      apply prefixed_valid id _ hid
      simp only [String.data_append, List.mem_append, not_or]
      exact ⟨⟨⟨⟨hname.2, by decide⟩, hds⟩, by decide⟩, hext.2⟩
    rw [DownloadFile_ok s id wd Stat download _ htask hdone hbase hv hstat,
      friendlyName_marker id name digits ext hname.1 hdig hd0 hext.1 hf]
  · intro hbase
    have hv : ValidName (id ++ "_" ++ name ++ "." ++ ext) := by
      have e : id ++ "_" ++ name ++ "." ++ ext = id ++ "_" ++ (name ++ "." ++ ext) := by
        simp only [String.append_assoc]
      rw [e]
      apply prefixed_valid id _ hid
      simp only [String.data_append, List.mem_append, not_or]
      exact ⟨⟨hname.2, by decide⟩, hext.2⟩
    rw [DownloadFile_ok s id wd Stat download _ htask hdone hbase hv hstat,
      friendlyName_plain id name ext hname.1 hext.1]
  · intro h1 h2
    apply strings.Replace1_absent _ "_merged" '_' ['m', 'e', 'r', 'g', 'e', 'd'] rfl
    simp only [String.data_append, List.mem_append, not_or]
    exact ⟨⟨h1, by decide⟩, h2⟩

/-- Witness of C27 (amended): the file `downloads/t1_clip.f100.mp4` of task
`t1` is offered as `clip.mp4`. -/
theorem DownloadFile_offers_witness :
    DownloadFile (doneService "downloads/t1_clip.f100.mp4") "t1" (Except.ok "/srv/app")
        (fun _ => none) =
      Except.ok ("/srv/app/downloads/t1_clip.f100.mp4", "clip.mp4") :=
  ((DownloadFile_offers (doneService "downloads/t1_clip.f100.mp4") "t1" "/srv/app"
      (fun _ => none)
      { ID := "t1", Status := StatusCompleted, Progress := 100,
        File := "downloads/t1_clip.f100.mp4" }
      "clip" "100" "mp4" rfl rfl rfl (by decide) (by decide) (by decide) (by decide)).1
    (Or.inr ⟨"downloads".data, rfl⟩) (by decide) (by decide)).trans rfl

/-! ## `convertDouyinUrl` -/

namespace Grammar

open regexp

theorem det_literals (L : List Char) (X : List Item) (hX : Det X) : Det (L.map lit ++ X) := by
  induction L with
  | nil => exact hX
  | cons c L ih => exact ih

theorem matchAt_literals (L : List Char) (X : List Item) :
    ∀ (s : List Char) (pos : Nat), matchAt (L.map lit ++ X) s pos =
      if Chars.startsWith s L then matchAt X (s.drop L.length) (pos + L.length) else none := by
  induction L with
  | nil =>
    intro s pos
    cases s <;> simp [Chars.startsWith]
  | cons c0 L ih =>
    intro s pos
    cases s with
    | nil => simp [matchAt, lit, Chars.startsWith]
    | cons c s1 =>
      have hstep : matchAt ((c0 :: L).map lit ++ X) (c :: s1) pos =
          (if (c == c0) = true then matchAt (L.map lit ++ X) s1 (pos + 1) else none) := by
        simp [matchAt, lit]
      rw [hstep, ih s1 (pos + 1)]
      by_cases hc : (c == c0) = true
      · have hpos : pos + 1 + L.length = pos + (L.length + 1) := by omega
        simp [Chars.startsWith, hc, hpos]
      · simp [Chars.startsWith, hc]

theorem matchAt_digits (t : List Char) (q : Nat) :
    matchAt [Item.mark, Item.cls digit Quant.plus, Item.mark] t q =
      if t.takeWhile digit ≠ [] then
        some [q, q + (t.takeWhile digit).length, q + (t.takeWhile digit).length]
      else none := by
  cases t with
  | nil => simp [matchAt]
  | cons c t1 =>
    by_cases hc : digit c = true
    · have hpos : q + 1 + (t1.takeWhile digit).length = q + ((t1.takeWhile digit).length + 1) := by
        omega
      simp [matchAt, List.takeWhile, hc, hpos]
    · simp [matchAt, List.takeWhile, hc]

theorem det_video : Det (literalThenDigits "douyin.com/video/") := by
  unfold literalThenDigits
  apply det_literals
  refine ⟨?_, trivial⟩
  intro s pos h
  simp [matchAt] at h

theorem take_length_takeWhile (p : Char → Bool) (l : List Char) :
    l.take (l.takeWhile p).length = l.takeWhile p := by
  induction l with
  | nil => rfl
  | cons c l ih =>
    by_cases hc : p c = true
    · simp [List.takeWhile, hc, ih]
    · simp [List.takeWhile, hc]

theorem slice_shift (pre s : List Char) (i n : Nat) :
    regexp.slice (pre ++ s) (pre.length + i) (pre.length + i + n) =
      String.mk ((s.drop i).take n) := by
  unfold regexp.slice
  have h1 : (pre ++ s).drop (pre.length + i) = s.drop i := by
    rw [← List.drop_drop, List.drop_left]
  have h2 : pre.length + i + n - (pre.length + i) = n := by omega
  rw [h1, h2]

end Grammar

theorem matchAt_video (s : List Char) (pos : Nat) :
    Grammar.matchAt (literalThenDigits "douyin.com/video/") s pos =
      if Chars.startsWith s "douyin.com/video/".data ∧
          ((s.drop 17).takeWhile regexp.digit) ≠ [] then
        some [pos + 17, pos + 17 + ((s.drop 17).takeWhile regexp.digit).length,
          pos + 17 + ((s.drop 17).takeWhile regexp.digit).length]
      else none := by
  have hlen : "douyin.com/video/".data.length = 17 := rfl
  unfold literalThenDigits
  rw [Grammar.matchAt_literals, hlen, Grammar.matchAt_digits]
  by_cases h1 : Chars.startsWith s "douyin.com/video/".data = true
  · by_cases h2 : (s.drop 17).takeWhile regexp.digit = []
    · simp [h1, h2]
    · simp [h1, h2]
  · simp [h1]

/-- The match of `douyin\.com/video/(\d+)` that `convertDouyinUrl` takes: its
group is the digit run of `firstVideoID`. -/
theorem find_video (s : List Char) : ∀ pre : List Char,
    (match Grammar.find (literalThenDigits "douyin.com/video/") s pre.length with
      | some (a :: b :: _) => some (regexp.slice (pre ++ s) a b)
      | _ => none) = (firstVideoID s).map String.mk := by
  induction s with
  | nil =>
    intro pre
    simp only [Grammar.find, matchAt_video, firstVideoID]
    rfl
  | cons c s ih =>
    intro pre
    simp only [Grammar.find, matchAt_video, firstVideoID]
    by_cases h : Chars.startsWith (c :: s) "douyin.com/video/".data = true ∧
        (((c :: s).drop 17).takeWhile regexp.digit) ≠ []
    · rw [if_pos h, if_pos h]
      simp only [Option.map_some']
      rw [Grammar.slice_shift pre (c :: s) 17, Grammar.take_length_takeWhile]
    · rw [if_neg h, if_neg h]
      have hi := ih (pre ++ [c])
      simp only [List.length_append, List.length_singleton, List.append_assoc,
        List.singleton_append] at hi
      exact hi

theorem firstVideoID_digits (s id : List Char) (h : firstVideoID s = some id) :
    id ≠ [] ∧ (∀ c ∈ id, regexp.digit c = true) ∧
      Chars.contains s "douyin.com/video/".data = true := by
  induction s with
  | nil => simp [firstVideoID] at h
  | cons c s ih =>
    simp only [firstVideoID] at h
    split at h
    · rename_i hc
      have e := Option.some.inj h
      refine ⟨by rw [← e]; exact hc.2, ?_, Chars.contains_of_startsWith _ _ hc.1⟩
      intro x hx
      rw [← e] at hx
      exact List.mem_takeWhile_imp hx
    · obtain ⟨h1, h2, h3⟩ := ih h
      refine ⟨h1, h2, ?_⟩
      simp [Chars.contains, h3]

/-- The conversion is the one described by `canonicalDouyinUrl`. -/
theorem convertDouyinUrl_canonical (url : String) :
    convertDouyinUrl url = canonicalDouyinUrl url := by
  unfold convertDouyinUrl canonicalDouyinUrl
  by_cases hs : strings.Contains url "v.douyin.com" = true
  · rw [if_pos hs, if_pos hs]
  · rw [if_neg hs, if_neg hs]
    have hf := find_video url.data []
    rw [← Grammar.find_eq_find _ Grammar.det_video] at hf
    simp only [List.length_nil, List.nil_append] at hf
    by_cases hc : strings.Contains url "douyin.com/video/" = true
    · rw [if_pos hc]
      cases hr : regexp.find (literalThenDigits "douyin.com/video/") url.data 0 with
      | none =>
        rw [hr] at hf
        cases hv : firstVideoID url.data with
        | none => rfl
        | some id => rw [hv] at hf; simp at hf
      | some r =>
        rw [hr] at hf
        match r, hf with
        | [], hf =>
          cases hv : firstVideoID url.data with
          | none => rfl
          | some id => rw [hv] at hf; simp at hf
        | [_], hf =>
          cases hv : firstVideoID url.data with
          | none => rfl
          | some id => rw [hv] at hf; simp at hf
        | a :: b :: _, hf =>
          cases hv : firstVideoID url.data with
          | none => rw [hv] at hf; simp at hf
          | some id =>
            rw [hv] at hf
            simp only [Option.map_some', Option.some.injEq] at hf
            simp only [hf]
    · rw [if_neg hc]
      cases hv : firstVideoID url.data with
      | none => rfl
      | some id => exact absurd (firstVideoID_digits _ _ hv).2.2 hc

theorem Chars.contains_digits_short (ds : List Char) (h : ∀ c ∈ ds, regexp.digit c = true) :
    Chars.contains ds "v.douyin.com".data = false := by
  induction ds with
  | nil => rfl
  | cons c ds ih =>
    have hc : c ≠ 'v' := by
      intro e
      have := h c (List.mem_cons_self _ _)
      rw [e] at this
      exact absurd this (by decide)
    have hs : Chars.startsWith (c :: ds) "v.douyin.com".data = false :=
      Chars.startsWith_head_ne c 'v' ds _ hc
    have ih1 := ih (fun x hx => h x (List.mem_cons_of_mem _ hx))
    simp only [Chars.contains, hs, ih1]
    rfl

theorem canonical_not_short (id : List Char) (h : ∀ c ∈ id, regexp.digit c = true) :
    strings.Contains ("https://www.douyin.com/video/" ++ String.mk id) "v.douyin.com" = false := by
  unfold strings.Contains
  have hd : ("https://www.douyin.com/video/" ++ String.mk id).data =
      'h' :: 't' :: 't' :: 'p' :: 's' :: ':' :: '/' :: '/' :: 'w' :: 'w' :: 'w' :: '.' :: 'd' ::
      'o' :: 'u' :: 'y' :: 'i' :: 'n' :: '.' :: 'c' :: 'o' :: 'm' :: '/' :: 'v' :: 'i' :: 'd' ::
      'e' :: 'o' :: '/' :: id := by
    rw [String.data_append]
    rfl
  have ht : "v.douyin.com".data =
      ['v', '.', 'd', 'o', 'u', 'y', 'i', 'n', '.', 'c', 'o', 'm'] := rfl
  have hid := Chars.contains_digits_short id h
  rw [ht] at hid
  rw [hd, ht]
  simp [Chars.contains, Chars.startsWith, hid]

theorem firstVideoID_canonical (id : List Char) (h0 : id ≠ [])
    (h : ∀ c ∈ id, regexp.digit c = true) :
    firstVideoID ("https://www.douyin.com/video/" ++ String.mk id).data = some id := by
  have hd : ("https://www.douyin.com/video/" ++ String.mk id).data =
      'h' :: 't' :: 't' :: 'p' :: 's' :: ':' :: '/' :: '/' :: 'w' :: 'w' :: 'w' :: '.' :: 'd' ::
      'o' :: 'u' :: 'y' :: 'i' :: 'n' :: '.' :: 'c' :: 'o' :: 'm' :: '/' :: 'v' :: 'i' :: 'd' ::
      'e' :: 'o' :: '/' :: id := by
    rw [String.data_append]
    rfl
  have hl : "douyin.com/video/".data =
      ['d', 'o', 'u', 'y', 'i', 'n', '.', 'c', 'o', 'm', '/', 'v', 'i', 'd', 'e', 'o', '/'] := rfl
  have htw : id.takeWhile regexp.digit = id := filepath.takeWhile_all _ _ h
  have hs : ∀ r : List Char, Chars.startsWith r [] = true := by
    intro r; cases r <;> rfl
  rw [hd]
  simp [firstVideoID, hl, Chars.startsWith, htw, h0, hs]

/-- Converting twice is converting once. -/
theorem convertDouyinUrl_twice (url : String) :
    convertDouyinUrl (convertDouyinUrl url) = convertDouyinUrl url := by
  by_cases hs : strings.Contains url "v.douyin.com" = true
  · rw [convertDouyinUrl_short url hs, convertDouyinUrl_short url hs]
  · have h1 : convertDouyinUrl url = canonicalDouyinUrl url := convertDouyinUrl_canonical url
    unfold canonicalDouyinUrl at h1
    rw [if_neg hs] at h1
    cases hv : firstVideoID url.data with
    | none =>
      rw [hv] at h1
      simp only at h1
      rw [h1, h1]
    | some id =>
      rw [hv] at h1
      simp only at h1
      obtain ⟨h0, hdig, _⟩ := firstVideoID_digits _ _ hv
      rw [h1, convertDouyinUrl_canonical]
      unfold canonicalDouyinUrl
      rw [canonical_not_short id hdig, firstVideoID_canonical id h0 hdig]
      rfl

/-- A URL without `v.douyin.com` has none after the conversion either. -/
theorem convertDouyinUrl_not_short (url : String)
    (hs : strings.Contains url "v.douyin.com" = false) :
    strings.Contains (convertDouyinUrl url) "v.douyin.com" = false := by
  rw [convertDouyinUrl_canonical]
  unfold canonicalDouyinUrl
  rw [hs]
  simp only [Bool.false_eq_true, if_false]
  cases hv : firstVideoID url.data with
  | none => exact hs
  | some id => exact canonical_not_short id (firstVideoID_digits _ _ hv).2.1

theorem firstVideoID_here (r0 : List Char) (d : Char) (r : List Char)
    (h : r0 = "douyin.com/video/".data ++ d :: r) (hd : regexp.digit d = true) :
    ∃ c s, r0 = c :: s ∧ Chars.startsWith (c :: s) "douyin.com/video/".data = true ∧
      ((c :: s).drop 17).takeWhile regexp.digit ≠ [] := by
  have hl : "douyin.com/video/".data.length = 17 := rfl
  refine ⟨'d', "ouyin.com/video/".data ++ d :: r, by rw [h]; rfl, ?_, ?_⟩
  · exact (Chars.startsWith_iff _ _).2 ⟨d :: r, rfl⟩
  · have e : ('d' :: ("ouyin.com/video/".data ++ d :: r)).drop 17 = d :: r := rfl
    rw [e]
    simp [List.takeWhile, hd]

/-- Without a result of `firstVideoID`, no `douyin.com/video/` in the text is
followed by a digit. -/
theorem firstVideoID_none (s : List Char) (h : firstVideoID s = none) :
    ∀ a d r, s = a ++ "douyin.com/video/".data ++ d :: r → regexp.digit d = false := by
  intro a
  induction a generalizing s with
  | nil =>
    intro d r hs
    cases hd : regexp.digit d with
    | false => rfl
    | true =>
      exfalso
      obtain ⟨c, s1, e, h1, h2⟩ := firstVideoID_here s d r (by simpa using hs) hd
      rw [e] at h
      simp only [firstVideoID] at h
      rw [if_pos ⟨h1, h2⟩] at h
      exact Option.noConfusion h
  | cons x a ih =>
    intro d r hs
    have hs2 : s = x :: (a ++ "douyin.com/video/".data ++ d :: r) := by simpa using hs
    rw [hs2] at h
    simp only [firstVideoID] at h
    split at h
    · exact Option.noConfusion h
    · exact ih _ h d r rfl

/-- The result of `firstVideoID` is a full digit run right after a
`douyin.com/video/`, and no earlier `douyin.com/video/` is followed by a
digit. -/
theorem firstVideoID_some (s id : List Char) (h : firstVideoID s = some id) :
    ∃ a rest, s = a ++ "douyin.com/video/".data ++ id ++ rest ∧ id ≠ [] ∧
      (∀ c ∈ id, regexp.digit c = true) ∧ (∀ c r, rest = c :: r → regexp.digit c = false) ∧
      ∀ a1 d r1, s = a1 ++ "douyin.com/video/".data ++ d :: r1 → regexp.digit d = true →
        a.length ≤ a1.length := by
  induction s with
  | nil => simp [firstVideoID] at h
  | cons c s ih =>
    simp only [firstVideoID] at h
    split at h
    · rename_i hc
      have e := Option.some.inj h
      obtain ⟨r0, hr0⟩ := (Chars.startsWith_iff _ _).1 hc.1
      have hdrop : (c :: s).drop 17 = r0 := by
        rw [hr0]
        have hl : "douyin.com/video/".data.length = 17 := rfl
        rw [← hl, List.drop_left]
      rw [hdrop] at e hc
      refine ⟨[], r0.dropWhile regexp.digit, ?_, by rw [← e]; exact hc.2, ?_, ?_, ?_⟩
      · rw [hr0, ← e]
        simp [List.takeWhile_append_dropWhile]
      · intro x hx
        rw [← e] at hx
        exact List.mem_takeWhile_imp hx
      · intro x r hx
        have := (Grammar.dropWhile_twice regexp.digit r0).2
        rw [hx] at this
        cases hd : regexp.digit x with
        | false => rfl
        | true => simp [List.takeWhile, hd] at this
      · intro a1 d r1 _ _
        exact Nat.zero_le _
    · rename_i hc
      obtain ⟨a, rest, hs, h0, hdig, hrest, hfirst⟩ := ih h
      refine ⟨c :: a, rest, by rw [hs]; simp, h0, hdig, hrest, ?_⟩
      intro a1 d r1 hs1 hd
      cases a1 with
      | nil =>
        exfalso
        obtain ⟨c1, s1, e1, h1, h2⟩ := firstVideoID_here (c :: s) d r1 (by simpa using hs1) hd
        rw [e1] at hc
        exact hc ⟨h1, h2⟩
      | cons x a2 =>
        have hs2 : s = a2 ++ "douyin.com/video/".data ++ d :: r1 := by
          have := List.tail_eq_of_cons_eq (by simpa using hs1 : c :: s = x :: _)
          simpa using this
        have := hfirst a2 d r1 hs2 hd
        simp only [List.length_cons]
        omega

theorem takeWhile_run (p : Char → Bool) (x r : List Char) (hall : ∀ c ∈ x, p c = true)
    (hhead : ∀ c r1, r = c :: r1 → p c = false) : (x ++ r).takeWhile p = x := by
  cases r with
  | nil => rw [List.append_nil]; exact filepath.takeWhile_all p x hall
  | cons c r1 => exact filepath.takeWhile_append_stop p x r1 c hall (hhead c r1 rfl)

/-- C25: `convertDouyinUrl` keeps a URL that contains `v.douyin.com`. For any
other URL, when `douyin.com/video/` occurs with a digit right after it, the
result is `https://www.douyin.com/video/<id>`, where `<id>` is the whole digit
run after the first such occurrence; when there is no such occurrence the URL
is kept. Converting a second time changes nothing. -/
theorem convertDouyinUrl_spec (url : String) :
    (strings.Contains url "v.douyin.com" = true → convertDouyinUrl url = url) ∧
    (strings.Contains url "v.douyin.com" = false →
      ∀ a id rest, url.data = a ++ "douyin.com/video/".data ++ id ++ rest → id ≠ [] →
        (∀ c ∈ id, regexp.digit c = true) → (∀ c r, rest = c :: r → regexp.digit c = false) →
        (∀ a1 d r1, url.data = a1 ++ "douyin.com/video/".data ++ d :: r1 →
          regexp.digit d = true → a.length ≤ a1.length) →
        convertDouyinUrl url = "https://www.douyin.com/video/" ++ String.mk id) ∧
    (strings.Contains url "v.douyin.com" = false →
      (∀ a d r, url.data = a ++ "douyin.com/video/".data ++ d :: r → regexp.digit d = false) →
      convertDouyinUrl url = url) ∧
    convertDouyinUrl (convertDouyinUrl url) = convertDouyinUrl url := by
  refine ⟨convertDouyinUrl_short url, ?_, ?_, convertDouyinUrl_twice url⟩
  · intro hs a id rest hurl h0 hdig hrest hfirst
    obtain ⟨d, id0, hid⟩ : ∃ d id0, id = d :: id0 := by
      cases id with
      | nil => exact absurd rfl h0
      | cons d id0 => exact ⟨d, id0, rfl⟩
    have hd : regexp.digit d = true := hdig d (by rw [hid]; exact List.mem_cons_self _ _)
    have hocc : url.data = a ++ "douyin.com/video/".data ++ d :: (id0 ++ rest) := by
      rw [hurl, hid]; simp
    cases hv : firstVideoID url.data with
    | none =>
      have := firstVideoID_none _ hv a d (id0 ++ rest) hocc
      rw [hd] at this
      exact Bool.noConfusion this
    | some id1 =>
      obtain ⟨a1, rest1, hs1, h01, hdig1, hrest1, hfirst1⟩ := firstVideoID_some _ _ hv
      obtain ⟨d1, id2, hid1⟩ : ∃ d1 id2, id1 = d1 :: id2 := by
        cases id1 with
        | nil => exact absurd rfl h01
        | cons d1 id2 => exact ⟨d1, id2, rfl⟩
      have hd1 : regexp.digit d1 = true :=
        hdig1 d1 (by rw [hid1]; exact List.mem_cons_self _ _)
      have hocc1 : url.data = a1 ++ "douyin.com/video/".data ++ d1 :: (id2 ++ rest1) := by
        rw [hs1, hid1]; simp
      have hle1 := hfirst1 a d (id0 ++ rest) hocc hd
      have hle2 := hfirst a1 d1 (id2 ++ rest1) hocc1 hd1
      have heq : a ++ ("douyin.com/video/".data ++ (id ++ rest)) =
          a1 ++ ("douyin.com/video/".data ++ (id1 ++ rest1)) := by
        have := hurl.symm.trans hs1
        simpa using this
      have hinj := List.append_inj heq (by omega)
      have htail : id ++ rest = id1 ++ rest1 := List.append_cancel_left hinj.2
      have hrun : id = id1 := by
        rw [← takeWhile_run regexp.digit id rest hdig hrest,
          ← takeWhile_run regexp.digit id1 rest1 hdig1 hrest1, htail]
      rw [convertDouyinUrl_canonical]
      unfold canonicalDouyinUrl
      rw [hs, hv, hrun]
      rfl
  · intro hs hnone
    rw [convertDouyinUrl_canonical]
    unfold canonicalDouyinUrl
    rw [hs]
    cases hv : firstVideoID url.data with
    | none => rfl
    | some id1 =>
      exfalso
      obtain ⟨a1, rest1, hs1, h01, hdig1, _, _⟩ := firstVideoID_some _ _ hv
      obtain ⟨d1, id2, hid1⟩ : ∃ d1 id2, id1 = d1 :: id2 := by
        cases id1 with
        | nil => exact absurd rfl h01
        | cons d1 id2 => exact ⟨d1, id2, rfl⟩
      have hd1 : regexp.digit d1 = true :=
        hdig1 d1 (by rw [hid1]; exact List.mem_cons_self _ _)
      have := hnone a1 d1 (id2 ++ rest1) (by rw [hs1, hid1]; simp)
      rw [hd1] at this
      exact Bool.noConfusion this

/-- Witness of C25: a mobile link with a query string. -/
theorem convertDouyinUrl_spec_witness :
    convertDouyinUrl "https://m.douyin.com/video/12345?x=1" =
      "https://www.douyin.com/video/12345" ∧
    convertDouyinUrl "https://v.douyin.com/abc/" = "https://v.douyin.com/abc/" :=
  ⟨((convertDouyinUrl_spec "https://m.douyin.com/video/12345?x=1").2.1 (by decide)
      "https://m.".data "12345".data "?x=1".data rfl (by decide) (by decide)
      (by intro c r h; have e := (List.cons.inj h).1; rw [← e]; rfl)
      (by
        intro a1 d r1 h hd
        rcases a1 with _ | ⟨x1, _ | ⟨x2, _ | ⟨x3, _ | ⟨x4, _ | ⟨x5, _ | ⟨x6, _ | ⟨x7, _ | ⟨x8,
          _ | ⟨x9, _ | ⟨x10, a1⟩⟩⟩⟩⟩⟩⟩⟩⟩⟩
        all_goals first
          | (exfalso; simp at h; done)
          | (show 10 ≤ _; simp only [List.length_cons]; omega))).trans rfl,
   (convertDouyinUrl_spec "https://v.douyin.com/abc/").1 (by decide)⟩

/-! ## Falling back to the extraction process -/

theorem extractionUrl_converted (url : String) :
    extractionUrl (convertDouyinUrl url) = convertDouyinUrl url := by
  unfold extractionUrl
  split
  · rfl
  · split
    · rfl
    · split
      · exact convertDouyinUrl_twice url
      · rfl

/-- C22, counterexample: a short link whose direct resolution fails, with an
extraction process that would succeed. `GetVideoInfo` returns the short-link
failure; the result of the extraction run for the same URL is a descriptor
without error. -/
theorem GetVideoInfo_short_link_no_fallback :
    (GetVideoInfo { YtDlpPath := "/usr/bin/yt-dlp", OutputDir := "./downloads" } bareExtractor
        "https://v.douyin.com/abc/").2 = some "抖音短链接解析失败: direct resolution failed" ∧
    runExtraction { YtDlpPath := "/usr/bin/yt-dlp", OutputDir := "./downloads" } bareExtractor
        "https://v.douyin.com/abc/" =
      (some { Title := "clip", Formats := [], CanDownload := true }, none) := by
  constructor
  · rfl
  · rfl

/-- C22, amended: a URL that contains `douyin.com` but not `v.douyin.com`, for
which direct resolution gives an error or no media URL. `GetVideoInfo` then
returns what the extraction run for the converted URL gives, and that URL is
the last argument of the process. For a URL that contains `v.douyin.com` the
failure of direct resolution is returned to the caller instead. -/
theorem GetVideoInfo_long_link_fallback (cfg : Config) (env : Extractor) (url : String)
    (hfail : ¬ ((env.getDouyinRealUrl (convertDouyinUrl url)).2.2 = none ∧
      (env.getDouyinRealUrl (convertDouyinUrl url)).1 ≠ "")) :
    (strings.Contains url "douyin.com" = true → strings.Contains url "v.douyin.com" = false →
      GetVideoInfo cfg env url = runExtraction cfg env (convertDouyinUrl url) ∧
      ∃ pre, extractionArgs cfg (convertDouyinUrl url) = pre ++ [convertDouyinUrl url]) ∧
    (strings.Contains url "v.douyin.com" = true →
      (GetVideoInfo cfg env url).2 = some ("抖音短链接解析失败: " ++
        (env.getDouyinRealUrl url).2.2.getD "<nil>")) := by
  constructor
  · intro hd hlong
    have hdr : directReturns env url = false := by
      unfold directReturns
      rw [convertDouyinUrl_not_short url hlong]
      cases h1 : (env.getDouyinRealUrl (convertDouyinUrl url)).2.2 with
      | none =>
        have h2 : (env.getDouyinRealUrl (convertDouyinUrl url)).1 = "" := by
          by_contra hne
          exact hfail ⟨h1, hne⟩
        simp [h2]
      | some e => simp
    have hpre : preUrl url = convertDouyinUrl url := by
      unfold preUrl
      rw [hd]
      rfl
    refine ⟨?_, ?_⟩
    · rw [GetVideoInfo_reaches_extraction cfg env url hdr, hpre]
    · unfold extractionArgs
      rw [extractionUrl_converted]
      exact ⟨_, rfl⟩
  · intro hshort
    rw [convertDouyinUrl_short url hshort] at hfail
    have hd : (strings.Contains url "douyin.com" || strings.Contains url "v.douyin.com") =
        true := by
      rw [hshort, Bool.or_true]
    unfold GetVideoInfo
    rw [if_pos hd]
    simp only [convertDouyinUrl_short url hshort]
    rw [if_neg hfail, if_pos hshort]

/-- Witness of C22 (amended): a long link whose direct resolution fails gets
the result of the extraction run. -/
theorem GetVideoInfo_long_link_fallback_witness :
    GetVideoInfo { YtDlpPath := "/usr/bin/yt-dlp", OutputDir := "./downloads" } bareExtractor
        "https://www.douyin.com/video/123?x=1" =
      (some { Title := "clip", Formats := [], CanDownload := true }, none) :=
  (((GetVideoInfo_long_link_fallback
      { YtDlpPath := "/usr/bin/yt-dlp", OutputDir := "./downloads" } bareExtractor
      "https://www.douyin.com/video/123?x=1" (by decide)).1 (by decide) (by decide)).1).trans rfl

end VideoHunter
